import Mathlib

/-!
# Projection of refract element trees to V8 values (`src/refractToV8.cc`)

A shallow embedding of `refractToV8.cc`: the element tree that the drafter parser hands over,
the V8 values that the binding builds from it, and the functions `ElementToObject`,
`v8ElementCollection`, `v8Element`, `v8ValueList`, `v8RefElement`, the `v8Wrapper` call
operators and `refract2v8`.

Conventions of the embedding.

* A `Local<Value>` is an `Option Value`: `none` is the empty handle that a default constructed
  `Local<Value>` holds.
* A `const IElement*` or `std::unique_ptr<IElement>` is an `Option Element`: `none` is the null
  pointer.
* An outcome is an `Except Failure _`: `throw NotImplemented(...)`, the dereference of a null
  element pointer, `ToLocalChecked()` on an empty `MaybeLocal` and a call of `Set` whose value
  handle is empty end the conversion.
* `std::string` values are texts; the conversion `v8_string` keeps the text as it is.
* `JSON.parse` of the host runtime is a parameter `jsonParse` of every function; `none` is
  the empty `MaybeLocal` of a text that does not parse.
-/

namespace RefractToV8

/-! ## The values of the host runtime and the element tree -/

/-- The ways in which a conversion ends without a value. -/
inductive Failure where
  /-- The exception of `throw NotImplemented(msg)`. -/
  | notImplemented (msg : String)
  /-- The call `e->content(v)` on a null element pointer. -/
  | nullDereference
  /-- The call `ToLocalChecked()` on an empty `MaybeLocal`. -/
  | emptyMaybeLocal
  /-- The call `Set(context, key, value)` with an empty value handle. -/
  | emptyHandle
  deriving DecidableEq, Repr

/-- The values of the host runtime that the binding builds. An array keeps one slot per index
below its length and a slot that was never written is a hole (`none`); an object keeps its
properties in the order in which they were first set. -/
inductive Value where
  | null
  | bool (b : Bool)
  /-- A number, named by its canonical rendering. -/
  | number (repr : String)
  | string (s : String)
  | array (items : List (Option Value))
  | object (fields : List (String × Value))

/-- The properties of a `Local<Object>`, in the order in which they were first set. -/
abbrev Obj := List (String × Value)

/-- The slots of a `Local<Array>`. -/
abbrev Arr := List (Option Value)

mutual
/-- The element tree of `refract/Element.h`, one constructor per overload of
`v8Wrapper::operator()`. Every constructor carries the element name `element()`, and the
`meta()` and `attributes()` collections as `info`.

For the kinds whose call operator asks `e.empty()`, the content is `none` exactly when
`e.empty()` holds. For the kinds whose call operator reads `e.get()` without asking, `isEmpty`
is `e.empty()` and the other fields are what the operator reads from `e.get()`. -/
inductive Element where
  | null (element : String) (info : Info) (isEmpty : Bool)
  | string (element : String) (info : Info) (content : Option String)
  /-- The content of a number is its textual form `e.get().get()`. -/
  | number (element : String) (info : Info) (content : Option String)
  | boolean (element : String) (info : Info) (content : Option Bool)
  /-- The fields `key` and `value` are `e.get().key()` and `e.get().value()`. -/
  | member (element : String) (info : Info) (isEmpty : Bool) (key value : Option Element)
  /-- The field `content` is the list of the element itself; `resolved` is the list
  `val->get()` of the element `val` that `GetValue<const ArrayElement>` returns, when
  `val && !val->empty()`, and `none` otherwise. -/
  | array (element : String) (info : Info) (content : Option (List (Option Element)))
      (resolved : Option (List (Option Element)))
  /-- The content of an enum is `e.get().value()`. -/
  | enum (element : String) (info : Info) (content : Option (Option Element))
  | extend (element : String) (info : Info) (content : Option (List (Option Element)))
  | option (element : String) (info : Info) (content : Option (List (Option Element)))
  | select (element : String) (info : Info) (content : Option (List (Option Element)))
  | object (element : String) (info : Info) (content : Option (List (Option Element)))
  /-- An element that the visitor hands to the overload for `const IElement&`. -/
  | other (element : String) (info : Info) (isEmpty : Bool)
  /-- The field `symbol` is `e.get().symbol()`. -/
  | ref (element : String) (info : Info) (isEmpty : Bool) (symbol : String)
  /-- The content of a holder is `e.get().data()`. -/
  | holder (element : String) (info : Info) (content : Option (Option Element))
/-- The two `InfoElements` collections of an element: each an ordered sequence of pairs of a
key and an element pointer. -/
inductive Info where
  | mk (meta attributes : List (String × Option Element))
end

/-- The collection type `InfoElements`. -/
abbrev InfoElements := List (String × Option Element)

/-- The accessor `e.meta()`. -/
def Info.meta : Info → InfoElements
  | .mk m _ => m

/-- The accessor `e.attributes()`. -/
def Info.attributes : Info → InfoElements
  | .mk _ a => a

/-- The accessor `e.element()`. -/
def Element.element : Element → String
  | .null n _ _ | .string n _ _ | .number n _ _ | .boolean n _ _ | .member n _ _ _ _
  | .array n _ _ _ | .enum n _ _ | .extend n _ _ | .option n _ _ | .select n _ _
  | .object n _ _ | .other n _ _ | .ref n _ _ _ | .holder n _ _ => n

/-- The `meta()` and `attributes()` of an element. -/
def Element.info : Element → Info
  | .null _ i _ | .string _ i _ | .number _ i _ | .boolean _ i _ | .member _ i _ _ _
  | .array _ i _ _ | .enum _ i _ | .extend _ i _ | .option _ i _ | .select _ i _
  | .object _ i _ | .other _ i _ | .ref _ i _ _ | .holder _ i _ => i

/-- The accessor `e.empty()`. -/
def Element.empty : Element → Bool
  | .null _ _ b | .member _ _ b _ _ | .other _ _ b | .ref _ _ b _ => b
  | .string _ _ c | .number _ _ c => c.isNone
  | .boolean _ _ c => c.isNone
  | .enum _ _ c | .holder _ _ c => c.isNone
  | .array _ _ c _ | .extend _ _ c | .option _ _ c | .select _ _ c | .object _ _ c => c.isNone

/-- The conversion `v8_string`. -/
def v8_string (value : String) : Value := .string value

/-- Modelled from the spec: the object after a pair of a key and a value is set on it. Setting
a key that the object has replaces its value in place, and setting a new key appends it. -/
def Obj.put : Obj → String → Value → Obj
  | [], key, v => [(key, v)]
  | (k, w) :: rest, key, v =>
    if k = key then (k, v) :: rest else (k, w) :: Obj.put rest key v

/-- Modelled from the spec: the array after a value is written at an index. Writing below the
length replaces the slot, and writing at or above it grows the array and leaves holes in
between. -/
def Arr.put (array : Arr) (i : Nat) (v : Value) : Arr :=
  if i < array.length then array.set i (some v)
  else array ++ List.replicate (i - array.length) none ++ [some v]

/-- Modelled from the spec: the primitive `Object::Set(context, key, value)` of the host
runtime, which is not part of this repository, as the code calls it: with a value handle. The
primitive sets a pair of a key and a value; a handle that is empty holds no value, the call
has nothing to set and the conversion ends there without a result. -/
def objSet (object : Obj) (key : String) : Option Value → Except Failure Obj
  | none => throw Failure.emptyHandle
  | some v => pure (Obj.put object key v)

/-- Modelled from the spec: the primitive `Array::Set(context, i, value)` of the host runtime,
which is not part of this repository, as the code calls it: with a value handle; a handle that
is empty holds no value and the conversion ends there without a result. -/
def arrSet (array : Arr) (i : Nat) : Option Value → Except Failure Arr
  | none => throw Failure.emptyHandle
  | some v => pure (Arr.put array i v)

/-! ## The functions of `refractToV8.cc`

The functions call each other, and Lean takes the recursion as structural on the element tree:
`v8Element` takes the name and the collections of its element, a loop takes the object or
array that it fills as an argument, and the bodies of `v8ValueList` and `v8RefElement` stand
in the call operators that return them. -/

mutual
/-- The function `ElementToObject`: the visitor dispatches on the element behind the pointer,
and a null pointer cannot be dereferenced. -/
def ElementToObject (jsonParse : String → Option Value) :
    Option Element → Bool → Except Failure (Option Value)
  | none, _ => throw Failure.nullDereference
  | some e, sourcemap => v8Wrapper jsonParse e sourcemap

/-- The loop of `v8ElementCollection`; `result` is the object under construction, which the
function creates empty. -/
def v8ElementCollection (jsonParse : String → Option Value) :
    List (String × Option Element) → Bool → Obj → Except Failure Obj
  | [], _, result => pure result
  | (first, second) :: collection, sourcemap, result =>
    if !sourcemap && first == "sourceMap" then
      v8ElementCollection jsonParse collection sourcemap result
    else do
      let value ← match second with
        | none => pure none
        | some _ => ElementToObject jsonParse second sourcemap
      let result ← objSet result first value
      v8ElementCollection jsonParse collection sourcemap result

/-- The function `v8Element`, on the element name and the two collections of the element. -/
def v8Element (jsonParse : String → Option Value) :
    String → Info → Bool → Except Failure Obj
  | element, .mk meta attributes, sourcemap => do
    let res ← objSet [] "element" (some (v8_string element))
    let res ← if meta.length > 0 then do
        let m ← v8ElementCollection jsonParse meta sourcemap []
        objSet res "meta" (some (Value.object m))
      else pure res
    let sourcemap := if element == "annotation" then true else sourcemap
    if attributes.length > 0 then do
      let attrs ← v8ElementCollection jsonParse attributes sourcemap []
      if attrs.length > 0 then
        objSet res "attributes" (some (Value.object attrs))
      else pure res
    else pure res

/-- The loop over `e.get()` in `v8ValueList` and in the call operator for `ObjectElement`:
every item is converted, at its index. -/
def valueListLoop (jsonParse : String → Option Value) :
    List (Option Element) → Bool → Nat → Arr → Except Failure Arr
  | [], _, _, array => pure array
  | el :: rest, sourcemap, i, array => do
    let value ← ElementToObject jsonParse el sourcemap
    let array ← arrSet array i value
    valueListLoop jsonParse rest sourcemap (i + 1) array

/-- The loop over `val->get()` in the call operator for `ArrayElement`: a null item is passed
over and the index advances all the same. -/
def arrayLoop (jsonParse : String → Option Value) :
    List (Option Element) → Bool → Nat → Arr → Except Failure Arr
  | [], _, _, array => pure array
  | el :: rest, sourcemap, i, array => do
    let array ← match el with
      | none => pure array
      | some _ => do
        let value ← ElementToObject jsonParse el sourcemap
        arrSet array i value
    arrayLoop jsonParse rest sourcemap (i + 1) array

/-- The call operators of `v8Wrapper`; the outcome is the handle `v8_value`. -/
def v8Wrapper (jsonParse : String → Option Value) :
    Element → Bool → Except Failure (Option Value)
  | .null element info _, sourcemap => do
    let obj ← v8Element jsonParse element info sourcemap
    let obj ← objSet obj "content" (some Value.null)
    pure (some (Value.object obj))
  | .string element info content, sourcemap => do
    let obj ← v8Element jsonParse element info sourcemap
    match content with
    | some s => do
      let obj ← objSet obj "content" (some (v8_string s))
      pure (some (Value.object obj))
    | none => pure (some (Value.object obj))
  | .number element info content, sourcemap => do
    let obj ← v8Element jsonParse element info sourcemap
    match content with
    | some s =>
      match jsonParse s with
      | some n => do
        let obj ← objSet obj "content" (some n)
        pure (some (Value.object obj))
      | none => throw Failure.emptyMaybeLocal
    | none => pure (some (Value.object obj))
  | .boolean element info content, sourcemap => do
    let obj ← v8Element jsonParse element info sourcemap
    match content with
    | some b => do
      let obj ← objSet obj "content" (some (Value.bool b))
      pure (some (Value.object obj))
    | none => pure (some (Value.object obj))
  | .member element info _ k v, sourcemap => do
    let content : Obj := []
    let key ← match k with
      | some _ => ElementToObject jsonParse k sourcemap
      | none => pure none
    let value ← match v with
      | some _ => ElementToObject jsonParse v sourcemap
      | none => pure none
    let obj ← v8Element jsonParse element info sourcemap
    let content ← objSet content "key" key
    let content ← objSet content "value" value
    let obj ← objSet obj "content" (some (Value.object content))
    pure (some (Value.object obj))
  | .array element info content resolved, sourcemap => do
    let array ← match resolved with
      | some l => arrayLoop jsonParse l sourcemap 0 []
      | none => pure []
    let res ← v8Element jsonParse element info sourcemap
    if !content.isNone then do
      let res ← objSet res "content" (some (Value.array array))
      pure (some (Value.object res))
    else pure (some (Value.object res))
  | .enum element info content, sourcemap => do
    let obj ← v8Element jsonParse element info sourcemap
    match content with
    | some child => do
      let c ← ElementToObject jsonParse child sourcemap
      let obj ← objSet obj "content" c
      pure (some (Value.object obj))
    | none => pure (some (Value.object obj))
  | .extend _ _ _, _ =>
    throw (Failure.notImplemented "ExtendElement serialization Not Implemented")
  | .option element info content, sourcemap => do
    let obj ← v8Element jsonParse element info sourcemap
    match content with
    | some l => do
      let array ← valueListLoop jsonParse l sourcemap 0 []
      let obj ← objSet obj "content" (some (Value.array array))
      pure (some (Value.object obj))
    | none => pure (some (Value.object obj))
  | .select element info content, sourcemap => do
    let obj ← v8Element jsonParse element info sourcemap
    match content with
    | some l => do
      let array ← valueListLoop jsonParse l sourcemap 0 []
      let obj ← objSet obj "content" (some (Value.array array))
      pure (some (Value.object obj))
    | none => pure (some (Value.object obj))
  | .object element info content, sourcemap => do
    let obj ← v8Element jsonParse element info sourcemap
    match content with
    | some l =>
      if !l.isEmpty then do
        let array ← valueListLoop jsonParse l sourcemap 0 []
        let obj ← objSet obj "content" (some (Value.array array))
        pure (some (Value.object obj))
      else pure (some (Value.object obj))
    | none => pure (some (Value.object obj))
  | .other _ _ _, _ => pure none
  | .ref element info _ symbol, sourcemap => do
    let obj ← v8Element jsonParse element info sourcemap
    let obj ← objSet obj "content" (some (v8_string symbol))
    pure (some (Value.object obj))
  | .holder element info content, sourcemap => do
    let obj ← v8Element jsonParse element info sourcemap
    match content with
    | some child => do
      let c ← ElementToObject jsonParse child sourcemap
      let obj ← objSet obj "content" c
      pure (some (Value.object obj))
    | none => pure (some (Value.object obj))
end

/-- The function `v8ValueList<T>`, which the call operators for `OptionElement` and
`SelectElement` return; its body stands in `v8Wrapper` at both places. -/
def v8ValueList (jsonParse : String → Option Value) (element : String) (info : Info)
    (content : Option (List (Option Element))) (sourcemap : Bool) : Except Failure Obj := do
  let obj ← v8Element jsonParse element info sourcemap
  match content with
  | some l => do
    let array ← valueListLoop jsonParse l sourcemap 0 []
    objSet obj "content" (some (Value.array array))
  | none => pure obj

/-- The function `v8RefElement`, which the call operator for `RefElement` returns; its body
stands in `v8Wrapper`. -/
def v8RefElement (jsonParse : String → Option Value) (element : String) (info : Info)
    (symbol : String) (sourcemap : Bool) : Except Failure Obj := do
  let obj ← v8Element jsonParse element info sourcemap
  objSet obj "content" (some (v8_string symbol))

/-- The function `refract2v8`, which asserts that its pointer is not null: the projection
`project(element, sourcemapEnabled)` of the specification. -/
def refract2v8 (jsonParse : String → Option Value) (res : Element) (sourceMaps : Bool) :
    Except Failure (Option Value) :=
  v8Wrapper jsonParse res sourceMaps

/-- Modelled from the spec: the constant `drafter::SerializeKey::ParseResult` of `Serialize.h`,
which is not under `src/`; the envelope tag is the literal string `"parseResult"`. -/
def SerializeKey.ParseResult : String := "parseResult"

/-- The function `annotations2v8`. The traversal `Iterate<Children>` with the `FilterVisitor`
for `query::Element("annotation")` is not part of this file: `collect res` stands for the
vector `filter.elements()` after `iterate(*res)`, and `filter.empty()` holds when that vector
has no entry. The loop over the vector is the loop `arrayLoop`, with the flag `true`: a null
entry is passed over and the index advances all the same. -/
def annotations2v8 (jsonParse : String → Option Value)
    (collect : Element → List (Option Element)) (res : Element) :
    Except Failure (Option Value) :=
  let elements := collect res
  if !elements.isEmpty then do
    let array ← arrayLoop jsonParse elements true 0 []
    let annotations : Obj := []
    let annotations ← objSet annotations "element" (some (v8_string SerializeKey.ParseResult))
    let annotations ← objSet annotations "content" (some (Value.array array))
    pure (some (Value.object annotations))
  else pure (some Value.null)

/-! ## Notions for the statements -/

/-- The names of the properties of an object, in their order. -/
def Obj.keys (o : Obj) : List String := o.map Prod.fst

/-- The flag with which `v8Element` projects the attributes of an element: `sourcemap` is set
to `true` when `e.element() == "annotation"`. -/
def effectiveFlag (element : String) (sourcemap : Bool) : Bool :=
  if element == "annotation" then true else sourcemap

/-- An entry of a collection with key `key` is not passed over by the filter of
`v8ElementCollection`. -/
def survives (sourcemap : Bool) (key : String) : Bool :=
  !(!sourcemap && key == "sourceMap")

/-- The element is of one of the kinds for which `v8Wrapper` has a call operator of its own:
every kind but the one that falls to the overload for `const IElement&`. -/
def Element.handled : Element → Bool
  | .other _ _ _ => false
  | _ => true

/-- The element is an `ExtendElement`. -/
def Element.isExtend : Element → Bool
  | .extend _ _ _ => true
  | _ => false

mutual
/-- A condition under which the projection of an element ends with a value, whatever the flag:
the element and every element below it is of a handled kind and no `ExtendElement`; every
pointer to a child is non-null (the children of the meta and attributes collections, the key
and the value of a member, the value of a non-empty enum, the data of a non-empty holder, the
items of an option, select or object list), but for the items of the list that an array
resolves to, which the code passes over when they are null; and the text of every number
parses. -/
def Element.wellFormed (jsonParse : String → Option Value) : Element → Bool
  | .null _ i _ => i.wellFormed jsonParse
  | .string _ i _ => i.wellFormed jsonParse
  | .number _ i c =>
    i.wellFormed jsonParse &&
      (match c with
      | some s => (jsonParse s).isSome
      | none => true)
  | .boolean _ i _ => i.wellFormed jsonParse
  | .member _ i _ k v =>
    i.wellFormed jsonParse && requiredWellFormed jsonParse k && requiredWellFormed jsonParse v
  | .array _ i _ res =>
    i.wellFormed jsonParse &&
      (match res with
      | some l => optionalsWellFormed jsonParse l
      | none => true)
  | .enum _ i c =>
    i.wellFormed jsonParse &&
      (match c with
      | some child => requiredWellFormed jsonParse child
      | none => true)
  | .extend _ _ _ => false
  | .option _ i c =>
    i.wellFormed jsonParse &&
      (match c with
      | some l => requiredsWellFormed jsonParse l
      | none => true)
  | .select _ i c =>
    i.wellFormed jsonParse &&
      (match c with
      | some l => requiredsWellFormed jsonParse l
      | none => true)
  | .object _ i c =>
    i.wellFormed jsonParse &&
      (match c with
      | some l => requiredsWellFormed jsonParse l
      | none => true)
  | .other _ _ _ => false
  | .ref _ i _ _ => i.wellFormed jsonParse
  | .holder _ i c =>
    i.wellFormed jsonParse &&
      (match c with
      | some child => requiredWellFormed jsonParse child
      | none => true)
/-- Both collections of an element are well formed. -/
def Info.wellFormed (jsonParse : String → Option Value) : Info → Bool
  | .mk m a => entriesWellFormed jsonParse m && entriesWellFormed jsonParse a
/-- Every child of a collection is present and well formed. -/
def entriesWellFormed (jsonParse : String → Option Value) :
    List (String × Option Element) → Bool
  | [] => true
  | (_, c) :: rest => requiredWellFormed jsonParse c && entriesWellFormed jsonParse rest
/-- An item of an `ArrayElement`, which the loop passes over when it is null: null, or a well
formed element. -/
def optionalWellFormed (jsonParse : String → Option Value) : Option Element → Bool
  | none => true
  | some e => e.wellFormed jsonParse
/-- A pointer whose element has to yield a value: to a well formed element. -/
def requiredWellFormed (jsonParse : String → Option Value) : Option Element → Bool
  | none => false
  | some e => e.wellFormed jsonParse
/-- The items of an `ArrayElement`: each null, or a well formed element. -/
def optionalsWellFormed (jsonParse : String → Option Value) : List (Option Element) → Bool
  | [] => true
  | el :: rest => optionalWellFormed jsonParse el && optionalsWellFormed jsonParse rest
/-- The items of the other lists: each a well formed element. -/
def requiredsWellFormed (jsonParse : String → Option Value) : List (Option Element) → Bool
  | [] => true
  | el :: rest => requiredWellFormed jsonParse el && requiredsWellFormed jsonParse rest
end

/-- The kinds whose call operator sets `"content"` only under `!e.empty()`: all but Null,
Member and Ref, which set it in every case, Extend, which throws, and the kind that falls to
the overload for `const IElement&`. -/
def Element.guardsContent : Element → Bool
  | .string _ _ _ | .number _ _ _ | .boolean _ _ _ | .array _ _ _ _ | .enum _ _ _
  | .option _ _ _ | .select _ _ _ | .object _ _ _ | .holder _ _ _ => true
  | _ => false

/-- The kinds whose call operator sets `"content"` in every case: Null, Member and Ref. -/
def Element.alwaysContent : Element → Bool
  | .null _ _ _ | .member _ _ _ _ _ | .ref _ _ _ _ => true
  | _ => false

/-- The properties of a projected object, laid out. -/
def layout (element : String) (meta : Option Obj) (attributes : Option Obj)
    (content : Option Value) : Obj :=
  ("element", Value.string element) ::
    ((match meta with
      | some mo => [("meta", Value.object mo)]
      | none => []) ++
     (match attributes with
      | some ao => [("attributes", Value.object ao)]
      | none => []) ++
     (match content with
      | some c => [("content", c)]
      | none => []))

mutual
/-- The predicate `p` holds at every element of the tree: at the element itself, at the
children of its meta and attributes, and at the children of its content (for an array, of its
own list and of the list that the value accessor resolves to). -/
def Element.all (p : Element → Bool) : Element → Bool
  | .null n i b => p (.null n i b) && i.all p
  | .string n i c => p (.string n i c) && i.all p
  | .number n i c => p (.number n i c) && i.all p
  | .boolean n i c => p (.boolean n i c) && i.all p
  | .member n i b k v =>
    p (.member n i b k v) && i.all p && pointerAll p k && pointerAll p v
  | .array n i c res =>
    p (.array n i c res) && i.all p &&
      (match c with
      | some l => pointersAll p l
      | none => true) &&
      (match res with
      | some l => pointersAll p l
      | none => true)
  | .enum n i c =>
    p (.enum n i c) && i.all p &&
      (match c with
      | some child => pointerAll p child
      | none => true)
  | .extend n i c =>
    p (.extend n i c) && i.all p &&
      (match c with
      | some l => pointersAll p l
      | none => true)
  | .option n i c =>
    p (.option n i c) && i.all p &&
      (match c with
      | some l => pointersAll p l
      | none => true)
  | .select n i c =>
    p (.select n i c) && i.all p &&
      (match c with
      | some l => pointersAll p l
      | none => true)
  | .object n i c =>
    p (.object n i c) && i.all p &&
      (match c with
      | some l => pointersAll p l
      | none => true)
  | .other n i b => p (.other n i b) && i.all p
  | .ref n i b s => p (.ref n i b s) && i.all p
  | .holder n i c =>
    p (.holder n i c) && i.all p &&
      (match c with
      | some child => pointerAll p child
      | none => true)
/-- The predicate holds in the trees of the children of both collections. -/
def Info.all (p : Element → Bool) : Info → Bool
  | .mk m a => entriesAll p m && entriesAll p a
/-- The predicate holds in the trees of the children of a collection. -/
def entriesAll (p : Element → Bool) : List (String × Option Element) → Bool
  | [] => true
  | (_, c) :: rest => pointerAll p c && entriesAll p rest
/-- The predicate holds in the tree behind a pointer, when the pointer is not null. -/
def pointerAll (p : Element → Bool) : Option Element → Bool
  | none => true
  | some e => e.all p
/-- The predicate holds in the trees behind the pointers of a list. -/
def pointersAll (p : Element → Bool) : List (Option Element) → Bool
  | [] => true
  | c :: rest => pointerAll p c && pointersAll p rest
end

/-- Neither collection of the element has an entry with the key `"sourceMap"`. -/
def Element.withoutSourceMapKey (e : Element) : Bool :=
  e.info.meta.all (fun kc => kc.1 != "sourceMap") &&
    e.info.attributes.all (fun kc => kc.1 != "sourceMap")

/-- The kind name of the element is not `"annotation"`. -/
def Element.notAnnotated (e : Element) : Bool := e.element != "annotation"

/-- The content of the element holds no null pointer where the code needs an element, and
the text of a number parses: the key and the value of a member, the child of a non-empty enum
or holder and the items of an option, select or object list are present. -/
def Element.safeContent (jsonParse : String → Option Value) : Element → Bool
  | .number _ _ (some s) => (jsonParse s).isSome
  | .member _ _ _ k v => k.isSome && v.isSome
  | .enum _ _ (some child) => child.isSome
  | .holder _ _ (some child) => child.isSome
  | .option _ _ (some l) => l.all Option.isSome
  | .select _ _ (some l) => l.all Option.isSome
  | .object _ _ (some l) => l.all Option.isSome
  | _ => true

/-- Nothing but an `ExtendElement` ends the conversion at the element itself: the element is
of a handled kind, so that it yields a value to whoever sets it; every entry of its meta and
attributes has a child; and its content is safe. -/
def Element.safeHere (jsonParse : String → Option Value) (e : Element) : Bool :=
  e.handled && e.info.meta.all (fun kc => kc.2.isSome) &&
    e.info.attributes.all (fun kc => kc.2.isSome) && e.safeContent jsonParse

mutual
/-- No Object of the value, at any depth, has a property with the key `"sourceMap"`. -/
def Value.withoutSourceMap : Value → Bool
  | .object fields => fieldsWithoutSourceMap fields
  | .array items => slotsWithoutSourceMap items
  | _ => true
/-- No property has the key `"sourceMap"`, and no value of a property holds one. -/
def fieldsWithoutSourceMap : List (String × Value) → Bool
  | [] => true
  | (k, v) :: rest => k != "sourceMap" && v.withoutSourceMap && fieldsWithoutSourceMap rest
/-- No value in a slot of the array holds the key `"sourceMap"`. -/
def slotsWithoutSourceMap : List (Option Value) → Bool
  | [] => true
  | none :: rest => slotsWithoutSourceMap rest
  | some v :: rest => v.withoutSourceMap && slotsWithoutSourceMap rest
end

/-- The handle is empty, or its value holds no key `"sourceMap"`. -/
def handleWithoutSourceMap : Option Value → Bool
  | none => true
  | some v => v.withoutSourceMap

/-- The failure that the call operator for `ExtendElement` throws. -/
def extendFailure : Failure :=
  Failure.notImplemented "ExtendElement serialization Not Implemented"

/-- The pointer is not null and points to an `ExtendElement`. -/
def pointsToExtend : Option Element → Bool
  | some e => e.isExtend
  | none => false

/-- The collection has an entry that the filter keeps and whose child is an
`ExtendElement`. -/
def extendAmong (sourcemap : Bool) (collection : InfoElements) : Bool :=
  collection.any (fun kc => survives sourcemap kc.1 && pointsToExtend kc.2)

/-- A child that the call operator of the element projects as content is an `ExtendElement`:
the key or the value of a member, an item of the list that the value accessor resolves an
array to, the value of a non-empty enum, the data of a non-empty holder, an item of the list
of an option, a select or an object. -/
def Element.contentHoldsExtend : Element → Bool
  | .member _ _ _ k v => pointsToExtend k || pointsToExtend v
  | .array _ _ _ (some l) => l.any pointsToExtend
  | .enum _ _ (some c) => pointsToExtend c
  | .holder _ _ (some c) => pointsToExtend c
  | .option _ _ (some l) => l.any pointsToExtend
  | .select _ _ (some l) => l.any pointsToExtend
  | .object _ _ (some l) => l.any pointsToExtend
  | _ => false

/-- The element is of a handled kind and has an `ExtendElement` as a projected child: in its
meta or attributes, under a key that the filter keeps with the flag in force there, or in its
content. -/
def Element.projectsExtend (sourcemap : Bool) (e : Element) : Bool :=
  e.handled &&
    (extendAmong sourcemap e.info.meta ||
      extendAmong (effectiveFlag e.element sourcemap) e.info.attributes ||
      e.contentHoldsExtend)

/-- An object element whose list holds one `ExtendElement`. -/
def objectOfExtend : Element :=
  .object "object" (.mk [] []) (some [some (.extend "extend" (.mk [] []) none)])

/-- A collection whose first entry has no child. -/
def collectionWithAbsentChild : InfoElements :=
  [("classes", none), ("title", some (.string "string" (.mk [] []) (some "t")))]

/-- A member whose key is a string and whose value pointer is null. -/
def memberWithoutValue : Element :=
  .member "member" (.mk [] []) false (some (.string "string" (.mk [] []) (some "k"))) none

/-- A member whose key pointer is null and whose value is a string. -/
def memberWithoutKey : Element :=
  .member "member" (.mk [] []) false none (some (.string "string" (.mk [] []) (some "v")))

/-- A null element that reports empty. -/
def emptyNull : Element := .null "null" (.mk [] []) true

/-- An object element whose member list is present and has no member. -/
def objectWithoutMembers : Element := .object "object" (.mk [] []) (some [])

/-- An enum element that reports non-empty and whose value pointer is null. -/
def enumWithoutValue : Element := .enum "enum" (.mk [] []) (some none)

/-- A holder element that reports non-empty and whose data pointer is null. -/
def holderWithoutData : Element := .holder "holder" (.mk [] []) (some none)

/-- An element that the visitor hands to the overload for `const IElement&`. -/
def unknownVariant : Element := .other "custom" (.mk [] []) false

/-- A member whose key is a number with the text `x`, which is no number, and whose value is
an `ExtendElement`. -/
def memberWithBadNumberKey : Element :=
  .member "member" (.mk [] []) false (some (.number "number" (.mk [] []) (some "x")))
    (some (.extend "extend" (.mk [] []) none))

/-- An annotation without any `"sourceMap"` key, with an attribute and a meta entry. -/
def annotationWithoutSourceMap : Element :=
  .string "annotation" (.mk [("classes", some (.array "array" (.mk [] [])
      (some [some (.string "string" (.mk [] []) (some "warning"))])
      (some [some (.string "string" (.mk [] []) (some "warning"))])))]
    [("code", some (.number "number" (.mk [] []) (some "6")))]) (some "message")

/-! ## The primitives of the host runtime -/

theorem objSet_none (o : Obj) (k : String) : objSet o k none = .error Failure.emptyHandle :=
  rfl

theorem objSet_some (o : Obj) (k : String) (v : Value) :
    objSet o k (some v) = .ok (Obj.put o k v) := rfl

theorem objSet_eq_ok (o : Obj) (k : String) (x : Option Value) (o2 : Obj) :
    objSet o k x = .ok o2 ↔ ∃ v, x = some v ∧ o2 = Obj.put o k v := by
  cases x with
  | none => simp [objSet_none]
  | some v => simp [objSet_some, eq_comm]

theorem arrSet_none (a : Arr) (i : Nat) : arrSet a i none = .error Failure.emptyHandle := rfl

theorem arrSet_some (a : Arr) (i : Nat) (v : Value) :
    arrSet a i (some v) = .ok (Arr.put a i v) := rfl

theorem arrSet_eq_ok (a : Arr) (i : Nat) (x : Option Value) (a2 : Arr) :
    arrSet a i x = .ok a2 ↔ ∃ v, x = some v ∧ a2 = Arr.put a i v := by
  cases x with
  | none => simp [arrSet_none]
  | some v => simp [arrSet_some, eq_comm]

theorem keys_put (o : Obj) (k : String) (v : Value) :
    Obj.keys (Obj.put o k v) = if k ∈ Obj.keys o then Obj.keys o else Obj.keys o ++ [k] := by
  induction o with
  | nil => simp [Obj.put, Obj.keys]
  | cons p rest ih =>
    obtain ⟨k0, w⟩ := p
    by_cases h : k0 = k
    · simp [Obj.put, Obj.keys, h]
    · have ih2 := ih
      simp only [Obj.keys] at ih2
      have hne : ¬ k = k0 := fun e => h e.symm
      by_cases hm : k ∈ List.map Prod.fst rest
      · simp [Obj.put, Obj.keys, h, hm, ih2]
      · simp [Obj.put, Obj.keys, h, hm, ih2, hne]

theorem mem_keys_put (o : Obj) (k : String) (v : Value) (k0 : String) :
    k0 ∈ Obj.keys (Obj.put o k v) ↔ k0 ∈ Obj.keys o ∨ k0 = k := by
  rw [keys_put]
  by_cases hm : k ∈ Obj.keys o
  · simp only [hm, if_true]
    constructor
    · exact Or.inl
    · rintro (h | h)
      · exact h
      · exact h ▸ hm
  · simp [hm]

theorem put_of_not_mem (o : Obj) (k : String) (v : Value) (h : k ∉ Obj.keys o) :
    Obj.put o k v = o ++ [(k, v)] := by
  induction o with
  | nil => rfl
  | cons p rest ih =>
    obtain ⟨k0, w⟩ := p
    simp only [Obj.keys, List.map_cons, List.mem_cons, not_or] at h
    have hne : ¬ k0 = k := fun e => h.1 e.symm
    simp [Obj.put, hne, ih h.2]

theorem lookup_put_self (o : Obj) (k : String) (v : Value) :
    (Obj.put o k v).lookup k = some v := by
  induction o with
  | nil => simp [Obj.put, List.lookup]
  | cons p rest ih =>
    obtain ⟨k0, w⟩ := p
    by_cases h : k0 = k
    · simp [Obj.put, h, List.lookup]
    · have hne : (k == k0) = false := by simpa using fun e => h e.symm
      simp [Obj.put, h, List.lookup, hne, ih]

theorem lookup_put_of_ne (o : Obj) (k k0 : String) (v : Value) (h : k0 ≠ k) :
    (Obj.put o k v).lookup k0 = o.lookup k0 := by
  induction o with
  | nil =>
    have hne : (k0 == k) = false := by simpa using h
    simp [Obj.put, List.lookup, hne]
  | cons p rest ih =>
    obtain ⟨k1, w⟩ := p
    by_cases h1 : k1 = k
    · subst h1
      have hne : (k0 == k1) = false := by simpa using h
      simp [Obj.put, List.lookup, hne]
    · by_cases h2 : k0 = k1
      · subst h2
        simp [Obj.put, h1, List.lookup]
      · have hne : (k0 == k1) = false := by simpa using h2
        simp [Obj.put, h1, List.lookup, hne, ih]

theorem lookup_eq_none_of_not_mem (o : Obj) (k : String) (h : k ∉ Obj.keys o) :
    o.lookup k = none := by
  induction o with
  | nil => rfl
  | cons p rest ih =>
    obtain ⟨k0, w⟩ := p
    simp only [Obj.keys, List.map_cons, List.mem_cons, not_or] at h
    have hne : (k == k0) = false := by simpa using h.1
    simp [List.lookup, hne, ih h.2]

theorem mem_keys_of_lookup (o : Obj) (k : String) (v : Value) (h : o.lookup k = some v) :
    k ∈ Obj.keys o := by
  by_contra hn
  rw [lookup_eq_none_of_not_mem o k hn] at h
  cases h

/-! ## The loop of `v8ElementCollection` -/

theorem ElementToObject_some (jp : String → Option Value) (e : Element) (sm : Bool) :
    ElementToObject jp (some e) sm = refract2v8 jp e sm := by
  simp [ElementToObject, refract2v8]

theorem v8ElementCollection_nil (jp : String → Option Value) (sm : Bool) (acc : Obj) :
    v8ElementCollection jp [] sm acc = .ok acc := by
  simp [v8ElementCollection, pure, Except.pure]

theorem v8ElementCollection_cons_skip (jp : String → Option Value) (k : String)
    (c : Option Element) (m : InfoElements) (sm : Bool) (acc : Obj) (h : survives sm k = false) :
    v8ElementCollection jp ((k, c) :: m) sm acc = v8ElementCollection jp m sm acc := by
  simp only [survives, Bool.not_eq_false'] at h
  simp [v8ElementCollection, h]

/-- An entry that the filter keeps and that has no child: the empty handle is handed to
`Set`. -/
theorem v8ElementCollection_cons_none (jp : String → Option Value) (k : String)
    (m : InfoElements) (sm : Bool) (acc : Obj) (h : survives sm k = true) :
    v8ElementCollection jp ((k, none) :: m) sm acc = .error Failure.emptyHandle := by
  simp only [survives, Bool.not_eq_true'] at h
  simp [v8ElementCollection, h, objSet_none, pure, Except.pure, bind, Except.bind]

theorem v8ElementCollection_cons_some (jp : String → Option Value) (k : String) (e : Element)
    (m : InfoElements) (sm : Bool) (acc : Obj) (h : survives sm k = true) :
    v8ElementCollection jp ((k, some e) :: m) sm acc =
      match refract2v8 jp e sm with
      | .error f => .error f
      | .ok none => .error Failure.emptyHandle
      | .ok (some v) => v8ElementCollection jp m sm (Obj.put acc k v) := by
  simp only [survives, Bool.not_eq_true'] at h
  simp only [v8ElementCollection, h, ElementToObject_some]
  cases refract2v8 jp e sm with
  | error f => simp [bind, Except.bind]
  | ok r => cases r <;> simp [bind, Except.bind, objSet_none, objSet_some]

theorem coll_cons_of_value (jp : String → Option Value) (k : String) (e : Element)
    (m : InfoElements) (sm : Bool) (acc : Obj) (v : Value) (h : survives sm k = true)
    (hv : refract2v8 jp e sm = .ok (some v)) :
    v8ElementCollection jp ((k, some e) :: m) sm acc =
      v8ElementCollection jp m sm (Obj.put acc k v) := by
  rw [v8ElementCollection_cons_some jp k e m sm acc h, hv]

/-- When the loop ends with an object, the first entry, if the filter keeps it, has a child
that projects to a value, and the loop goes on with that value set. -/
theorem coll_cons_ok (jp : String → Option Value) (k : String) (c : Option Element)
    (m : InfoElements) (sm : Bool) (acc o : Obj) (hs : survives sm k = true)
    (h : v8ElementCollection jp ((k, c) :: m) sm acc = .ok o) :
    ∃ e v, c = some e ∧ refract2v8 jp e sm = .ok (some v) ∧
      v8ElementCollection jp m sm (Obj.put acc k v) = .ok o := by
  cases c with
  | none =>
    rw [v8ElementCollection_cons_none jp k m sm acc hs] at h
    cases h
  | some e =>
    rw [v8ElementCollection_cons_some jp k e m sm acc hs] at h
    cases hr : refract2v8 jp e sm with
    | error f => rw [hr] at h; cases h
    | ok r =>
      rw [hr] at h
      cases r with
      | none => cases h
      | some v => exact ⟨e, v, rfl, hr, h⟩

theorem coll_ok_of_children (jp : String → Option Value) (sm : Bool) (m : InfoElements)
    (h : ∀ k c, (k, c) ∈ m → survives sm k = true →
      ∃ e v, c = some e ∧ refract2v8 jp e sm = .ok (some v))
    (acc : Obj) : ∃ o, v8ElementCollection jp m sm acc = .ok o := by
  induction m generalizing acc with
  | nil => exact ⟨acc, v8ElementCollection_nil jp sm acc⟩
  | cons p m ih =>
    obtain ⟨k0, c0⟩ := p
    have h2 : ∀ k c, (k, c) ∈ m → survives sm k = true →
        ∃ e v, c = some e ∧ refract2v8 jp e sm = .ok (some v) :=
      fun k c hm hs => h k c (List.mem_cons_of_mem _ hm) hs
    by_cases hs : survives sm k0 = true
    · obtain ⟨e, v, hc, hv⟩ := h k0 c0 (List.mem_cons_self _ _) hs
      subst hc
      rw [coll_cons_of_value jp k0 e m sm acc v hs hv]
      exact ih h2 _
    · rw [v8ElementCollection_cons_skip jp k0 c0 m sm acc (by simpa using hs)]
      exact ih h2 acc

/-- When the loop ends with an object, every entry that the filter keeps has a child that
projects to a value. -/
theorem coll_entries_present (jp : String → Option Value) (sm : Bool) (m : InfoElements)
    (acc o : Obj) (h : v8ElementCollection jp m sm acc = .ok o) (k : String)
    (c : Option Element) (hm : (k, c) ∈ m) (hs : survives sm k = true) :
    ∃ e v, c = some e ∧ refract2v8 jp e sm = .ok (some v) := by
  induction m generalizing acc with
  | nil => cases hm
  | cons p m ih =>
    obtain ⟨k0, c0⟩ := p
    by_cases hs0 : survives sm k0 = true
    · obtain ⟨e0, v0, hc0, hv0, h2⟩ := coll_cons_ok jp k0 c0 m sm acc o hs0 h
      rcases List.mem_cons.1 hm with heq | hm2
      · cases heq; exact ⟨e0, v0, hc0, hv0⟩
      · exact ih _ h2 hm2
    · rw [v8ElementCollection_cons_skip jp k0 c0 m sm acc (by simpa using hs0)] at h
      rcases List.mem_cons.1 hm with heq | hm2
      · cases heq; exact absurd hs hs0
      · exact ih acc h hm2

theorem coll_children_ok (jp : String → Option Value) (sm : Bool) (m : InfoElements)
    (acc o : Obj) (h : v8ElementCollection jp m sm acc = .ok o) (k : String) (e : Element)
    (hm : (k, some e) ∈ m) (hs : survives sm k = true) :
    ∃ v, refract2v8 jp e sm = .ok (some v) := by
  obtain ⟨e2, v, he, hv⟩ := coll_entries_present jp sm m acc o h k (some e) hm hs
  cases he
  exact ⟨v, hv⟩

theorem coll_mem_keys (jp : String → Option Value) (sm : Bool) (m : InfoElements)
    (acc o : Obj) (h : v8ElementCollection jp m sm acc = .ok o) (k : String) :
    k ∈ Obj.keys o ↔ k ∈ Obj.keys acc ∨
      ∃ e v, (k, some e) ∈ m ∧ survives sm k = true ∧ refract2v8 jp e sm = .ok (some v) := by
  induction m generalizing acc with
  | nil =>
    rw [v8ElementCollection_nil] at h
    cases h
    simp
  | cons p m ih =>
    obtain ⟨k0, c0⟩ := p
    by_cases hs0 : survives sm k0 = true
    · obtain ⟨e0, v0, hc0, hv0, h2⟩ := coll_cons_ok jp k0 c0 m sm acc o hs0 h
      subst hc0
      rw [ih _ h2, mem_keys_put]
      constructor
      · rintro ((h1 | h1) | ⟨e, v, hm, hs, hv⟩)
        · exact Or.inl h1
        · subst h1; exact Or.inr ⟨e0, v0, List.mem_cons_self _ _, hs0, hv0⟩
        · exact Or.inr ⟨e, v, List.mem_cons_of_mem _ hm, hs, hv⟩
      · rintro (h1 | ⟨e, v, hm, hs, hv⟩)
        · exact Or.inl (Or.inl h1)
        · rcases List.mem_cons.1 hm with heq | hm2
          · cases heq; exact Or.inl (Or.inr rfl)
          · exact Or.inr ⟨e, v, hm2, hs, hv⟩
    · have hs1 : survives sm k0 = false := by simpa using hs0
      rw [v8ElementCollection_cons_skip jp k0 c0 m sm acc hs1] at h
      rw [ih acc h]
      constructor
      · rintro (h1 | ⟨e, v, hm, hs, hv⟩)
        · exact Or.inl h1
        · exact Or.inr ⟨e, v, List.mem_cons_of_mem _ hm, hs, hv⟩
      · rintro (h1 | ⟨e, v, hm, hs, hv⟩)
        · exact Or.inl h1
        · rcases List.mem_cons.1 hm with heq | hm2
          · cases heq; exact absurd hs hs0
          · exact Or.inr ⟨e, v, hm2, hs, hv⟩

/-- The keys of the object that the loop ends with are the keys of the entries that the
filter keeps. -/
theorem coll_mem_keys_kept (jp : String → Option Value) (sm : Bool) (m : InfoElements)
    (o : Obj) (h : v8ElementCollection jp m sm [] = .ok o) (k : String) :
    k ∈ Obj.keys o ↔ ∃ c, (k, c) ∈ m ∧ survives sm k = true := by
  rw [coll_mem_keys jp sm m [] o h k]
  constructor
  · rintro (h1 | ⟨e, v, hm, hs, -⟩)
    · cases h1
    · exact ⟨some e, hm, hs⟩
  · rintro ⟨c, hm, hs⟩
    obtain ⟨e, v, hc, hv⟩ := coll_entries_present jp sm m [] o h k c hm hs
    subst hc
    exact Or.inr ⟨e, v, hm, hs, hv⟩

theorem coll_lookup_preserved (jp : String → Option Value) (sm : Bool) (m : InfoElements)
    (acc o : Obj) (h : v8ElementCollection jp m sm acc = .ok o) (k : String)
    (hk : k ∉ m.map Prod.fst) : o.lookup k = acc.lookup k := by
  induction m generalizing acc with
  | nil =>
    rw [v8ElementCollection_nil] at h
    cases h
    rfl
  | cons p m ih =>
    obtain ⟨k0, c0⟩ := p
    simp only [List.map_cons, List.mem_cons, not_or] at hk
    by_cases hs0 : survives sm k0 = true
    · obtain ⟨e0, v0, -, -, h2⟩ := coll_cons_ok jp k0 c0 m sm acc o hs0 h
      rw [ih _ h2 hk.2]
      exact lookup_put_of_ne acc k0 k v0 hk.1
    · rw [v8ElementCollection_cons_skip jp k0 c0 m sm acc (by simpa using hs0)] at h
      exact ih acc h hk.2

theorem coll_lookup_nodup (jp : String → Option Value) (sm : Bool) (m : InfoElements)
    (acc o : Obj) (h : v8ElementCollection jp m sm acc = .ok o) (hnd : (m.map Prod.fst).Nodup)
    (k : String) (e : Element) (v : Value) (hm : (k, some e) ∈ m)
    (hs : survives sm k = true) (hv : refract2v8 jp e sm = .ok (some v)) :
    o.lookup k = some v := by
  induction m generalizing acc with
  | nil => cases hm
  | cons p m ih =>
    obtain ⟨k0, c0⟩ := p
    simp only [List.map_cons, List.nodup_cons] at hnd
    rcases List.mem_cons.1 hm with heq | hm2
    · cases heq
      rw [coll_cons_of_value jp k e m sm acc v hs hv] at h
      rw [coll_lookup_preserved jp sm m _ o h k hnd.1]
      exact lookup_put_self acc k v
    · by_cases hs0 : survives sm k0 = true
      · obtain ⟨e0, v0, -, -, h2⟩ := coll_cons_ok jp k0 c0 m sm acc o hs0 h
        exact ih _ h2 hnd.2 hm2
      · rw [v8ElementCollection_cons_skip jp k0 c0 m sm acc (by simpa using hs0)] at h
        exact ih acc h hnd.2 hm2

theorem coll_keys_nodup (jp : String → Option Value) (sm : Bool) (m : InfoElements)
    (acc o : Obj) (h : v8ElementCollection jp m sm acc = .ok o) (hnd : (m.map Prod.fst).Nodup)
    (hd : ∀ k ∈ m.map Prod.fst, k ∉ Obj.keys acc) :
    Obj.keys o = Obj.keys acc ++ (m.filter (fun kc => survives sm kc.1)).map Prod.fst := by
  induction m generalizing acc with
  | nil =>
    rw [v8ElementCollection_nil] at h
    cases h
    simp
  | cons p m ih =>
    obtain ⟨k0, c0⟩ := p
    simp only [List.map_cons, List.nodup_cons] at hnd
    have hd2 : ∀ k ∈ m.map Prod.fst, k ∉ Obj.keys acc :=
      fun k hk => hd k (by simp only [List.map_cons]; exact List.mem_cons_of_mem _ hk)
    by_cases hs0 : survives sm k0 = true
    · obtain ⟨e0, v0, -, -, h2⟩ := coll_cons_ok jp k0 c0 m sm acc o hs0 h
      have hk0 : k0 ∉ Obj.keys acc := hd k0 (by simp)
      have hd3 : ∀ k ∈ m.map Prod.fst, k ∉ Obj.keys (Obj.put acc k0 v0) := by
        intro k hk hmem
        rw [mem_keys_put] at hmem
        rcases hmem with h1 | h1
        · exact hd2 k hk h1
        · subst h1; exact hnd.1 hk
      rw [ih _ h2 hnd.2 hd3, keys_put]
      simp [hk0, hs0]
    · have hs1 : survives sm k0 = false := by simpa using hs0
      rw [v8ElementCollection_cons_skip jp k0 c0 m sm acc hs1] at h
      rw [ih acc h hnd.2 hd2]
      simp [hs1]

/-! ## The function `v8Element` -/

/-- The object that `v8Element` builds from the projected collections: `"element"`, then
`"meta"` when the meta collection has entries, then `"attributes"` when the projected
attributes have a property. -/
theorem v8Element_eq (jp : String → Option Value) (n : String) (m a : InfoElements)
    (sm : Bool) :
    v8Element jp n (.mk m a) sm =
      match v8ElementCollection jp m sm [] with
      | .error f => .error f
      | .ok mo =>
        match v8ElementCollection jp a (effectiveFlag n sm) [] with
        | .error f => .error f
        | .ok ao => .ok (((("element", Value.string n) ::
            (if m.isEmpty then [] else [("meta", Value.object mo)])) ++
            (if ao.isEmpty then [] else [("attributes", Value.object ao)]))) := by
  have hflag : (if (n == "annotation") = true then true else sm) = effectiveFlag n sm := rfl
  cases m with
  | nil =>
    cases a with
    | nil =>
      simp [v8Element, v8ElementCollection, objSet, Obj.put, v8_string, pure, Except.pure, bind,
        Except.bind]
    | cons p a =>
      simp only [v8Element, hflag, v8ElementCollection_nil, objSet]
      cases h : v8ElementCollection jp (p :: a) (effectiveFlag n sm) [] with
      | error f => simp [pure, Except.pure, bind, Except.bind]
      | ok ao =>
        cases ao with
        | nil => simp [objSet, Obj.put, v8_string, pure, Except.pure, bind, Except.bind]
        | cons x ao => simp [objSet, Obj.put, v8_string, pure, Except.pure, bind, Except.bind]
  | cons q m =>
    simp only [v8Element, hflag, objSet]
    cases hm : v8ElementCollection jp (q :: m) sm [] with
    | error f => simp [pure, Except.pure, bind, Except.bind]
    | ok mo =>
      cases a with
      | nil =>
        simp [v8ElementCollection_nil, objSet, Obj.put, v8_string, pure, Except.pure, bind,
          Except.bind]
      | cons p a =>
        cases h : v8ElementCollection jp (p :: a) (effectiveFlag n sm) [] with
        | error f => simp [pure, Except.pure, bind, Except.bind]
        | ok ao =>
          cases ao with
          | nil => simp [objSet, Obj.put, v8_string, pure, Except.pure, bind, Except.bind]
          | cons x ao => simp [objSet, Obj.put, v8_string, pure, Except.pure, bind, Except.bind]

/-! ## The call operators -/

theorem bind_eq_ok {ε α β : Type} (x : Except ε α) (f : α → Except ε β) (b : β) :
    (x >>= f) = .ok b ↔ ∃ a, x = .ok a ∧ f a = .ok b := by
  cases x with
  | error e => simp [bind, Except.bind]
  | ok a => simp [bind, Except.bind]

theorem pure_eq_ok {ε α : Type} (a b : α) :
    (pure a : Except ε α) = .ok b ↔ a = b := by
  simp [pure, Except.pure]

theorem ElementToObject_none (jp : String → Option Value) (sm : Bool) :
    ElementToObject jp none sm = .error Failure.nullDereference := by
  simp [ElementToObject, throw, throwThe, MonadExceptOf.throw]

theorem refract2v8_null (jp : String → Option Value) (n : String) (i : Info) (b sm : Bool) :
    refract2v8 jp (.null n i b) sm =
      (v8Element jp n i sm >>= fun obj =>
        pure (some (.object (Obj.put obj "content" .null)))) := rfl

theorem refract2v8_string (jp : String → Option Value) (n : String) (i : Info)
    (c : Option String) (sm : Bool) :
    refract2v8 jp (.string n i c) sm =
      (v8Element jp n i sm >>= fun obj =>
        match c with
        | some s => pure (some (.object (Obj.put obj "content" (v8_string s))))
        | none => pure (some (.object obj))) := rfl

theorem refract2v8_number (jp : String → Option Value) (n : String) (i : Info)
    (c : Option String) (sm : Bool) :
    refract2v8 jp (.number n i c) sm =
      (v8Element jp n i sm >>= fun obj =>
        match c with
        | some s =>
          match jp s with
          | some x => pure (some (.object (Obj.put obj "content" x)))
          | none => throw Failure.emptyMaybeLocal
        | none => pure (some (.object obj))) := rfl

theorem refract2v8_boolean (jp : String → Option Value) (n : String) (i : Info)
    (c : Option Bool) (sm : Bool) :
    refract2v8 jp (.boolean n i c) sm =
      (v8Element jp n i sm >>= fun obj =>
        match c with
        | some b => pure (some (.object (Obj.put obj "content" (.bool b))))
        | none => pure (some (.object obj))) := rfl

theorem refract2v8_member (jp : String → Option Value) (n : String) (i : Info) (b : Bool)
    (k v : Option Element) (sm : Bool) :
    refract2v8 jp (.member n i b k v) sm =
      ((match k with
        | some _ => ElementToObject jp k sm
        | none => pure none) >>= fun key =>
       (match v with
        | some _ => ElementToObject jp v sm
        | none => pure none) >>= fun value =>
       v8Element jp n i sm >>= fun obj =>
       objSet [] "key" key >>= fun content =>
       objSet content "value" value >>= fun content =>
        pure (some (.object (Obj.put obj "content" (.object content))))) := by
  cases k <;> cases v <;> rfl

theorem refract2v8_array (jp : String → Option Value) (n : String) (i : Info)
    (c res : Option (List (Option Element))) (sm : Bool) :
    refract2v8 jp (.array n i c res) sm =
      ((match res with
        | some l => arrayLoop jp l sm 0 []
        | none => pure []) >>= fun array =>
       v8Element jp n i sm >>= fun obj =>
        if !c.isNone then
          pure (some (.object (Obj.put obj "content" (.array array))))
        else pure (some (.object obj))) := by
  cases res <;> rfl

theorem refract2v8_enum (jp : String → Option Value) (n : String) (i : Info)
    (c : Option (Option Element)) (sm : Bool) :
    refract2v8 jp (.enum n i c) sm =
      (v8Element jp n i sm >>= fun obj =>
        match c with
        | some child => ElementToObject jp child sm >>= fun x =>
            objSet obj "content" x >>= fun obj => pure (some (.object obj))
        | none => pure (some (.object obj))) := by
  cases c <;> rfl

theorem refract2v8_extend (jp : String → Option Value) (n : String) (i : Info)
    (c : Option (List (Option Element))) (sm : Bool) :
    refract2v8 jp (.extend n i c) sm =
      .error (Failure.notImplemented "ExtendElement serialization Not Implemented") := rfl

theorem refract2v8_option (jp : String → Option Value) (n : String) (i : Info)
    (c : Option (List (Option Element))) (sm : Bool) :
    refract2v8 jp (.option n i c) sm =
      (v8Element jp n i sm >>= fun obj =>
        match c with
        | some l => valueListLoop jp l sm 0 [] >>= fun array =>
            pure (some (.object (Obj.put obj "content" (.array array))))
        | none => pure (some (.object obj))) := by
  cases c <;> rfl

theorem refract2v8_select (jp : String → Option Value) (n : String) (i : Info)
    (c : Option (List (Option Element))) (sm : Bool) :
    refract2v8 jp (.select n i c) sm =
      (v8Element jp n i sm >>= fun obj =>
        match c with
        | some l => valueListLoop jp l sm 0 [] >>= fun array =>
            pure (some (.object (Obj.put obj "content" (.array array))))
        | none => pure (some (.object obj))) := by
  cases c <;> rfl

theorem refract2v8_object (jp : String → Option Value) (n : String) (i : Info)
    (c : Option (List (Option Element))) (sm : Bool) :
    refract2v8 jp (.object n i c) sm =
      (v8Element jp n i sm >>= fun obj =>
        match c with
        | some l =>
          if !l.isEmpty then
            valueListLoop jp l sm 0 [] >>= fun array =>
              pure (some (.object (Obj.put obj "content" (.array array))))
          else pure (some (.object obj))
        | none => pure (some (.object obj))) := by
  cases c <;> rfl

theorem refract2v8_other (jp : String → Option Value) (n : String) (i : Info) (b sm : Bool) :
    refract2v8 jp (.other n i b) sm = .ok none := rfl

theorem refract2v8_ref (jp : String → Option Value) (n : String) (i : Info) (b : Bool)
    (sym : String) (sm : Bool) :
    refract2v8 jp (.ref n i b sym) sm =
      (v8Element jp n i sm >>= fun obj =>
        pure (some (.object (Obj.put obj "content" (v8_string sym))))) := rfl

theorem refract2v8_holder (jp : String → Option Value) (n : String) (i : Info)
    (c : Option (Option Element)) (sm : Bool) :
    refract2v8 jp (.holder n i c) sm =
      (v8Element jp n i sm >>= fun obj =>
        match c with
        | some child => ElementToObject jp child sm >>= fun x =>
            objSet obj "content" x >>= fun obj => pure (some (.object obj))
        | none => pure (some (.object obj))) := by
  cases c <;> rfl

theorem refract2v8_option_eq_v8ValueList (jp : String → Option Value) (n : String) (i : Info)
    (c : Option (List (Option Element))) (sm : Bool) :
    refract2v8 jp (.option n i c) sm =
        (v8ValueList jp n i c sm >>= fun obj => pure (some (.object obj))) ∧
      refract2v8 jp (.select n i c) sm =
        (v8ValueList jp n i c sm >>= fun obj => pure (some (.object obj))) := by
  rw [refract2v8_option, refract2v8_select]
  simp only [v8ValueList]
  cases v8Element jp n i sm with
  | error f => exact ⟨rfl, rfl⟩
  | ok obj =>
    cases c with
    | none => exact ⟨rfl, rfl⟩
    | some l =>
      show (valueListLoop jp l sm 0 [] >>= _) = ((valueListLoop jp l sm 0 [] >>= _) >>= _) ∧
        (valueListLoop jp l sm 0 [] >>= _) = ((valueListLoop jp l sm 0 [] >>= _) >>= _)
      cases valueListLoop jp l sm 0 [] <;> exact ⟨rfl, rfl⟩

theorem refract2v8_ref_eq_v8RefElement (jp : String → Option Value) (n : String) (i : Info)
    (b : Bool) (sym : String) (sm : Bool) :
    refract2v8 jp (.ref n i b sym) sm =
      (v8RefElement jp n i sym sm >>= fun obj => pure (some (.object obj))) := by
  rw [refract2v8_ref]
  simp only [v8RefElement]
  cases v8Element jp n i sm <;> rfl

/-- The two properties of the content of a member are set when both handles hold a value. -/
theorem member_content_ok (obj : Obj) (key value r : Option Value)
    (h : (objSet [] "key" key >>= fun content =>
      objSet content "value" value >>= fun content =>
        (pure (some (Value.object (Obj.put obj "content" (.object content)))) :
          Except Failure (Option Value))) = .ok r) :
    ∃ kv vv, key = some kv ∧ value = some vv ∧
      r = some (.object (Obj.put obj "content"
        (.object (Obj.put (Obj.put [] "key" kv) "value" vv)))) := by
  cases key with
  | none => cases h
  | some kv =>
    cases value with
    | none => cases h
    | some vv => exact ⟨kv, vv, rfl, rfl, ((pure_eq_ok _ _).1 h).symm⟩

theorem put_key_value (kv vv : Value) :
    Obj.put (Obj.put [] "key" kv) "value" vv = [("key", kv), ("value", vv)] := by
  simp [Obj.put]

/-- The content of an enum or a holder is set when the handle of the child holds a value. -/
theorem set_content_ok (obj : Obj) (x r : Option Value)
    (h : (objSet obj "content" x >>= fun obj =>
      (pure (some (Value.object obj)) : Except Failure (Option Value))) = .ok r) :
    ∃ v, x = some v ∧ r = some (.object (Obj.put obj "content" v)) := by
  cases x with
  | none => cases h
  | some v => exact ⟨v, rfl, ((pure_eq_ok _ _).1 h).symm⟩

theorem refract2v8_shape (jp : String → Option Value) (e : Element) (sm : Bool)
    (r : Option Value) (h : refract2v8 jp e sm = .ok r) (hk : e.handled = true) :
    ∃ base, v8Element jp e.element e.info sm = .ok base ∧
      (r = some (.object base) ∨ ∃ c, r = some (.object (Obj.put base "content" c))) := by
  cases e with
  | null n i b =>
    rw [refract2v8_null, bind_eq_ok] at h
    obtain ⟨base, hb, h2⟩ := h
    rw [pure_eq_ok] at h2
    exact ⟨base, hb, Or.inr ⟨_, h2.symm⟩⟩
  | string n i c =>
    rw [refract2v8_string, bind_eq_ok] at h
    obtain ⟨base, hb, h2⟩ := h
    cases c with
    | none => exact ⟨base, hb, Or.inl ((pure_eq_ok _ _).1 h2).symm⟩
    | some s => exact ⟨base, hb, Or.inr ⟨_, ((pure_eq_ok _ _).1 h2).symm⟩⟩
  | number n i c =>
    rw [refract2v8_number, bind_eq_ok] at h
    obtain ⟨base, hb, h2⟩ := h
    cases c with
    | none => exact ⟨base, hb, Or.inl ((pure_eq_ok _ _).1 h2).symm⟩
    | some s =>
      simp only at h2
      cases hp : jp s with
      | none => rw [hp] at h2; cases h2
      | some x =>
        rw [hp] at h2
        exact ⟨base, hb, Or.inr ⟨_, ((pure_eq_ok _ _).1 h2).symm⟩⟩
  | boolean n i c =>
    rw [refract2v8_boolean, bind_eq_ok] at h
    obtain ⟨base, hb, h2⟩ := h
    cases c with
    | none => exact ⟨base, hb, Or.inl ((pure_eq_ok _ _).1 h2).symm⟩
    | some s => exact ⟨base, hb, Or.inr ⟨_, ((pure_eq_ok _ _).1 h2).symm⟩⟩
  | member n i b k v =>
    rw [refract2v8_member, bind_eq_ok] at h
    obtain ⟨key, -, h2⟩ := h
    rw [bind_eq_ok] at h2
    obtain ⟨value, -, h3⟩ := h2
    rw [bind_eq_ok] at h3
    obtain ⟨base, hb, h4⟩ := h3
    obtain ⟨kv, vv, -, -, h5⟩ := member_content_ok base key value r h4
    exact ⟨base, hb, Or.inr ⟨_, h5⟩⟩
  | array n i c res =>
    rw [refract2v8_array, bind_eq_ok] at h
    obtain ⟨arr, -, h2⟩ := h
    rw [bind_eq_ok] at h2
    obtain ⟨base, hb, h3⟩ := h2
    cases c with
    | none => exact ⟨base, hb, Or.inl ((pure_eq_ok _ _).1 h3).symm⟩
    | some l => exact ⟨base, hb, Or.inr ⟨_, ((pure_eq_ok _ _).1 h3).symm⟩⟩
  | enum n i c =>
    rw [refract2v8_enum, bind_eq_ok] at h
    obtain ⟨base, hb, h2⟩ := h
    cases c with
    | none => exact ⟨base, hb, Or.inl ((pure_eq_ok _ _).1 h2).symm⟩
    | some child =>
      rw [bind_eq_ok] at h2
      obtain ⟨x, -, h3⟩ := h2
      obtain ⟨y, -, hy⟩ := set_content_ok base x r h3
      exact ⟨base, hb, Or.inr ⟨_, hy⟩⟩
  | extend n i c => rw [refract2v8_extend] at h; cases h
  | option n i c =>
    rw [refract2v8_option, bind_eq_ok] at h
    obtain ⟨base, hb, h2⟩ := h
    cases c with
    | none => exact ⟨base, hb, Or.inl ((pure_eq_ok _ _).1 h2).symm⟩
    | some l =>
      simp only [bind_eq_ok] at h2
      obtain ⟨x, -, h3⟩ := h2
      exact ⟨base, hb, Or.inr ⟨_, ((pure_eq_ok _ _).1 h3).symm⟩⟩
  | select n i c =>
    rw [refract2v8_select, bind_eq_ok] at h
    obtain ⟨base, hb, h2⟩ := h
    cases c with
    | none => exact ⟨base, hb, Or.inl ((pure_eq_ok _ _).1 h2).symm⟩
    | some l =>
      simp only [bind_eq_ok] at h2
      obtain ⟨x, -, h3⟩ := h2
      exact ⟨base, hb, Or.inr ⟨_, ((pure_eq_ok _ _).1 h3).symm⟩⟩
  | object n i c =>
    rw [refract2v8_object, bind_eq_ok] at h
    obtain ⟨base, hb, h2⟩ := h
    cases c with
    | none => exact ⟨base, hb, Or.inl ((pure_eq_ok _ _).1 h2).symm⟩
    | some l =>
      cases l with
      | nil => exact ⟨base, hb, Or.inl ((pure_eq_ok _ _).1 h2).symm⟩
      | cons x l =>
        simp only [List.isEmpty_cons, Bool.not_false, if_true, bind_eq_ok] at h2
        obtain ⟨x, -, h3⟩ := h2
        exact ⟨base, hb, Or.inr ⟨_, ((pure_eq_ok _ _).1 h3).symm⟩⟩
  | other n i b => cases hk
  | ref n i b sym =>
    rw [refract2v8_ref, bind_eq_ok] at h
    obtain ⟨base, hb, h2⟩ := h
    exact ⟨base, hb, Or.inr ⟨_, ((pure_eq_ok _ _).1 h2).symm⟩⟩
  | holder n i c =>
    rw [refract2v8_holder, bind_eq_ok] at h
    obtain ⟨base, hb, h2⟩ := h
    cases c with
    | none => exact ⟨base, hb, Or.inl ((pure_eq_ok _ _).1 h2).symm⟩
    | some child =>
      rw [bind_eq_ok] at h2
      obtain ⟨x, -, h3⟩ := h2
      obtain ⟨y, -, hy⟩ := set_content_ok base x r h3
      exact ⟨base, hb, Or.inr ⟨_, hy⟩⟩

/-! ## The loops over lists of items -/

theorem valueListLoop_nil (jp : String → Option Value) (sm : Bool) (i : Nat) (acc : Arr) :
    valueListLoop jp [] sm i acc = .ok acc := rfl

theorem valueListLoop_cons (jp : String → Option Value) (el : Option Element)
    (rest : List (Option Element)) (sm : Bool) (i : Nat) (acc : Arr) :
    valueListLoop jp (el :: rest) sm i acc =
      (ElementToObject jp el sm >>= fun value =>
        arrSet acc i value >>= fun array => valueListLoop jp rest sm (i + 1) array) := by
  cases el <;> rfl

theorem valueListLoop_cons_of_value (jp : String → Option Value) (e : Element)
    (rest : List (Option Element)) (sm : Bool) (i : Nat) (acc : Arr) (v : Value)
    (hv : refract2v8 jp e sm = .ok (some v)) :
    valueListLoop jp (some e :: rest) sm i acc =
      valueListLoop jp rest sm (i + 1) (Arr.put acc i v) := by
  rw [valueListLoop_cons, ElementToObject_some, hv]
  rfl

/-- When the loop ends with an array, the first item is present and projects to a value, and
the loop goes on with that value written. -/
theorem valueListLoop_cons_ok (jp : String → Option Value) (el : Option Element)
    (rest : List (Option Element)) (sm : Bool) (i : Nat) (acc a : Arr)
    (h : valueListLoop jp (el :: rest) sm i acc = .ok a) :
    ∃ v, ElementToObject jp el sm = .ok (some v) ∧
      valueListLoop jp rest sm (i + 1) (Arr.put acc i v) = .ok a := by
  rw [valueListLoop_cons, bind_eq_ok] at h
  obtain ⟨x, hx, h2⟩ := h
  rw [bind_eq_ok] at h2
  obtain ⟨arr, h3, h4⟩ := h2
  obtain ⟨v, hv, harr⟩ := (arrSet_eq_ok acc i x arr).1 h3
  subst hv
  subst harr
  exact ⟨v, hx, h4⟩

theorem arrayLoop_nil (jp : String → Option Value) (sm : Bool) (i : Nat) (acc : Arr) :
    arrayLoop jp [] sm i acc = .ok acc := rfl

theorem arrayLoop_cons_none (jp : String → Option Value)
    (rest : List (Option Element)) (sm : Bool) (i : Nat) (acc : Arr) :
    arrayLoop jp (none :: rest) sm i acc = arrayLoop jp rest sm (i + 1) acc := rfl

theorem arrayLoop_cons_some (jp : String → Option Value) (e : Element)
    (rest : List (Option Element)) (sm : Bool) (i : Nat) (acc : Arr) :
    arrayLoop jp (some e :: rest) sm i acc =
      (refract2v8 jp e sm >>= fun value =>
        arrSet acc i value >>= fun array => arrayLoop jp rest sm (i + 1) array) := by
  simp only [arrayLoop, ElementToObject_some]

theorem arrayLoop_cons_of_value (jp : String → Option Value) (e : Element)
    (rest : List (Option Element)) (sm : Bool) (i : Nat) (acc : Arr) (v : Value)
    (hv : refract2v8 jp e sm = .ok (some v)) :
    arrayLoop jp (some e :: rest) sm i acc =
      arrayLoop jp rest sm (i + 1) (Arr.put acc i v) := by
  rw [arrayLoop_cons_some, hv]
  rfl

/-- When the loop ends with an array, a present first item projects to a value, and the loop
goes on with that value written. -/
theorem arrayLoop_cons_ok (jp : String → Option Value) (e : Element)
    (rest : List (Option Element)) (sm : Bool) (i : Nat) (acc a : Arr)
    (h : arrayLoop jp (some e :: rest) sm i acc = .ok a) :
    ∃ v, refract2v8 jp e sm = .ok (some v) ∧
      arrayLoop jp rest sm (i + 1) (Arr.put acc i v) = .ok a := by
  rw [arrayLoop_cons_some, bind_eq_ok] at h
  obtain ⟨x, hx, h2⟩ := h
  rw [bind_eq_ok] at h2
  obtain ⟨arr, h3, h4⟩ := h2
  obtain ⟨v, hv, harr⟩ := (arrSet_eq_ok acc i x arr).1 h3
  subst hv
  subst harr
  exact ⟨v, hx, h4⟩

/-! ## Projection ends with a value on well formed trees -/

theorem wellFormed_leaf (jp : String → Option Value) (n : String) (i : Info) :
    (∀ b, (Element.null n i b).wellFormed jp = i.wellFormed jp) ∧
    (∀ c, (Element.string n i c).wellFormed jp = i.wellFormed jp) ∧
    (∀ c, (Element.boolean n i c).wellFormed jp = i.wellFormed jp) ∧
    (∀ b s, (Element.ref n i b s).wellFormed jp = i.wellFormed jp) :=
  ⟨fun _ => rfl, fun _ => rfl, fun _ => rfl, fun _ _ => rfl⟩

theorem wellFormed_number (jp : String → Option Value) (n : String) (i : Info)
    (c : Option String) (h : (Element.number n i c).wellFormed jp = true) :
    i.wellFormed jp = true ∧ ∀ s, c = some s → ∃ x, jp s = some x := by
  simp only [Element.wellFormed, Bool.and_eq_true] at h
  refine ⟨h.1, ?_⟩
  intro s hs
  subst hs
  exact Option.isSome_iff_exists.1 h.2

theorem wellFormed_member (jp : String → Option Value) (n : String) (i : Info) (b : Bool)
    (k v : Option Element) (h : (Element.member n i b k v).wellFormed jp = true) :
    i.wellFormed jp = true ∧ requiredWellFormed jp k = true ∧
      requiredWellFormed jp v = true := by
  simp only [Element.wellFormed, Bool.and_eq_true] at h
  exact ⟨h.1.1, h.1.2, h.2⟩

theorem wellFormed_array (jp : String → Option Value) (n : String) (i : Info)
    (c res : Option (List (Option Element)))
    (h : (Element.array n i c res).wellFormed jp = true) :
    i.wellFormed jp = true ∧ ∀ l, res = some l → optionalsWellFormed jp l = true := by
  cases res with
  | none => exact ⟨by simpa [Element.wellFormed] using h, fun l hl => by cases hl⟩
  | some l0 =>
    simp only [Element.wellFormed, Bool.and_eq_true] at h
    exact ⟨h.1, fun l hl => by cases hl; exact h.2⟩

theorem wellFormed_single (jp : String → Option Value) (n : String) (i : Info)
    (c : Option (Option Element))
    (h : (Element.enum n i c).wellFormed jp = true ∨
      (Element.holder n i c).wellFormed jp = true) :
    i.wellFormed jp = true ∧ ∀ child, c = some child → requiredWellFormed jp child = true := by
  cases c with
  | none =>
    refine ⟨?_, fun l hl => by cases hl⟩
    rcases h with h | h <;> simpa [Element.wellFormed] using h
  | some l0 =>
    have h2 : i.wellFormed jp = true ∧ requiredWellFormed jp l0 = true := by
      rcases h with h | h <;> simpa only [Element.wellFormed, Bool.and_eq_true] using h
    exact ⟨h2.1, fun l hl => by cases hl; exact h2.2⟩

theorem wellFormed_list (jp : String → Option Value) (n : String) (i : Info)
    (c : Option (List (Option Element)))
    (h : (Element.option n i c).wellFormed jp = true ∨
      (Element.select n i c).wellFormed jp = true ∨
      (Element.object n i c).wellFormed jp = true) :
    i.wellFormed jp = true ∧ ∀ l, c = some l → requiredsWellFormed jp l = true := by
  cases c with
  | none =>
    refine ⟨?_, fun l hl => by cases hl⟩
    rcases h with h | h | h <;> simpa [Element.wellFormed] using h
  | some l0 =>
    have h2 : i.wellFormed jp = true ∧ requiredsWellFormed jp l0 = true := by
      rcases h with h | h | h <;> simpa only [Element.wellFormed, Bool.and_eq_true] using h
    exact ⟨h2.1, fun l hl => by cases hl; exact h2.2⟩

theorem wellFormed_extend (jp : String → Option Value) (n : String) (i : Info)
    (c : Option (List (Option Element))) : (Element.extend n i c).wellFormed jp = false := rfl

theorem wellFormed_other (jp : String → Option Value) (n : String) (i : Info) (b : Bool) :
    (Element.other n i b).wellFormed jp = false := rfl

theorem wellFormed_info (jp : String → Option Value) (m a : InfoElements)
    (h : (Info.mk m a).wellFormed jp = true) :
    entriesWellFormed jp m = true ∧ entriesWellFormed jp a = true := by
  simpa only [Info.wellFormed, Bool.and_eq_true] using h

theorem wellFormed_entries_cons (jp : String → Option Value) (k : String)
    (c : Option Element) (m : InfoElements) (h : entriesWellFormed jp ((k, c) :: m) = true) :
    (∃ e, c = some e ∧ e.wellFormed jp = true) ∧ entriesWellFormed jp m = true := by
  simp only [entriesWellFormed, Bool.and_eq_true] at h
  refine ⟨?_, h.2⟩
  cases c with
  | none => simp [requiredWellFormed] at h
  | some e => exact ⟨e, rfl, by simpa only [requiredWellFormed] using h.1⟩

theorem wellFormed_optionals_cons (jp : String → Option Value) (c : Option Element)
    (l : List (Option Element)) (h : optionalsWellFormed jp (c :: l) = true) :
    (∀ e, c = some e → e.wellFormed jp = true) ∧ optionalsWellFormed jp l = true := by
  simp only [optionalsWellFormed, Bool.and_eq_true] at h
  refine ⟨?_, h.2⟩
  intro e he
  subst he
  simpa only [optionalWellFormed] using h.1

theorem wellFormed_requireds_cons (jp : String → Option Value) (c : Option Element)
    (l : List (Option Element)) (h : requiredsWellFormed jp (c :: l) = true) :
    (∃ e, c = some e ∧ e.wellFormed jp = true) ∧ requiredsWellFormed jp l = true := by
  simp only [requiredsWellFormed, Bool.and_eq_true] at h
  refine ⟨?_, h.2⟩
  cases c with
  | none => simp [requiredWellFormed] at h
  | some e => exact ⟨e, rfl, by simpa only [requiredWellFormed] using h.1⟩

theorem wellFormed_optional_some (jp : String → Option Value) (e : Element) :
    (optionalWellFormed jp (some e) = e.wellFormed jp) ∧
      (requiredWellFormed jp (some e) = e.wellFormed jp) ∧
      (requiredWellFormed jp none = false) := ⟨rfl, rfl, rfl⟩

mutual
theorem wf_element (jp : String → Option Value) : ∀ (e : Element) (sm : Bool),
    e.wellFormed jp = true → ∃ v, refract2v8 jp e sm = .ok (some v)
  | .null n i b, sm, h => by
    obtain ⟨o, ho⟩ := wf_info jp i n sm (((wellFormed_leaf jp n i).1 b).symm.trans h)
    exact ⟨_, by rw [refract2v8_null, ho]; rfl⟩
  | .string n i c, sm, h => by
    obtain ⟨o, ho⟩ := wf_info jp i n sm (((wellFormed_leaf jp n i).2.1 c).symm.trans h)
    cases c with
    | none => exact ⟨_, by rw [refract2v8_string, ho]; rfl⟩
    | some s => exact ⟨_, by rw [refract2v8_string, ho]; rfl⟩
  | .number n i c, sm, h => by
    have h2 := wellFormed_number jp n i c h
    obtain ⟨o, ho⟩ := wf_info jp i n sm h2.1
    cases c with
    | none => exact ⟨_, by rw [refract2v8_number, ho]; rfl⟩
    | some s =>
      obtain ⟨x, hx⟩ := h2.2 s rfl
      exact ⟨.object (Obj.put o "content" x), by
        rw [refract2v8_number, ho]
        simp only [bind, Except.bind, hx]
        rfl⟩
  | .boolean n i c, sm, h => by
    obtain ⟨o, ho⟩ := wf_info jp i n sm (((wellFormed_leaf jp n i).2.2.1 c).symm.trans h)
    cases c with
    | none => exact ⟨_, by rw [refract2v8_boolean, ho]; rfl⟩
    | some s => exact ⟨_, by rw [refract2v8_boolean, ho]; rfl⟩
  | .member n i b k v, sm, h => by
    have h2 := wellFormed_member jp n i b k v h
    obtain ⟨o, ho⟩ := wf_info jp i n sm h2.1
    obtain ⟨rk, hrk⟩ := wf_guarded jp k sm h2.2.1
    obtain ⟨rv, hrv⟩ := wf_guarded jp v sm h2.2.2
    exact ⟨_, by rw [refract2v8_member, hrk, hrv, ho]; rfl⟩
  | .array n i c res, sm, h => by
    have h2 := wellFormed_array jp n i c res h
    obtain ⟨o, ho⟩ := wf_info jp i n sm h2.1
    cases res with
    | none =>
      cases c with
      | none => exact ⟨_, by rw [refract2v8_array, ho]; rfl⟩
      | some l => exact ⟨_, by rw [refract2v8_array, ho]; rfl⟩
    | some l =>
      obtain ⟨a, ha⟩ := wf_optionals jp l sm 0 [] (h2.2 l rfl)
      cases c with
      | none => exact ⟨_, by rw [refract2v8_array]; simp only [ha, ho]; rfl⟩
      | some l2 => exact ⟨_, by rw [refract2v8_array]; simp only [ha, ho]; rfl⟩
  | .enum n i c, sm, h => by
    have h2 := wellFormed_single jp n i c (Or.inl h)
    obtain ⟨o, ho⟩ := wf_info jp i n sm h2.1
    cases c with
    | none => exact ⟨_, by rw [refract2v8_enum, ho]; rfl⟩
    | some child =>
      obtain ⟨r, hr⟩ := wf_required jp child sm (h2.2 child rfl)
      exact ⟨_, by rw [refract2v8_enum, ho]; simp only [bind, Except.bind, hr]; rfl⟩
  | .extend n i c, sm, h => by
    rw [wellFormed_extend] at h
    cases h
  | .option n i c, sm, h => by
    have h2 := wellFormed_list jp n i c (Or.inl h)
    obtain ⟨o, ho⟩ := wf_info jp i n sm h2.1
    cases c with
    | none => exact ⟨_, by rw [refract2v8_option, ho]; rfl⟩
    | some l =>
      obtain ⟨a, ha⟩ := wf_requireds jp l sm 0 [] (h2.2 l rfl)
      exact ⟨_, by rw [refract2v8_option, ho]; simp only [bind, Except.bind, ha]; rfl⟩
  | .select n i c, sm, h => by
    have h2 := wellFormed_list jp n i c (Or.inr (Or.inl h))
    obtain ⟨o, ho⟩ := wf_info jp i n sm h2.1
    cases c with
    | none => exact ⟨_, by rw [refract2v8_select, ho]; rfl⟩
    | some l =>
      obtain ⟨a, ha⟩ := wf_requireds jp l sm 0 [] (h2.2 l rfl)
      exact ⟨_, by rw [refract2v8_select, ho]; simp only [bind, Except.bind, ha]; rfl⟩
  | .object n i c, sm, h => by
    have h2 := wellFormed_list jp n i c (Or.inr (Or.inr h))
    obtain ⟨o, ho⟩ := wf_info jp i n sm h2.1
    cases c with
    | none => exact ⟨_, by rw [refract2v8_object, ho]; rfl⟩
    | some l =>
      obtain ⟨a, ha⟩ := wf_requireds jp l sm 0 [] (h2.2 l rfl)
      cases l with
      | nil => exact ⟨_, by rw [refract2v8_object, ho]; rfl⟩
      | cons x l =>
        exact ⟨_, by rw [refract2v8_object, ho]; simp only [bind, Except.bind, ha]; rfl⟩
  | .other n i b, sm, h => by
    rw [wellFormed_other] at h
    cases h
  | .ref n i b s, sm, h => by
    obtain ⟨o, ho⟩ := wf_info jp i n sm (((wellFormed_leaf jp n i).2.2.2 b s).symm.trans h)
    exact ⟨_, by rw [refract2v8_ref, ho]; rfl⟩
  | .holder n i c, sm, h => by
    have h2 := wellFormed_single jp n i c (Or.inr h)
    obtain ⟨o, ho⟩ := wf_info jp i n sm h2.1
    cases c with
    | none => exact ⟨_, by rw [refract2v8_holder, ho]; rfl⟩
    | some child =>
      obtain ⟨r, hr⟩ := wf_required jp child sm (h2.2 child rfl)
      exact ⟨_, by rw [refract2v8_holder, ho]; simp only [bind, Except.bind, hr]; rfl⟩
theorem wf_info (jp : String → Option Value) : ∀ (i : Info) (n : String) (sm : Bool),
    i.wellFormed jp = true → ∃ o, v8Element jp n i sm = .ok o
  | .mk m a, n, sm, h => by
    have h2 := wellFormed_info jp m a h
    obtain ⟨mo, hm⟩ := wf_entries jp m sm [] h2.1
    obtain ⟨ao, ha⟩ := wf_entries jp a (effectiveFlag n sm) [] h2.2
    exact ⟨_, by rw [v8Element_eq, hm, ha]⟩
theorem wf_entries (jp : String → Option Value) : ∀ (m : List (String × Option Element))
    (sm : Bool) (acc : Obj),
    entriesWellFormed jp m = true → ∃ o, v8ElementCollection jp m sm acc = .ok o
  | [], sm, acc, _ => ⟨acc, v8ElementCollection_nil jp sm acc⟩
  | (k, none) :: m, sm, acc, h => by
    obtain ⟨⟨e, he, -⟩, -⟩ := wellFormed_entries_cons jp k none m h
    cases he
  | (k, some e) :: m, sm, acc, h => by
    obtain ⟨⟨e2, he, hw⟩, h3⟩ := wellFormed_entries_cons jp k (some e) m h
    cases he
    by_cases hs : survives sm k = true
    · obtain ⟨v, hv⟩ := wf_element jp e sm hw
      rw [coll_cons_of_value jp k e m sm acc v hs hv]
      exact wf_entries jp m sm _ h3
    · rw [v8ElementCollection_cons_skip jp k _ m sm acc (by simpa using hs)]
      exact wf_entries jp m sm acc h3
theorem wf_guarded (jp : String → Option Value) : ∀ (k : Option Element) (sm : Bool),
    requiredWellFormed jp k = true →
    ∃ v : Value, (match k with
      | some _ => ElementToObject jp k sm
      | none => pure none) = .ok (some v)
  | none, _, h => by
    rw [(wellFormed_optional_some jp (.other "" (.mk [] []) true)).2.2] at h
    cases h
  | some e, sm, h => by
    obtain ⟨v, hv⟩ := wf_element jp e sm ((wellFormed_optional_some jp e).2.1.symm.trans h)
    exact ⟨v, by simp only [ElementToObject_some, hv]⟩
theorem wf_required (jp : String → Option Value) : ∀ (k : Option Element) (sm : Bool),
    requiredWellFormed jp k = true → ∃ v, ElementToObject jp k sm = .ok (some v)
  | none, _, h => by
    rw [(wellFormed_optional_some jp (.other "" (.mk [] []) true)).2.2] at h
    cases h
  | some e, sm, h => by
    obtain ⟨v, hv⟩ := wf_element jp e sm ((wellFormed_optional_some jp e).2.1.symm.trans h)
    exact ⟨v, by simp only [ElementToObject_some, hv]⟩
theorem wf_optionals (jp : String → Option Value) : ∀ (l : List (Option Element)) (sm : Bool)
    (i : Nat) (acc : Arr),
    optionalsWellFormed jp l = true → ∃ a, arrayLoop jp l sm i acc = .ok a
  | [], sm, i, acc, _ => ⟨acc, rfl⟩
  | none :: rest, sm, i, acc, h => by
    rw [arrayLoop_cons_none]
    exact wf_optionals jp rest sm (i + 1) acc (wellFormed_optionals_cons jp none rest h).2
  | some e :: rest, sm, i, acc, h => by
    have h2 := wellFormed_optionals_cons jp (some e) rest h
    obtain ⟨v, hv⟩ := wf_element jp e sm (h2.1 e rfl)
    rw [arrayLoop_cons_of_value jp e rest sm i acc v hv]
    exact wf_optionals jp rest sm (i + 1) _ h2.2
theorem wf_requireds (jp : String → Option Value) : ∀ (l : List (Option Element)) (sm : Bool)
    (i : Nat) (acc : Arr),
    requiredsWellFormed jp l = true → ∃ a, valueListLoop jp l sm i acc = .ok a
  | [], sm, i, acc, _ => ⟨acc, rfl⟩
  | none :: rest, sm, i, acc, h => by
    obtain ⟨⟨e, he, -⟩, -⟩ := wellFormed_requireds_cons jp none rest h
    cases he
  | some e :: rest, sm, i, acc, h => by
    have h2 := wellFormed_requireds_cons jp (some e) rest h
    obtain ⟨⟨e2, he, hw⟩, h3⟩ := h2
    cases he
    obtain ⟨v, hv⟩ := wf_element jp e sm hw
    rw [valueListLoop_cons_of_value jp e rest sm i acc v hv]
    exact wf_requireds jp rest sm (i + 1) _ h3
end

/-! ## The shape of a projected object -/

theorem info_eta (i : Info) : i = .mk i.meta i.attributes := by
  cases i; rfl

theorem v8Element_ok (jp : String → Option Value) (n : String) (i : Info) (sm : Bool)
    (base : Obj) (h : v8Element jp n i sm = .ok base) :
    ∃ mo ao, v8ElementCollection jp i.meta sm [] = .ok mo ∧
      v8ElementCollection jp i.attributes (effectiveFlag n sm) [] = .ok ao ∧
      base = layout n (if i.meta.isEmpty then none else some mo)
        (if ao.isEmpty then none else some ao) none := by
  cases i with
  | mk m a =>
    rw [v8Element_eq] at h
    simp only [Info.meta, Info.attributes]
    cases hm : v8ElementCollection jp m sm [] with
    | error f => rw [hm] at h; cases h
    | ok mo =>
      cases ha : v8ElementCollection jp a (effectiveFlag n sm) [] with
      | error f => rw [hm, ha] at h; cases h
      | ok ao =>
        rw [hm, ha] at h
        refine ⟨mo, ao, rfl, rfl, ?_⟩
        cases h
        by_cases hme : m.isEmpty = true <;> by_cases hae : ao.isEmpty = true <;>
          simp [layout, hme, hae]

theorem put_layout_content (n : String) (mo ao : Option Obj) (c : Value) :
    Obj.put (layout n mo ao none) "content" c = layout n mo ao (some c) := by
  cases mo <;> cases ao <;> simp [layout, Obj.put]

theorem refract2v8_layout (jp : String → Option Value) (e : Element) (sm : Bool)
    (r : Option Value) (h : refract2v8 jp e sm = .ok r) (hk : e.handled = true) :
    ∃ mo ao content, v8ElementCollection jp e.info.meta sm [] = .ok mo ∧
      v8ElementCollection jp e.info.attributes (effectiveFlag e.element sm) [] = .ok ao ∧
      r = some (.object (layout e.element (if e.info.meta.isEmpty then none else some mo)
        (if ao.isEmpty then none else some ao) content)) := by
  obtain ⟨base, hb, hr⟩ := refract2v8_shape jp e sm r h hk
  obtain ⟨mo, ao, hm, ha, hbase⟩ := v8Element_ok jp _ _ sm base hb
  subst hbase
  rcases hr with hr | ⟨c, hr⟩
  · exact ⟨mo, ao, none, hm, ha, hr⟩
  · rw [put_layout_content] at hr
    exact ⟨mo, ao, some c, hm, ha, hr⟩

theorem keys_layout (n : String) (mo ao : Option Obj) (c : Option Value) :
    Obj.keys (layout n mo ao c) =
      "element" :: ((if mo.isSome then ["meta"] else []) ++
        (if ao.isSome then ["attributes"] else []) ++
        (if c.isSome then ["content"] else [])) := by
  cases mo <;> cases ao <;> cases c <;> simp [layout, Obj.keys]

theorem lookup_layout (n : String) (mo ao : Option Obj) (c : Option Value) :
    (layout n mo ao c).lookup "element" = some (.string n) ∧
    (layout n mo ao c).lookup "meta" = mo.map Value.object ∧
    (layout n mo ao c).lookup "attributes" = ao.map Value.object ∧
    (layout n mo ao c).lookup "content" = c := by
  cases mo <;> cases ao <;> cases c <;> simp [layout, List.lookup]

theorem keys_layout_sublist (n : String) (mo ao : Option Obj) (c : Option Value) :
    List.Sublist (Obj.keys (layout n mo ao c)) ["element", "meta", "attributes", "content"] := by
  have h : ∀ x y z : Bool, List.Sublist
      ("element" :: ((if x then ["meta"] else []) ++ (if y then ["attributes"] else []) ++
        (if z then ["content"] else []))) ["element", "meta", "attributes", "content"] := by
    decide
  rw [keys_layout]
  exact h _ _ _

theorem mem_keys_layout (n : String) (mo ao : Option Obj) (c : Option Value) :
    ("meta" ∈ Obj.keys (layout n mo ao c) ↔ mo.isSome = true) ∧
    ("attributes" ∈ Obj.keys (layout n mo ao c) ↔ ao.isSome = true) ∧
    ("content" ∈ Obj.keys (layout n mo ao c) ↔ c.isSome = true) := by
  rw [keys_layout]
  cases mo <;> cases ao <;> cases c <;> simp

theorem handled_of_value (jp : String → Option Value) (e : Element) (sm : Bool) (v : Value)
    (h : refract2v8 jp e sm = .ok (some v)) : e.handled = true := by
  cases e <;> first | rfl | (rw [refract2v8_other] at h; cases h)

theorem refract2v8_object_layout (jp : String → Option Value) (e : Element) (sm : Bool)
    (o : Obj) (h : refract2v8 jp e sm = .ok (some (.object o))) :
    ∃ mo ao content, v8ElementCollection jp e.info.meta sm [] = .ok mo ∧
      v8ElementCollection jp e.info.attributes (effectiveFlag e.element sm) [] = .ok ao ∧
      o = layout e.element (if e.info.meta.isEmpty then none else some mo)
        (if ao.isEmpty then none else some ao) content := by
  obtain ⟨mo, ao, c, hm, ha, hr⟩ :=
    refract2v8_layout jp e sm _ h (handled_of_value jp e sm _ h)
  refine ⟨mo, ao, c, hm, ha, ?_⟩
  injection hr with hr
  injection hr

theorem isEmpty_eq_false_of_mem {α : Type} (l : List α) (a : α) (h : a ∈ l) :
    l.isEmpty = false := by
  cases l with
  | nil => cases h
  | cons x l => rfl

theorem coll_not_mem_sourceMap (jp : String → Option Value) (m : InfoElements) (o : Obj)
    (h : v8ElementCollection jp m false [] = .ok o) : "sourceMap" ∉ Obj.keys o := by
  intro hk
  rw [coll_mem_keys jp false m [] o h] at hk
  rcases hk with hk | ⟨e, v, -, hs, -⟩
  · cases hk
  · simp [survives] at hs

theorem v8Element_no_content (jp : String → Option Value) (n : String) (i : Info) (sm : Bool)
    (base : Obj) (h : v8Element jp n i sm = .ok base) : "content" ∉ Obj.keys base := by
  obtain ⟨mo, ao, -, -, rfl⟩ := v8Element_ok jp n i sm base h
  rw [(mem_keys_layout _ _ _ _).2.2]
  simp

theorem put_content (jp : String → Option Value) (n : String) (i : Info) (sm : Bool)
    (base : Obj) (h : v8Element jp n i sm = .ok base) (c : Value) :
    Obj.put base "content" c = base ++ [("content", c)] :=
  put_of_not_mem base "content" c (v8Element_no_content jp n i sm base h)

theorem put_length (acc : Arr) (v : Value) :
    Arr.put acc acc.length v = acc ++ [some v] := by
  simp [Arr.put]

theorem valueListLoop_values (jp : String → Option Value) (sm : Bool) (items : List Element)
    (vs : List Value)
    (h : List.Forall₂ (fun e v => refract2v8 jp e sm = .ok (some v)) items vs) (acc : Arr) :
    valueListLoop jp (items.map some) sm acc.length acc = .ok (acc ++ vs.map some) := by
  induction h generalizing acc with
  | nil => simp [valueListLoop_nil]
  | @cons e v es ws hev _ ih =>
    rw [List.map_cons, valueListLoop_cons_of_value jp e _ sm _ acc v hev, put_length]
    have h2 := ih (acc ++ [some v])
    rw [List.length_append, List.length_singleton] at h2
    rw [h2]
    simp

theorem exists_values (jp : String → Option Value) (sm : Bool) (items : List Element)
    (h : ∀ e ∈ items, ∃ v, refract2v8 jp e sm = .ok (some v)) :
    ∃ vs, List.Forall₂ (fun e v => refract2v8 jp e sm = .ok (some v)) items vs := by
  induction items with
  | nil => exact ⟨[], List.Forall₂.nil⟩
  | cons e items ih =>
    obtain ⟨v, hv⟩ := h e (List.mem_cons_self _ _)
    obtain ⟨vs, hvs⟩ := ih (fun x hx => h x (List.mem_cons_of_mem _ hx))
    exact ⟨v :: vs, List.Forall₂.cons hv hvs⟩

/-! ## The claims -/

/-- C1, as stated, fails: an object element, of a handled kind that is not Extend, holds an
Extend item, and its projection ends with the NotImplemented failure instead of an Object. -/
theorem C1_counterexample :
    objectOfExtend.handled = true ∧ objectOfExtend.isExtend = false ∧
      ∀ sm, refract2v8 (fun _ => none) objectOfExtend sm =
        .error (Failure.notImplemented "ExtendElement serialization Not Implemented") := by
  refine ⟨rfl, rfl, ?_⟩
  intro sm
  cases sm <;> rfl

/-- C1, as amended: for every element of a handled kind other than Extend and either flag,
whenever the projection ends with a result, the result is an Object whose keys are a
subsequence of `["element", "meta", "attributes", "content"]`, whose first key is `"element"`
and whose `"element"` value is the kind name as it is; and the projection ends with such an
Object on every well formed tree (every element is of a handled kind and no Extend, every
child pointer is present, but for the items of an array, and every number text parses). -/
theorem C1_projected_object_shape (jp : String → Option Value) (e : Element) (sm : Bool)
    (hk : e.handled = true) (_hx : e.isExtend = false) :
    (∀ r, refract2v8 jp e sm = .ok r →
      ∃ o, r = some (.object o) ∧
        List.Sublist (Obj.keys o) ["element", "meta", "attributes", "content"] ∧
        (Obj.keys o).head? = some "element" ∧
        o.lookup "element" = some (.string e.element)) ∧
    (e.wellFormed jp = true → ∃ o, refract2v8 jp e sm = .ok (some (.object o))) := by
  have key : ∀ r, refract2v8 jp e sm = .ok r →
      ∃ o, r = some (.object o) ∧
        List.Sublist (Obj.keys o) ["element", "meta", "attributes", "content"] ∧
        (Obj.keys o).head? = some "element" ∧
        o.lookup "element" = some (.string e.element) := by
    intro r h
    obtain ⟨mo, ao, c, -, -, hr⟩ := refract2v8_layout jp e sm r h hk
    refine ⟨_, hr, ?_, ?_, (lookup_layout _ _ _ _).1⟩
    · exact keys_layout_sublist _ _ _ _
    · rw [keys_layout]
      rfl
  refine ⟨key, ?_⟩
  intro hw
  obtain ⟨v, hv⟩ := wf_element jp e sm hw
  obtain ⟨o, ho, -⟩ := key _ hv
  exact ⟨o, ho ▸ hv⟩

/-- C1, witness: an annotation with a source map in its meta and in its attributes. -/
theorem C1_projected_object_shape_witness :
    ∃ o, refract2v8 (fun _ => none)
      (.string "annotation" (.mk [("sourceMap", some (.string "s" (.mk [] []) none))]
        [("sourceMap", some (.string "s" (.mk [] []) none))]) (some "x")) false =
        .ok (some (.object o)) :=
  (C1_projected_object_shape (fun _ => none)
    (.string "annotation" (.mk [("sourceMap", some (.string "s" (.mk [] []) none))]
      [("sourceMap", some (.string "s" (.mk [] []) none))]) (some "x")) false rfl rfl).2 rfl

/-- C2: for every element whose meta mapping (one entry per key) holds a `"sourceMap"` entry
with a present child, the Object that the element projects to with flag false has a `"meta"`
object without a `"sourceMap"` key, and the Object that it projects to with flag true has a
`"meta"` object whose `"sourceMap"` is the value that the child projects to with flag true. -/
theorem C2_meta_sourceMap_filter (jp : String → Option Value) (e c : Element)
    (hm : ("sourceMap", some c) ∈ e.info.meta) :
    (∀ o, refract2v8 jp e false = .ok (some (.object o)) →
      ∃ mo, o.lookup "meta" = some (.object mo) ∧ "sourceMap" ∉ Obj.keys mo) ∧
    (∀ o cv, (e.info.meta.map Prod.fst).Nodup →
      refract2v8 jp e true = .ok (some (.object o)) →
      refract2v8 jp c true = .ok (some cv) →
      ∃ mo, o.lookup "meta" = some (.object mo) ∧ "sourceMap" ∈ Obj.keys mo ∧
        mo.lookup "sourceMap" = some cv) := by
  have hne : e.info.meta.isEmpty = false := isEmpty_eq_false_of_mem _ _ hm
  constructor
  · intro o ho
    obtain ⟨mo, ao, content, hmo, -, rfl⟩ := refract2v8_object_layout jp e false o ho
    refine ⟨mo, ?_, coll_not_mem_sourceMap jp _ mo hmo⟩
    rw [(lookup_layout _ _ _ _).2.1, hne]
    rfl
  · intro o cv hnd ho hc
    obtain ⟨mo, ao, content, hmo, -, rfl⟩ := refract2v8_object_layout jp e true o ho
    have hl : mo.lookup "sourceMap" = some cv :=
      coll_lookup_nodup jp true _ [] mo hmo hnd "sourceMap" c cv hm rfl hc
    refine ⟨mo, ?_, mem_keys_of_lookup mo _ cv hl, hl⟩
    rw [(lookup_layout _ _ _ _).2.1, hne]
    rfl

/-- C2, witness: a string element whose meta holds a source map. -/
theorem C2_meta_sourceMap_filter_witness :
    (∃ mo, List.lookup "meta" [("element", Value.string "string"), ("meta", Value.object [])]
        = some (.object mo) ∧ "sourceMap" ∉ Obj.keys mo) ∧
    ∃ mo, List.lookup "meta" [("element", Value.string "string"),
        ("meta", Value.object [("sourceMap", Value.object [("element", Value.string "s")])])]
        = some (.object mo) ∧ "sourceMap" ∈ Obj.keys mo ∧
        mo.lookup "sourceMap" = some (Value.object [("element", Value.string "s")]) :=
  ⟨(C2_meta_sourceMap_filter (fun _ => none)
      (.string "string" (.mk [("sourceMap", some (.string "s" (.mk [] []) none))] []) none)
      (.string "s" (.mk [] []) none) (List.mem_cons_self _ _)).1 _ rfl,
   (C2_meta_sourceMap_filter (fun _ => none)
      (.string "string" (.mk [("sourceMap", some (.string "s" (.mk [] []) none))] []) none)
      (.string "s" (.mk [] []) none) (List.mem_cons_self _ _)).2 _ _
      (by decide) rfl rfl⟩

/-- C3: for every element whose kind name is `"annotation"` and whose attributes mapping (one
entry per key) holds a `"sourceMap"` entry with a present child, the Object that the element
projects to with flag false has an `"attributes"` object with the `"sourceMap"` key, whose
value is what the child projects to with flag true. -/
theorem C3_annotation_attributes_keep_sourceMap (jp : String → Option Value) (e c : Element)
    (o : Obj) (cv : Value)
    (hn : e.element = "annotation")
    (hm : ("sourceMap", some c) ∈ e.info.attributes)
    (hnd : (e.info.attributes.map Prod.fst).Nodup)
    (ho : refract2v8 jp e false = .ok (some (.object o)))
    (hc : refract2v8 jp c true = .ok (some cv)) :
    ∃ ao, o.lookup "attributes" = some (.object ao) ∧ "sourceMap" ∈ Obj.keys ao ∧
      ao.lookup "sourceMap" = some cv := by
  obtain ⟨mo, ao, content, -, hao, rfl⟩ := refract2v8_object_layout jp e false o ho
  have hflag : effectiveFlag e.element false = true := by simp [effectiveFlag, hn]
  rw [hflag] at hao
  have hl : ao.lookup "sourceMap" = some cv :=
    coll_lookup_nodup jp true _ [] ao hao hnd "sourceMap" c cv hm rfl hc
  have hmem : "sourceMap" ∈ Obj.keys ao := mem_keys_of_lookup ao _ cv hl
  have hne : ao.isEmpty = false := by
    cases ao with
    | nil => cases hmem
    | cons x ao => rfl
  refine ⟨ao, ?_, hmem, hl⟩
  rw [(lookup_layout _ _ _ _).2.2.1, hne]
  rfl

/-- C3, witness: an annotation whose attributes hold a source map, projected with flag
false. -/
theorem C3_annotation_attributes_keep_sourceMap_witness :
    ∃ ao, List.lookup "attributes" [("element", Value.string "annotation"),
        ("attributes",
          Value.object [("sourceMap", Value.object [("element", Value.string "s")])]),
        ("content", Value.string "x")] = some (.object ao) ∧
      "sourceMap" ∈ Obj.keys ao ∧
      ao.lookup "sourceMap" = some (Value.object [("element", Value.string "s")]) :=
  C3_annotation_attributes_keep_sourceMap (fun _ => none)
    (.string "annotation" (.mk [] [("sourceMap", some (.string "s" (.mk [] []) none))])
      (some "x"))
    (.string "s" (.mk [] []) none) _ _ rfl (List.mem_cons_self _ _) (by decide) rfl rfl

/-- C4: for every element and either flag, the Object that the element projects to has an
`"attributes"` key if and only if the attributes mapping still has an entry after the filter
(the filter drops `"sourceMap"` when the effective flag is false; the effective flag is the
flag of the caller, or true when the kind is `"annotation"`); so an element that is not an
annotation and whose only attribute keys are `"sourceMap"` projects with no `"attributes"`
key when the flag is false. -/
theorem C4_attributes_key (jp : String → Option Value) (e : Element) (sm : Bool) (o : Obj)
    (ho : refract2v8 jp e sm = .ok (some (.object o))) :
    ("attributes" ∈ Obj.keys o ↔
      e.info.attributes.filter (fun kc => survives (effectiveFlag e.element sm) kc.1) ≠ []) ∧
    (e.element ≠ "annotation" → sm = false →
      (∀ kc ∈ e.info.attributes, kc.1 = "sourceMap") → "attributes" ∉ Obj.keys o) := by
  obtain ⟨mo, ao, content, -, hao, rfl⟩ := refract2v8_object_layout jp e sm o ho
  have main : "attributes" ∈ Obj.keys (layout e.element
      (if e.info.meta.isEmpty then none else some mo)
      (if ao.isEmpty then none else some ao) content) ↔
      e.info.attributes.filter (fun kc => survives (effectiveFlag e.element sm) kc.1) ≠ [] := by
    rw [(mem_keys_layout _ _ _ _).2.1]
    constructor
    · intro h hnil
      cases ao with
      | nil => simp at h
      | cons x ao =>
        have hx : x.1 ∈ Obj.keys (x :: ao) := by simp [Obj.keys]
        rw [coll_mem_keys_kept jp _ _ _ hao] at hx
        obtain ⟨c, h1, h2⟩ := hx
        have hmem : (x.1, c) ∈ e.info.attributes.filter
            (fun kc => survives (effectiveFlag e.element sm) kc.1) :=
          List.mem_filter.2 ⟨h1, h2⟩
        rw [hnil] at hmem
        cases hmem
    · intro hne
      obtain ⟨kc, hkc⟩ := List.exists_mem_of_ne_nil _ hne
      obtain ⟨h1, h2⟩ := List.mem_filter.1 hkc
      have hk : kc.1 ∈ Obj.keys ao :=
        (coll_mem_keys_kept jp _ _ _ hao kc.1).2 ⟨kc.2, h1, h2⟩
      cases ao with
      | nil => cases hk
      | cons x ao => rfl
  refine ⟨main, ?_⟩
  intro hn hsm hall hmem
  obtain ⟨kc, hkc⟩ := List.exists_mem_of_ne_nil _ (main.1 hmem)
  obtain ⟨h1, h2⟩ := List.mem_filter.1 hkc
  subst hsm
  have hf : effectiveFlag e.element false = false := by
    simp [effectiveFlag, hn]
  rw [hf, hall _ h1] at h2
  simp [survives] at h2

/-- C4, witness: an annotation keeps the source map of its attributes with flag false, and a
string element whose only attribute is a source map has no attributes then. -/
theorem C4_attributes_key_witness :
    ("attributes" ∈ Obj.keys [("element", Value.string "annotation"),
        ("attributes",
          Value.object [("sourceMap", Value.object [("element", Value.string "s")])])] ↔
      List.filter (fun kc => survives (effectiveFlag "annotation" false) kc.1)
        [("sourceMap", some (Element.string "s" (.mk [] []) none))] ≠ []) ∧
    "attributes" ∉ Obj.keys [("element", Value.string "string")] :=
  ⟨(C4_attributes_key (fun _ => none)
      (.string "annotation" (.mk [] [("sourceMap", some (.string "s" (.mk [] []) none))])
        none) false _ rfl).1,
   (C4_attributes_key (fun _ => none)
      (.string "string" (.mk [] [("sourceMap", some (.string "s" (.mk [] []) none))])
        none) false _ rfl).2 (by decide) rfl (by
        intro kc hkc
        cases hkc with
        | head => rfl
        | tail _ h => cases h)⟩

/-- C5: for every element and either flag, the Object that the element projects to has a
`"meta"` key if and only if the meta mapping of the element has an entry, before any filter is
applied; the value is the projected meta mapping, which has no `"sourceMap"` key when the flag
is false and keeps the `"sourceMap"` of a present child when the flag is true; so an element
whose meta holds only `"sourceMap"` projects with flag false to an Object whose `"meta"` is
the empty Object. -/
theorem C5_meta_key (jp : String → Option Value) (e : Element) (sm : Bool) (o : Obj)
    (ho : refract2v8 jp e sm = .ok (some (.object o))) :
    ("meta" ∈ Obj.keys o ↔ e.info.meta ≠ []) ∧
    (e.info.meta ≠ [] →
      ∃ mo, v8ElementCollection jp e.info.meta sm [] = .ok mo ∧
        o.lookup "meta" = some (.object mo) ∧
        (sm = false → "sourceMap" ∉ Obj.keys mo) ∧
        (sm = true → ∀ c v, ("sourceMap", some c) ∈ e.info.meta →
          refract2v8 jp c true = .ok (some v) → "sourceMap" ∈ Obj.keys mo)) ∧
    (sm = false → e.info.meta ≠ [] → (∀ kc ∈ e.info.meta, kc.1 = "sourceMap") →
      o.lookup "meta" = some (.object [])) := by
  obtain ⟨mo, ao, content, hmo, -, rfl⟩ := refract2v8_object_layout jp e sm o ho
  have hiff : e.info.meta.isEmpty = false ↔ e.info.meta ≠ [] := by
    cases e.info.meta <;> simp
  have hlook : e.info.meta ≠ [] → (layout e.element
      (if e.info.meta.isEmpty then none else some mo)
      (if ao.isEmpty then none else some ao) content).lookup "meta" = some (.object mo) := by
    intro hne
    rw [(lookup_layout _ _ _ _).2.1, hiff.2 hne]
    rfl
  refine ⟨?_, ?_, ?_⟩
  · rw [(mem_keys_layout _ _ _ _).1, ← hiff]
    cases e.info.meta.isEmpty <;> simp
  · intro hne
    refine ⟨mo, hmo, hlook hne, ?_, ?_⟩
    · intro hsm
      subst hsm
      exact coll_not_mem_sourceMap jp _ mo hmo
    · intro hsm c v hc hv
      subst hsm
      exact (coll_mem_keys jp true _ [] mo hmo "sourceMap").2 (Or.inr ⟨c, v, hc, rfl, hv⟩)
  · intro hsm hne hall
    subst hsm
    rw [hlook hne]
    cases mo with
    | nil => rfl
    | cons x mo =>
      have hx : x.1 ∈ Obj.keys (x :: mo) := by simp [Obj.keys]
      rw [coll_mem_keys jp false _ [] _ hmo] at hx
      rcases hx with hx | ⟨c, v, h1, h2, -⟩
      · cases hx
      · rw [hall _ h1] at h2
        simp [survives] at h2

/-- C5, witness: a string element whose meta holds only a source map, projected with flag
false, has the empty Object as its meta. -/
theorem C5_meta_key_witness :
    List.lookup "meta" [("element", Value.string "string"), ("meta", Value.object [])] =
      some (.object []) :=
  (C5_meta_key (fun _ => none)
    (.string "string" (.mk [("sourceMap", some (.string "s" (.mk [] []) none))] []) none)
    false _ rfl).2.2 rfl (List.cons_ne_nil _ _) (by
      intro kc hkc
      cases hkc with
      | head => rfl
      | tail _ h => cases h)

/-- C6, as stated, fails: a Null element that reports empty projects to an Object with a
`"content"` key, which holds the null value. -/
theorem C6_counterexample :
    emptyNull.empty = true ∧
      ∀ sm, refract2v8 (fun _ => none) emptyNull sm =
        .ok (some (.object [("element", Value.string "null"), ("content", Value.null)])) := by
  refine ⟨rfl, ?_⟩
  intro sm
  cases sm <;> rfl

/-- C6, as amended: for every element that reports empty, of the kinds String, Number,
Boolean, Array, Enum, Option, Select, Object and Holder, and for either flag, the Object that
the element projects to has no `"content"` key; a String element without a value and without
meta and attributes projects to exactly the Object with the one key `"element"`; and the
call operators for Null, Member and Ref do not ask whether the element reports empty: the
Object that such an element projects to has a `"content"` key. -/
theorem C6_absent_content_omitted (jp : String → Option Value) :
    (∀ e sm o, e.empty = true → e.guardsContent = true →
      refract2v8 jp e sm = .ok (some (.object o)) → "content" ∉ Obj.keys o) ∧
    (∀ sm, refract2v8 jp (.string "string" (.mk [] []) none) sm =
      .ok (some (.object [("element", Value.string "string")]))) ∧
    (∀ e sm o, e.alwaysContent = true →
      refract2v8 jp e sm = .ok (some (.object o)) → "content" ∈ Obj.keys o) := by
  refine ⟨?_, ?_, ?_⟩
  · intro e sm o he hg ho
    have fin : ∀ n i base, v8Element jp n i sm = .ok base →
        pure (some (Value.object base)) = (Except.ok (some (Value.object o)) :
          Except Failure (Option Value)) → "content" ∉ Obj.keys o := by
      intro n i base hb hp
      rw [pure_eq_ok] at hp
      injection hp with hp
      injection hp with hp
      subst hp
      exact v8Element_no_content jp n i sm base hb
    cases e with
    | null n i b => cases hg
    | member n i b k v => cases hg
    | extend n i c => cases hg
    | other n i b => cases hg
    | ref n i b sym => cases hg
    | string n i c =>
      cases c with
      | some x => cases he
      | none =>
        rw [refract2v8_string, bind_eq_ok] at ho
        obtain ⟨base, hb, h2⟩ := ho
        exact fin n i base hb h2
    | number n i c =>
      cases c with
      | some x => cases he
      | none =>
        rw [refract2v8_number, bind_eq_ok] at ho
        obtain ⟨base, hb, h2⟩ := ho
        exact fin n i base hb h2
    | boolean n i c =>
      cases c with
      | some x => cases he
      | none =>
        rw [refract2v8_boolean, bind_eq_ok] at ho
        obtain ⟨base, hb, h2⟩ := ho
        exact fin n i base hb h2
    | array n i c res =>
      cases c with
      | some x => cases he
      | none =>
        rw [refract2v8_array, bind_eq_ok] at ho
        obtain ⟨arr, -, h2⟩ := ho
        rw [bind_eq_ok] at h2
        obtain ⟨base, hb, h3⟩ := h2
        exact fin n i base hb h3
    | enum n i c =>
      cases c with
      | some x => cases he
      | none =>
        rw [refract2v8_enum, bind_eq_ok] at ho
        obtain ⟨base, hb, h2⟩ := ho
        exact fin n i base hb h2
    | option n i c =>
      cases c with
      | some x => cases he
      | none =>
        rw [refract2v8_option, bind_eq_ok] at ho
        obtain ⟨base, hb, h2⟩ := ho
        exact fin n i base hb h2
    | select n i c =>
      cases c with
      | some x => cases he
      | none =>
        rw [refract2v8_select, bind_eq_ok] at ho
        obtain ⟨base, hb, h2⟩ := ho
        exact fin n i base hb h2
    | object n i c =>
      cases c with
      | some x => cases he
      | none =>
        rw [refract2v8_object, bind_eq_ok] at ho
        obtain ⟨base, hb, h2⟩ := ho
        exact fin n i base hb h2
    | holder n i c =>
      cases c with
      | some x => cases he
      | none =>
        rw [refract2v8_holder, bind_eq_ok] at ho
        obtain ⟨base, hb, h2⟩ := ho
        exact fin n i base hb h2
  · intro sm
    cases sm <;> rfl
  · intro e sm o ha ho
    have fin : ∀ base c,
        pure (some (Value.object (Obj.put base "content" c))) =
          (Except.ok (some (Value.object o)) : Except Failure (Option Value)) →
        "content" ∈ Obj.keys o := by
      intro base c hp
      rw [pure_eq_ok] at hp
      injection hp with hp
      injection hp with hp
      subst hp
      exact (mem_keys_put base "content" c "content").2 (Or.inr rfl)
    cases e with
    | null n i b =>
      rw [refract2v8_null, bind_eq_ok] at ho
      obtain ⟨base, -, h2⟩ := ho
      exact fin base _ h2
    | member n i b k v =>
      rw [refract2v8_member, bind_eq_ok] at ho
      obtain ⟨key, -, h2⟩ := ho
      rw [bind_eq_ok] at h2
      obtain ⟨value, -, h3⟩ := h2
      rw [bind_eq_ok] at h3
      obtain ⟨base, -, h4⟩ := h3
      obtain ⟨kv, vv, -, -, h5⟩ := member_content_ok base key value _ h4
      injection h5 with h5
      injection h5 with h5
      subst h5
      exact (mem_keys_put base "content" _ "content").2 (Or.inr rfl)
    | ref n i b sym =>
      rw [refract2v8_ref, bind_eq_ok] at ho
      obtain ⟨base, -, h2⟩ := ho
      exact fin base _ h2
    | string n i c => cases ha
    | number n i c => cases ha
    | boolean n i c => cases ha
    | array n i c res => cases ha
    | enum n i c => cases ha
    | extend n i c => cases ha
    | option n i c => cases ha
    | select n i c => cases ha
    | object n i c => cases ha
    | other n i b => cases ha
    | holder n i c => cases ha

/-- C6, witness: an empty array element with a meta entry has no content, and a reference
has one. -/
theorem C6_absent_content_omitted_witness :
    "content" ∉ Obj.keys [("element", Value.string "array"),
        ("meta", Value.object [("title", Value.object [("element", Value.string "string"),
          ("content", Value.string "t")])])] ∧
      "content" ∈ Obj.keys [("element", Value.string "ref"),
        ("content", Value.string "T")] :=
  ⟨(C6_absent_content_omitted (fun _ => none)).1
      (.array "array" (.mk [("title", some (.string "string" (.mk [] []) (some "t")))] [])
        none none) true _ rfl rfl rfl,
   (C6_absent_content_omitted (fun _ => none)).2.2
      (.ref "ref" (.mk [] []) false "T") true _ rfl rfl⟩

/-- C7, as stated, fails: an Object element that reports non-empty and whose list has no item
projects to an Object without a `"content"` key. -/
theorem C7_counterexample :
    objectWithoutMembers.empty = false ∧
      ∀ sm, refract2v8 (fun _ => none) objectWithoutMembers sm =
        .ok (some (.object [("element", Value.string "object")])) := by
  refine ⟨rfl, ?_⟩
  intro sm
  cases sm <;> rfl

/-- C7, as amended: for every Array, Option and Select element whose content is present and
whose list has no item, and whose meta and attributes project to `base`, the projected Object
is `base` followed by a `"content"` key that holds the empty Array; for an Object element in
that state the projected Object is `base`, without a `"content"` key. -/
theorem C7_present_list_without_items (jp : String → Option Value) (n : String) (i : Info)
    (sm : Bool) (base : Obj) (hb : v8Element jp n i sm = .ok base) :
    refract2v8 jp (.option n i (some [])) sm =
      .ok (some (.object (base ++ [("content", Value.array [])]))) ∧
    refract2v8 jp (.select n i (some [])) sm =
      .ok (some (.object (base ++ [("content", Value.array [])]))) ∧
    (∀ l, refract2v8 jp (.array n i (some l) (some [])) sm =
      .ok (some (.object (base ++ [("content", Value.array [])])))) ∧
    (∀ l, refract2v8 jp (.array n i (some l) none) sm =
      .ok (some (.object (base ++ [("content", Value.array [])])))) ∧
    (base ++ [("content", Value.array [])]).lookup "content" = some (Value.array []) ∧
    refract2v8 jp (.object n i (some [])) sm = .ok (some (.object base)) ∧
    "content" ∉ Obj.keys base := by
  have hset := put_content jp n i sm base hb (Value.array [])
  refine ⟨?_, ?_, ?_, ?_, ?_, ?_, v8Element_no_content jp n i sm base hb⟩
  · rw [refract2v8_option, hb, ← hset]; rfl
  · rw [refract2v8_select, hb, ← hset]; rfl
  · intro l
    rw [refract2v8_array, ← hset]
    simp only [arrayLoop_nil, hb]
    rfl
  · intro l
    rw [refract2v8_array, ← hset]
    simp only [hb]
    rfl
  · rw [← hset]
    exact lookup_put_self base "content" _
  · rw [refract2v8_object, hb]; rfl

/-- C7, witness: an option element with a present list without items. -/
theorem C7_present_list_without_items_witness :
    refract2v8 (fun _ => none) (.option "option" (.mk [] []) (some [])) false =
      .ok (some (.object ([("element", Value.string "option")] ++
        [("content", Value.array [])]))) :=
  (C7_present_list_without_items (fun _ => none) "option" (.mk [] []) false
    [("element", Value.string "option")] rfl).1

/-- C8, the code at the failing input: a Member element whose key child is present and whose
value child is absent, and the one whose key child is absent. The call operator tests each
pointer and leaves the handle of an absent child empty, and then hands both handles to `Set`
without a test: the conversion ends there, with either flag, and no Object with the one key
is produced. What holds: a member is projected by projecting the key, then the value, then
the meta and attributes, and by setting `"key"`, then `"value"`, then `"content"`. -/
theorem C8_absent_child_reaches_set (jp : String → Option Value) (sm : Bool) :
    refract2v8 jp memberWithoutValue sm = .error Failure.emptyHandle ∧
    refract2v8 jp memberWithoutKey sm = .error Failure.emptyHandle ∧
    (∀ n i b child r, refract2v8 jp (.member n i b (some child) none) sm ≠ .ok r) ∧
    (∀ n i b child r, refract2v8 jp (.member n i b none (some child)) sm ≠ .ok r) ∧
    (∀ n i b k v, refract2v8 jp (.member n i b (some k) (some v)) sm =
      (refract2v8 jp k sm >>= fun key =>
        refract2v8 jp v sm >>= fun value =>
        v8Element jp n i sm >>= fun obj =>
        objSet [] "key" key >>= fun content =>
        objSet content "value" value >>= fun content =>
          pure (some (.object (Obj.put obj "content" (.object content)))))) := by
  refine ⟨?_, ?_, ?_, ?_, ?_⟩
  · cases sm <;> rfl
  · cases sm <;> rfl
  · intro n i b child r h
    rw [refract2v8_member, bind_eq_ok] at h
    obtain ⟨key, -, h2⟩ := h
    rw [bind_eq_ok] at h2
    obtain ⟨value, hvalue, h3⟩ := h2
    rw [bind_eq_ok] at h3
    obtain ⟨base, -, h4⟩ := h3
    obtain ⟨kv, vv, -, hv, -⟩ := member_content_ok base key value r h4
    subst hv
    cases hvalue
  · intro n i b child r h
    rw [refract2v8_member, bind_eq_ok] at h
    obtain ⟨key, hkey, h2⟩ := h
    rw [bind_eq_ok] at h2
    obtain ⟨value, -, h3⟩ := h2
    rw [bind_eq_ok] at h3
    obtain ⟨base, -, h4⟩ := h3
    obtain ⟨kv, vv, hk, -, -⟩ := member_content_ok base key value r h4
    subst hk
    cases hkey
  · intro n i b k v
    rw [refract2v8_member]
    rfl

/-- C9, the code at the failing input: a collection with an entry that the filter keeps and
whose child is absent. The loop tests the pointer, leaves the handle of the value empty, and
then hands it to `Set` without a test: the conversion ends there instead of going on without
that key. What holds: an entry that the filter drops is passed over, and an entry that it
keeps and whose child is present has the handle that the child projects to set under its
key, before the loop goes on. -/
theorem C9_absent_child_reaches_set (jp : String → Option Value) :
    (∀ sm, v8ElementCollection jp collectionWithAbsentChild sm [] =
      .error Failure.emptyHandle) ∧
    (∀ k m acc, v8ElementCollection jp ((k, none) :: m) true acc =
      .error Failure.emptyHandle) ∧
    (∀ c m acc, v8ElementCollection jp (("sourceMap", c) :: m) false acc =
      v8ElementCollection jp m false acc) ∧
    (∀ k e m acc, v8ElementCollection jp ((k, some e) :: m) true acc =
      (refract2v8 jp e true >>= fun value =>
        objSet acc k value >>= fun result => v8ElementCollection jp m true result)) := by
  refine ⟨?_, ?_, ?_, ?_⟩
  · intro sm
    cases sm <;> rfl
  · intro k m acc
    exact v8ElementCollection_cons_none jp k m true acc rfl
  · intro c m acc
    exact v8ElementCollection_cons_skip jp "sourceMap" c m false acc rfl
  · intro k e m acc
    rw [v8ElementCollection_cons_some jp k e m true acc rfl]
    cases refract2v8 jp e true with
    | error f => rfl
    | ok r => cases r <;> rfl

/-- C10: order is kept. For every meta or attributes mapping with pairwise distinct keys in
which every entry that the filter keeps has a child that projects to a value, the keys of the
projected Object are the keys of the entries that the filter keeps, in the order of the
mapping. For every Option, Select or Object element with a non-empty list of present items
that project to values, and whose meta and attributes project, the `"content"` of the
projected Object is an Array with one item per element of the list, the item at each position
being what the element at that position projects to. -/
theorem C10_order_preserved (jp : String → Option Value) (sm : Bool) :
    (∀ m : InfoElements, (m.map Prod.fst).Nodup →
      (∀ k c, (k, c) ∈ m → survives sm k = true →
        ∃ e v, c = some e ∧ refract2v8 jp e sm = .ok (some v)) →
      ∃ o, v8ElementCollection jp m sm [] = .ok o ∧
        Obj.keys o = (m.filter (fun kc => survives sm kc.1)).map Prod.fst ∧
        List.Sublist (Obj.keys o) (m.map Prod.fst)) ∧
    (∀ (n : String) (i : Info) (base : Obj) (items : List Element),
      v8Element jp n i sm = .ok base → items ≠ [] →
      (∀ e ∈ items, ∃ v, refract2v8 jp e sm = .ok (some v)) →
      ∃ vs : List Value, vs.length = items.length ∧
        (∀ (k : Nat) (h1 : k < items.length) (h2 : k < vs.length),
          refract2v8 jp (items.get ⟨k, h1⟩) sm = .ok (some (vs.get ⟨k, h2⟩))) ∧
        (base ++ [("content", Value.array (vs.map some))]).lookup "content" =
          some (Value.array (vs.map some)) ∧
        refract2v8 jp (.option n i (some (items.map some))) sm =
          .ok (some (.object (base ++ [("content", Value.array (vs.map some))]))) ∧
        refract2v8 jp (.select n i (some (items.map some))) sm =
          .ok (some (.object (base ++ [("content", Value.array (vs.map some))]))) ∧
        refract2v8 jp (.object n i (some (items.map some))) sm =
          .ok (some (.object (base ++ [("content", Value.array (vs.map some))])))) := by
  constructor
  · intro m hnd hchild
    obtain ⟨o, ho⟩ := coll_ok_of_children jp sm m hchild []
    have hkeys : Obj.keys o = (m.filter (fun kc => survives sm kc.1)).map Prod.fst := by
      rw [coll_keys_nodup jp sm m [] o ho hnd (fun k _ h => by cases h)]
      rfl
    refine ⟨o, ho, hkeys, ?_⟩
    rw [hkeys]
    exact List.Sublist.map _ (List.filter_sublist _)
  · intro n i base items hb hne hall
    obtain ⟨vs, hvs⟩ := exists_values jp sm items hall
    have hloop := valueListLoop_values jp sm items vs hvs []
    simp only [List.length_nil, List.nil_append] at hloop
    have hset := put_content jp n i sm base hb (Value.array (vs.map some))
    have hget := (List.forall₂_iff_get.1 hvs).2
    refine ⟨vs, hvs.length_eq.symm, fun k h1 h2 => hget k h1 h2, ?_, ?_, ?_, ?_⟩
    · rw [← hset]
      exact lookup_put_self base "content" _
    · rw [refract2v8_option, hb, ← hset]
      simp only [bind, Except.bind, hloop]
      rfl
    · rw [refract2v8_select, hb, ← hset]
      simp only [bind, Except.bind, hloop]
      rfl
    · rw [refract2v8_object, hb, ← hset]
      cases items with
      | nil => exact absurd rfl hne
      | cons e items =>
        simp only [List.map_cons] at hloop ⊢
        simp only [bind, Except.bind, hloop]
        rfl

/-- C10, witness: a mapping with the keys b, sourceMap, a in that order, projected with flag
false, and a list of two strings. -/
theorem C10_order_preserved_witness :
    (∃ o, v8ElementCollection (fun _ => none)
        [("b", some (.string "string" (.mk [] []) (some "1"))),
          ("sourceMap", some (.string "string" (.mk [] []) (some "2"))),
          ("a", some (.string "string" (.mk [] []) (some "3")))] false [] = .ok o ∧
      Obj.keys o = (List.filter (fun kc => survives false kc.1)
        [("b", some (Element.string "string" (.mk [] []) (some "1"))),
          ("sourceMap", some (Element.string "string" (.mk [] []) (some "2"))),
          ("a", some (Element.string "string" (.mk [] []) (some "3")))]).map Prod.fst ∧
      List.Sublist (Obj.keys o) (List.map Prod.fst
        [("b", some (Element.string "string" (.mk [] []) (some "1"))),
          ("sourceMap", some (Element.string "string" (.mk [] []) (some "2"))),
          ("a", some (Element.string "string" (.mk [] []) (some "3")))])) ∧
    (∃ vs : List Value, vs.length =
        [Element.string "string" (.mk [] []) (some "1"),
          Element.string "string" (.mk [] []) (some "3")].length ∧
      (∀ (k : Nat) (h1 : k < [Element.string "string" (.mk [] []) (some "1"),
          Element.string "string" (.mk [] []) (some "3")].length) (h2 : k < vs.length),
        refract2v8 (fun _ => none)
          ([Element.string "string" (.mk [] []) (some "1"),
            Element.string "string" (.mk [] []) (some "3")].get ⟨k, h1⟩) false =
          .ok (some (vs.get ⟨k, h2⟩))) ∧
      ([("element", Value.string "option")] ++
          [("content", Value.array (vs.map some))]).lookup "content" =
        some (Value.array (vs.map some)) ∧
      refract2v8 (fun _ => none) (.option "option" (.mk [] [])
          (some ([Element.string "string" (.mk [] []) (some "1"),
            Element.string "string" (.mk [] []) (some "3")].map some))) false =
        .ok (some (.object ([("element", Value.string "option")] ++
          [("content", Value.array (vs.map some))]))) ∧
      refract2v8 (fun _ => none) (.select "option" (.mk [] [])
          (some ([Element.string "string" (.mk [] []) (some "1"),
            Element.string "string" (.mk [] []) (some "3")].map some))) false =
        .ok (some (.object ([("element", Value.string "option")] ++
          [("content", Value.array (vs.map some))]))) ∧
      refract2v8 (fun _ => none) (.object "option" (.mk [] [])
          (some ([Element.string "string" (.mk [] []) (some "1"),
            Element.string "string" (.mk [] []) (some "3")].map some))) false =
        .ok (some (.object ([("element", Value.string "option")] ++
          [("content", Value.array (vs.map some))])))) :=
  ⟨(C10_order_preserved (fun _ => none) false).1 _ (by decide) (by
      intro k c hm hs
      simp only [List.mem_cons, Prod.mk.injEq, List.mem_singleton, List.not_mem_nil,
        or_false] at hm
      rcases hm with ⟨-, h⟩ | ⟨rfl, -⟩ | ⟨-, h⟩
      · exact ⟨_, _, h, rfl⟩
      · cases hs
      · exact ⟨_, _, h, rfl⟩),
   (C10_order_preserved (fun _ => none) false).2 "option" (.mk [] [])
      [("element", Value.string "option")] _ rfl (List.cons_ne_nil _ _) (by
      intro e he
      simp only [List.mem_cons, List.mem_singleton, List.not_mem_nil, or_false] at he
      rcases he with rfl | rfl
      · exact ⟨_, rfl⟩
      · exact ⟨_, rfl⟩)⟩

/-! ## The loop of the array operator and of `annotations2v8` -/

theorem put_get (a : Arr) (i j : Nat) (v : Value) :
    ((Arr.put a i v)[j]?).join = if j = i then some v else (a[j]?).join := by
  unfold Arr.put
  by_cases h : i < a.length
  · simp only [h, if_true, List.getElem?_set]
    by_cases hj : j = i
    · subst hj; simp [h]
    · have hj2 : ¬ i = j := fun e => hj e.symm
      simp [hj, hj2]
  · simp only [h, if_false]
    by_cases hj : j = i
    · subst hj
      have h1 : (a ++ List.replicate (j - a.length) none).length = j := by
        simp; omega
      rw [List.getElem?_append_right (by omega)]
      simp [h1]
    · simp only [hj, if_false]
      by_cases hl : j < a.length
      · rw [List.append_assoc, List.getElem?_append_left hl]
      · have hnone : a[j]? = none := List.getElem?_eq_none (by omega)
        rw [hnone]
        by_cases hlt : j < i
        · have h1 : j < (a ++ List.replicate (i - a.length) none).length := by
            simp; omega
          rw [List.getElem?_append_left h1, List.getElem?_append_right (by omega)]
          rw [List.getElem?_replicate]
          have h2 : j - a.length < i - a.length := by omega
          simp [h2]
        · have h1 : (a ++ List.replicate (i - a.length) none ++ [some v]).length ≤ j := by
            simp; omega
          rw [List.getElem?_eq_none h1]

theorem put_length_le (a : Arr) (i : Nat) (v : Value) (n : Nat)
    (ha : a.length ≤ n) (hi : i < n) : (Arr.put a i v).length ≤ n := by
  unfold Arr.put
  by_cases h : i < a.length
  · simp [h, ha]
  · simp only [h, if_false, List.length_append, List.length_replicate,
      List.length_singleton]
    omega

/-- The outcome of one item of a list for the loop of the array operator: nothing for a null
item, and the value that the element projects to for a present one. -/
theorem arrayLoop_slots (jp : String → Option Value) (sm : Bool) (l : List (Option Element))
    (rs : List (Option Value))
    (h : List.Forall₂ (fun el r =>
      (el = none ∧ r = none) ∨
        ∃ e v, el = some e ∧ r = some v ∧ refract2v8 jp e sm = .ok (some v)) l rs)
    (i : Nat) (acc : Arr) (hacc : acc.length ≤ i) :
    ∃ a, arrayLoop jp l sm i acc = .ok a ∧ a.length ≤ i + l.length ∧
      ∀ j, (a[j]?).join = if j < i then (acc[j]?).join else (rs[j - i]?).join := by
  induction h generalizing i acc with
  | nil =>
    refine ⟨acc, arrayLoop_nil jp sm i acc, by simpa using hacc, ?_⟩
    intro j
    by_cases hj : j < i
    · simp [hj]
    · simp only [hj, if_false]
      rw [List.getElem?_eq_none (by omega)]
      simp
  | @cons el r l rs hel _ ih =>
    have haccnone : (acc[i]?).join = none := by
      rw [List.getElem?_eq_none hacc]; rfl
    rcases hel with ⟨h1, h2⟩ | ⟨e, v, h1, h2, h3⟩
    · subst h1; subst h2
      obtain ⟨a, ha, hlen, hget⟩ := ih (i + 1) acc (by omega)
      refine ⟨a, by rw [arrayLoop_cons_none]; exact ha,
        by simp only [List.length_cons]; omega, ?_⟩
      intro j
      rw [hget j]
      by_cases hj : j < i
      · have hj1 : j < i + 1 := by omega
        simp only [hj, hj1, if_true]
      · by_cases hji : j = i
        · subst hji
          simp only [Nat.lt_succ_self, if_true, Nat.lt_irrefl, if_false, Nat.sub_self,
            List.getElem?_cons_zero]
          exact haccnone
        · have hj1 : ¬ j < i + 1 := by omega
          simp only [hj, hj1, if_false]
          have : j - i = (j - (i + 1)) + 1 := by omega
          rw [this, List.getElem?_cons_succ]
    · subst h1; subst h2
      obtain ⟨a, ha, hlen, hget⟩ := ih (i + 1) (Arr.put acc i v)
        (put_length_le acc i v (i + 1) (by omega) (by omega))
      refine ⟨a, by rw [arrayLoop_cons_of_value jp e l sm i acc v h3]; exact ha,
        by simp only [List.length_cons]; omega, ?_⟩
      intro j
      rw [hget j]
      by_cases hj : j < i
      · have hj1 : j < i + 1 := by omega
        have hne : j ≠ i := by omega
        simp only [hj, hj1, if_true]
        rw [put_get]; simp [hne]
      · by_cases hji : j = i
        · subst hji
          simp only [Nat.lt_succ_self, if_true, Nat.lt_irrefl, if_false, Nat.sub_self,
            List.getElem?_cons_zero]
          rw [put_get]; simp
        · have hj1 : ¬ j < i + 1 := by omega
          simp only [hj, hj1, if_false]
          have : j - i = (j - (i + 1)) + 1 := by omega
          rw [this, List.getElem?_cons_succ]

theorem arrayLoop_values (jp : String → Option Value) (items : List Element) (sm : Bool)
    (vs : List Value)
    (h : List.Forall₂ (fun e v => refract2v8 jp e sm = .ok (some v)) items vs) (acc : Arr) :
    arrayLoop jp (items.map some) sm acc.length acc = .ok (acc ++ vs.map some) := by
  induction h generalizing acc with
  | nil => simp [arrayLoop_nil]
  | @cons e v es ws hev _ ih =>
    rw [List.map_cons, arrayLoop_cons_of_value jp e _ sm _ acc v hev, put_length]
    have h2 := ih (acc ++ [some v])
    rw [List.length_append, List.length_singleton] at h2
    rw [h2]
    simp

theorem annotations2v8_empty (jp : String → Option Value)
    (collect : Element → List (Option Element)) (res : Element) (h : collect res = []) :
    annotations2v8 jp collect res = .ok (some Value.null) := by
  simp [annotations2v8, h, pure, Except.pure]

theorem annotations2v8_nonempty (jp : String → Option Value)
    (collect : Element → List (Option Element)) (res : Element) (h : collect res ≠ []) :
    annotations2v8 jp collect res =
      (arrayLoop jp (collect res) true 0 [] >>= fun array =>
        pure (some (Value.object [("element", Value.string "parseResult"),
          ("content", Value.array array)]))) := by
  have hne : (collect res).isEmpty = false := by
    cases hc : collect res with
    | nil => exact absurd hc h
    | cons x l => rfl
  simp only [annotations2v8, hne]
  rfl

/-! ## The claims on `annotations2v8` and on the content of each kind -/

/-- C11: for every root, with `collect` the sequence that the traversal with the annotation
filter collects: when it collects no element, `annotations2v8` returns the Null value; when
it collects at least one, the conversion ends with a failure or with an Object, so that a
result is never Null. -/
theorem C11_null_exactly_without_annotations (jp : String → Option Value)
    (collect : Element → List (Option Element)) (res : Element) :
    (collect res = [] → annotations2v8 jp collect res = .ok (some Value.null)) ∧
    (collect res ≠ [] →
      ((∃ f, annotations2v8 jp collect res = .error f) ∨
        ∃ o, annotations2v8 jp collect res = .ok (some (.object o))) ∧
      ∀ r, annotations2v8 jp collect res = .ok r → r ≠ some Value.null) := by
  refine ⟨annotations2v8_empty jp collect res, ?_⟩
  intro h
  have hcases : (∃ f, annotations2v8 jp collect res = .error f) ∨
      ∃ o, annotations2v8 jp collect res = .ok (some (.object o)) := by
    rw [annotations2v8_nonempty jp collect res h]
    cases arrayLoop jp (collect res) true 0 [] with
    | error f => exact Or.inl ⟨f, rfl⟩
    | ok a => exact Or.inr ⟨_, rfl⟩
  refine ⟨hcases, ?_⟩
  intro r hr hnull
  subst hnull
  rcases hcases with ⟨f, hf⟩ | ⟨o, ho⟩
  · rw [hf] at hr; cases hr
  · rw [ho] at hr; cases hr

/-- C11, witness: a traversal that collects nothing, and one that collects one annotation. -/
theorem C11_null_exactly_without_annotations_witness :
    annotations2v8 (fun _ => none) (fun _ => []) (.string "string" (.mk [] []) none) =
        .ok (some Value.null) ∧
      ∀ r, annotations2v8 (fun _ => none)
          (fun _ => [some (.string "annotation" (.mk [] []) (some "w"))])
          (.string "string" (.mk [] []) none) = .ok r → r ≠ some Value.null :=
  ⟨(C11_null_exactly_without_annotations (fun _ => none) (fun _ => [])
      (.string "string" (.mk [] []) none)).1 rfl,
   ((C11_null_exactly_without_annotations (fun _ => none)
      (fun _ => [some (.string "annotation" (.mk [] []) (some "w"))])
      (.string "string" (.mk [] []) none)).2 (List.cons_ne_nil _ _)).2⟩

/-- C12: for every root whose traversal collects a non-empty sequence `a1, ..., an` of
elements that project with flag true to the values `v1, ..., vn`, `annotations2v8` returns the
Object with the keys `"element"` then `"content"`, where `"element"` is the string
`"parseResult"` and `"content"` is the Array of length `n` with `vi` at position `i`;
`annotations2v8` takes no flag. -/
theorem C12_parse_result_envelope (jp : String → Option Value)
    (collect : Element → List (Option Element)) (res : Element) (annotations : List Element)
    (vs : List Value) (hc : collect res = annotations.map some) (hne : annotations ≠ [])
    (hv : List.Forall₂ (fun a v => refract2v8 jp a true = .ok (some v)) annotations vs) :
    annotations2v8 jp collect res =
        .ok (some (.object [("element", Value.string "parseResult"),
          ("content", Value.array (vs.map some))])) ∧
      vs.length = annotations.length ∧
      ∀ (k : Nat) (h1 : k < annotations.length) (h2 : k < vs.length),
        refract2v8 jp (annotations.get ⟨k, h1⟩) true = .ok (some (vs.get ⟨k, h2⟩)) := by
  have hne2 : collect res ≠ [] := by
    rw [hc]
    cases annotations with
    | nil => exact absurd rfl hne
    | cons a l => exact List.cons_ne_nil _ _
  have hloop := arrayLoop_values jp annotations true vs hv []
  simp only [List.length_nil, List.nil_append] at hloop
  refine ⟨?_, hv.length_eq.symm, fun k h1 h2 => (List.forall₂_iff_get.1 hv).2 k h1 h2⟩
  rw [annotations2v8_nonempty jp collect res hne2, hc, hloop]
  rfl

/-- C12, witness: two annotations with a source map in their attributes. -/
theorem C12_parse_result_envelope_witness :
    annotations2v8 (fun _ => none)
        (fun _ => [some (.string "annotation"
            (.mk [] [("sourceMap", some (.string "s1" (.mk [] []) none))]) (some "w1")),
          some (.string "annotation" (.mk [] []) (some "w2"))])
        (.string "string" (.mk [] []) none) =
      .ok (some (.object [("element", Value.string "parseResult"),
        ("content", Value.array ([Value.object [("element", Value.string "annotation"),
            ("attributes",
              Value.object [("sourceMap", Value.object [("element", Value.string "s1")])]),
            ("content", Value.string "w1")],
          Value.object [("element", Value.string "annotation"),
            ("content", Value.string "w2")]].map some))])) :=
  (C12_parse_result_envelope (fun _ => none) _ (.string "string" (.mk [] []) none)
    [.string "annotation" (.mk [] [("sourceMap", some (.string "s1" (.mk [] []) none))])
        (some "w1"),
      .string "annotation" (.mk [] []) (some "w2")] _ rfl (List.cons_ne_nil _ _)
    (List.Forall₂.cons rfl (List.Forall₂.cons rfl List.Forall₂.nil))).1

/-- C14: for every Object element whose meta and attributes project to `base`, and either
flag: when the element reports empty or its member list has no item, the projected Object is
`base`, which has no `"content"` key; otherwise, for members that project to the values
`v1, ..., vn`, the projected Object is `base` followed by `"content"`, an Array with one item
per member, `vi` at position `i`. -/
theorem C14_object_content (jp : String → Option Value) (n : String) (i : Info) (sm : Bool)
    (base : Obj) (hb : v8Element jp n i sm = .ok base) :
    refract2v8 jp (.object n i none) sm = .ok (some (.object base)) ∧
    refract2v8 jp (.object n i (some [])) sm = .ok (some (.object base)) ∧
    "content" ∉ Obj.keys base ∧
    ∀ (members : List Element) (vs : List Value), members ≠ [] →
      List.Forall₂ (fun e v => refract2v8 jp e sm = .ok (some v)) members vs →
      refract2v8 jp (.object n i (some (members.map some))) sm =
          .ok (some (.object (base ++ [("content", Value.array (vs.map some))]))) ∧
        (base ++ [("content", Value.array (vs.map some))]).lookup "content" =
          some (Value.array (vs.map some)) ∧
        vs.length = members.length ∧
        ∀ (k : Nat) (h1 : k < members.length) (h2 : k < vs.length),
          refract2v8 jp (members.get ⟨k, h1⟩) sm = .ok (some (vs.get ⟨k, h2⟩)) := by
  refine ⟨?_, ?_, v8Element_no_content jp n i sm base hb, ?_⟩
  · rw [refract2v8_object, hb]; rfl
  · rw [refract2v8_object, hb]; rfl
  · intro members vs hne hvs
    have hloop := valueListLoop_values jp sm members vs hvs []
    simp only [List.length_nil, List.nil_append] at hloop
    have hset := put_content jp n i sm base hb (Value.array (vs.map some))
    refine ⟨?_, ?_, hvs.length_eq.symm, fun k h1 h2 => (List.forall₂_iff_get.1 hvs).2 k h1 h2⟩
    · rw [refract2v8_object, hb, ← hset]
      cases members with
      | nil => exact absurd rfl hne
      | cons e members =>
        simp only [List.map_cons] at hloop ⊢
        simp only [bind, Except.bind, hloop]
        rfl
    · rw [← hset]
      exact lookup_put_self base "content" _

/-- C14, witness: an object element with one member, which has a key and a value. -/
theorem C14_object_content_witness :
    refract2v8 (fun _ => none) (.object "object" (.mk [] [])
        (some ([Element.member "member" (.mk [] []) false
          (some (.string "string" (.mk [] []) (some "k")))
          (some (.boolean "boolean" (.mk [] []) (some true)))].map some))) false =
      .ok (some (.object ([("element", Value.string "object")] ++
        [("content", Value.array ([Value.object [("element", Value.string "member"),
          ("content", Value.object [("key", Value.object [("element", Value.string "string"),
            ("content", Value.string "k")]),
            ("value", Value.object [("element", Value.string "boolean"),
              ("content", Value.bool true)])])]].map some))]))) :=
  ((C14_object_content (fun _ => none) "object" (.mk [] []) false
    [("element", Value.string "object")] rfl).2.2.2
    [.member "member" (.mk [] []) false (some (.string "string" (.mk [] []) (some "k")))
      (some (.boolean "boolean" (.mk [] []) (some true)))]
    _ (List.cons_ne_nil _ _) (List.Forall₂.cons rfl List.Forall₂.nil)).1

theorem exists_slots (jp : String → Option Value) (sm : Bool) (l : List (Option Element))
    (h : ∀ e, some e ∈ l → ∃ v, refract2v8 jp e sm = .ok (some v)) :
    ∃ rs : List (Option Value), List.Forall₂ (fun el r =>
      (el = none ∧ r = none) ∨
        ∃ e v, el = some e ∧ r = some v ∧ refract2v8 jp e sm = .ok (some v)) l rs := by
  induction l with
  | nil => exact ⟨[], List.Forall₂.nil⟩
  | cons el l ih =>
    obtain ⟨rs, hrs⟩ := ih (fun e he => h e (List.mem_cons_of_mem _ he))
    cases el with
    | none => exact ⟨none :: rs, List.Forall₂.cons (Or.inl ⟨rfl, rfl⟩) hrs⟩
    | some e =>
      obtain ⟨v, hv⟩ := h e (List.mem_cons_self _ _)
      exact ⟨some v :: rs, List.Forall₂.cons (Or.inr ⟨e, v, rfl, rfl, hv⟩) hrs⟩

/-- C15: for every Array element whose meta and attributes project to `base`, and either
flag: the projected Object has a `"content"` key if and only if the element reports
non-empty; and when it reports non-empty and the value accessor resolves to a list whose
present items project to values, `"content"` is an Array in which the position of every
present item holds what that item projects to, and the position of every absent item holds
nothing: absent items are passed over and the index advances all the same. -/
theorem C15_array_content (jp : String → Option Value) (n : String) (i : Info) (sm : Bool)
    (base : Obj) (hb : v8Element jp n i sm = .ok base) :
    (∀ c res o, refract2v8 jp (.array n i c res) sm = .ok (some (.object o)) →
      ("content" ∈ Obj.keys o ↔ (Element.array n i c res).empty = false)) ∧
    (∀ (c : Option (List (Option Element))) (l : List (Option Element)), c.isSome = true →
      (∀ e, some e ∈ l → ∃ v, refract2v8 jp e sm = .ok (some v)) →
      ∃ a : Arr, refract2v8 jp (.array n i c (some l)) sm =
          .ok (some (.object (base ++ [("content", Value.array a)]))) ∧
        a.length ≤ l.length ∧
        (∀ (k : Nat) (e : Element), l[k]? = some (some e) →
          ∃ v, refract2v8 jp e sm = .ok (some v) ∧ a[k]? = some (some v)) ∧
        (∀ k : Nat, l[k]? = some none → (a[k]?).join = none)) := by
  constructor
  · intro c res o ho
    rw [refract2v8_array, bind_eq_ok] at ho
    obtain ⟨arr, -, h2⟩ := ho
    rw [hb] at h2
    cases c with
    | none =>
      have h3 : (pure (some (Value.object base)) : Except Failure (Option Value)) =
          .ok (some (.object o)) := h2
      rw [pure_eq_ok] at h3
      injection h3 with h3
      injection h3 with h3
      subst h3
      have hno := v8Element_no_content jp n i sm base hb
      simp [Element.empty, hno]
    | some l0 =>
      have h3 : (pure (some (Value.object (Obj.put base "content" (Value.array arr)))) :
          Except Failure (Option Value)) = .ok (some (.object o)) := h2
      rw [pure_eq_ok] at h3
      injection h3 with h3
      injection h3 with h3
      subst h3
      have hmem : "content" ∈ Obj.keys (Obj.put base "content" (Value.array arr)) :=
        (mem_keys_put base "content" _ "content").2 (Or.inr rfl)
      simp [Element.empty, hmem]
  · intro c l hc hall
    obtain ⟨rs, hrs⟩ := exists_slots jp sm l hall
    obtain ⟨a, ha, hlen, hget⟩ := arrayLoop_slots jp sm l rs hrs 0 [] (Nat.le_refl _)
    have hidx := List.forall₂_iff_get.1 hrs
    have hset := put_content jp n i sm base hb (Value.array a)
    refine ⟨a, ?_, by simpa using hlen, ?_, ?_⟩
    · rw [refract2v8_array, ← hset]
      cases c with
      | none => cases hc
      | some l0 =>
        simp only [ha, hb]
        rfl
    · intro k e hk
      have hkl : k < l.length := by
        by_contra hcon
        rw [List.getElem?_eq_none (by omega)] at hk
        cases hk
      have hkr : k < rs.length := hidx.1 ▸ hkl
      have hrel := hidx.2 k hkl hkr
      have hlk : l.get ⟨k, hkl⟩ = some e := by
        rw [List.getElem?_eq_getElem hkl] at hk
        injection hk
      rw [hlk] at hrel
      rcases hrel with ⟨h1, -⟩ | ⟨e2, v, h1, h2, h3⟩
      · cases h1
      · cases h1
        refine ⟨v, h3, ?_⟩
        have hj := hget k
        simp only [Nat.not_lt_zero, if_false, Nat.sub_zero] at hj
        rw [List.getElem?_eq_getElem hkr] at hj
        have h2' : rs[k] = some v := h2
        rw [h2'] at hj
        exact Option.join_eq_some.1 hj
    · intro k hk
      have hkl : k < l.length := by
        by_contra hcon
        rw [List.getElem?_eq_none (by omega)] at hk
        cases hk
      have hkr : k < rs.length := hidx.1 ▸ hkl
      have hrel := hidx.2 k hkl hkr
      have hlk : l.get ⟨k, hkl⟩ = none := by
        rw [List.getElem?_eq_getElem hkl] at hk
        injection hk
      rw [hlk] at hrel
      rcases hrel with ⟨-, h2⟩ | ⟨e2, v, h1, -, -⟩
      · have hj := hget k
        simp only [Nat.not_lt_zero, if_false, Nat.sub_zero] at hj
        rw [List.getElem?_eq_getElem hkr] at hj
        have h2' : rs[k] = none := h2
        rw [h2'] at hj
        exact hj
      · cases h1

/-- C15, witness: an array whose resolved list is an absent item, a string and an absent
item: the string lands at position 1, position 0 is a hole and the array ends there. -/
theorem C15_array_content_witness :
    ∃ a : Arr, refract2v8 (fun _ => none) (.array "array" (.mk [] [])
          (some [none, some (.string "string" (.mk [] []) (some "x")), none])
          (some [none, some (.string "string" (.mk [] []) (some "x")), none])) false =
        .ok (some (.object ([("element", Value.string "array")] ++
          [("content", Value.array a)]))) ∧
      a.length ≤ [none, some (Element.string "string" (.mk [] []) (some "x")), none].length ∧
      (∀ (k : Nat) (e : Element),
        [none, some (Element.string "string" (.mk [] []) (some "x")), none][k]? =
          some (some e) →
        ∃ v, refract2v8 (fun _ => none) e false = .ok (some v) ∧ a[k]? = some (some v)) ∧
      (∀ k : Nat, [none, some (Element.string "string" (.mk [] []) (some "x")), none][k]? =
          some none → (a[k]?).join = none) :=
  (C15_array_content (fun _ => none) "array" (.mk [] []) false
    [("element", Value.string "array")] rfl).2
    (some [none, some (.string "string" (.mk [] []) (some "x")), none])
    [none, some (.string "string" (.mk [] []) (some "x")), none] rfl (by
      intro e he
      simp only [List.mem_cons, List.mem_singleton, List.not_mem_nil, or_false] at he
      rcases he with h | h | h
      · cases h
      · cases h
        exact ⟨_, rfl⟩
      · cases h)

/-- C16, the code at the failing input: an Enum element and a Holder element that report
non-empty and whose child pointer is null. The call operator hands the null pointer to
`ElementToObject`, which dereferences it, and the conversion ends without a value, with
either flag. What holds: an empty Enum or Holder projects to the Object of `v8Element`, and a
non-empty one with a present child sets `"content"` to what the child projects to. -/
theorem C16_null_child_is_dereferenced (jp : String → Option Value) (sm : Bool) :
    enumWithoutValue.empty = false ∧ holderWithoutData.empty = false ∧
    refract2v8 jp enumWithoutValue sm = .error Failure.nullDereference ∧
    refract2v8 jp holderWithoutData sm = .error Failure.nullDereference ∧
    (∀ n i, refract2v8 jp (.enum n i none) sm =
        (v8Element jp n i sm >>= fun obj => pure (some (.object obj))) ∧
      refract2v8 jp (.holder n i none) sm =
        (v8Element jp n i sm >>= fun obj => pure (some (.object obj)))) ∧
    (∀ n i child, refract2v8 jp (.enum n i (some (some child))) sm =
        (v8Element jp n i sm >>= fun obj => refract2v8 jp child sm >>= fun c =>
          objSet obj "content" c >>= fun obj => pure (some (.object obj))) ∧
      refract2v8 jp (.holder n i (some (some child))) sm =
        (v8Element jp n i sm >>= fun obj => refract2v8 jp child sm >>= fun c =>
          objSet obj "content" c >>= fun obj => pure (some (.object obj)))) := by
  refine ⟨rfl, rfl, ?_, ?_, ?_, ?_⟩
  · cases sm <;> rfl
  · cases sm <;> rfl
  · intro n i
    exact ⟨by rw [refract2v8_enum], by rw [refract2v8_holder]⟩
  · intro n i child
    exact ⟨by rw [refract2v8_enum]; rfl, by rw [refract2v8_holder]; rfl⟩

/-- C18, as stated, fails: an element that the visitor hands to the overload for
`const IElement&` is not of a handled kind, and its projection completes without a failure
and with an unset result, with either flag. -/
theorem C18_counterexample :
    unknownVariant.handled = false ∧
      ∀ sm, refract2v8 (fun _ => none) unknownVariant sm = .ok none := by
  refine ⟨rfl, ?_⟩
  intro sm
  rfl

/-- C18, as amended: the dispatch covers the thirteen handled kinds, and the projection of an
element of one of them ends with a failure or with an Object, never with an unset result; the
projection of an element of any other variant runs the empty body of the overload for
`const IElement&`: it completes without a failure and with an unset result. -/
theorem C18_dispatch (jp : String → Option Value) (e : Element) (sm : Bool) :
    (e.handled = true →
      (∃ f, refract2v8 jp e sm = .error f) ∨
        ∃ o, refract2v8 jp e sm = .ok (some (.object o))) ∧
    (e.handled = false → refract2v8 jp e sm = .ok none) := by
  constructor
  · intro hk
    cases hr : refract2v8 jp e sm with
    | error f => exact Or.inl ⟨f, rfl⟩
    | ok r =>
      obtain ⟨base, -, h | ⟨c, h⟩⟩ := refract2v8_shape jp e sm r hr hk
      · exact Or.inr ⟨_, by rw [h]⟩
      · exact Or.inr ⟨_, by rw [h]⟩
  · intro hk
    cases e <;> first | rfl | cases hk

/-- C18, witness: a string element projects to an Object or fails, and an element of another
variant projects to an unset result. -/
theorem C18_dispatch_witness :
    ((∃ f, refract2v8 (fun _ => none) (.string "string" (.mk [] []) none) true = .error f) ∨
      ∃ o, refract2v8 (fun _ => none) (.string "string" (.mk [] []) none) true =
        .ok (some (.object o))) ∧
    refract2v8 (fun _ => none) (.other "custom" (.mk [] []) false) true = .ok none :=
  ⟨(C18_dispatch (fun _ => none) (.string "string" (.mk [] []) none) true).1 rfl,
   (C18_dispatch (fun _ => none) (.other "custom" (.mk [] []) false) true).2 rfl⟩

/-! ## Predicates on whole trees -/

theorem all_leaf (p : Element → Bool) (n : String) (i : Info) :
    (∀ b, (Element.null n i b).all p = true → p (.null n i b) = true ∧ i.all p = true) ∧
    (∀ c, (Element.string n i c).all p = true → p (.string n i c) = true ∧ i.all p = true) ∧
    (∀ c, (Element.number n i c).all p = true → p (.number n i c) = true ∧ i.all p = true) ∧
    (∀ c, (Element.boolean n i c).all p = true →
      p (.boolean n i c) = true ∧ i.all p = true) ∧
    (∀ b, (Element.other n i b).all p = true → p (.other n i b) = true ∧ i.all p = true) ∧
    (∀ b s, (Element.ref n i b s).all p = true →
      p (.ref n i b s) = true ∧ i.all p = true) := by
  refine ⟨?_, ?_, ?_, ?_, ?_, ?_⟩ <;> intros <;>
    simp_all only [Element.all, Bool.and_eq_true, and_self]

theorem all_member (p : Element → Bool) (n : String) (i : Info) (b : Bool)
    (k v : Option Element) (h : (Element.member n i b k v).all p = true) :
    p (.member n i b k v) = true ∧ i.all p = true ∧ pointerAll p k = true ∧
      pointerAll p v = true := by
  simp only [Element.all, Bool.and_eq_true] at h
  exact ⟨h.1.1.1, h.1.1.2, h.1.2, h.2⟩

theorem all_array (p : Element → Bool) (n : String) (i : Info)
    (c res : Option (List (Option Element))) (h : (Element.array n i c res).all p = true) :
    p (.array n i c res) = true ∧ i.all p = true ∧
      (∀ l, c = some l → pointersAll p l = true) ∧
      (∀ l, res = some l → pointersAll p l = true) := by
  cases c <;> cases res <;> simp only [Element.all, Bool.and_eq_true] at h <;>
    refine ⟨h.1.1.1, h.1.1.2, ?_, ?_⟩ <;> intro l hl <;> cases hl <;>
    first | exact h.1.2 | exact h.2

theorem all_enum (p : Element → Bool) (n : String) (i : Info) (c : Option (Option Element))
    (h : (Element.enum n i c).all p = true) :
    p (.enum n i c) = true ∧ i.all p = true ∧
      ∀ child, c = some child → pointerAll p child = true := by
  cases c <;> simp only [Element.all, Bool.and_eq_true] at h <;>
    refine ⟨h.1.1, h.1.2, ?_⟩ <;> intro l hl <;> cases hl <;> exact h.2

theorem all_holder (p : Element → Bool) (n : String) (i : Info) (c : Option (Option Element))
    (h : (Element.holder n i c).all p = true) :
    p (.holder n i c) = true ∧ i.all p = true ∧
      ∀ child, c = some child → pointerAll p child = true := by
  cases c <;> simp only [Element.all, Bool.and_eq_true] at h <;>
    refine ⟨h.1.1, h.1.2, ?_⟩ <;> intro l hl <;> cases hl <;> exact h.2

theorem all_option (p : Element → Bool) (n : String) (i : Info)
    (c : Option (List (Option Element))) (h : (Element.option n i c).all p = true) :
    p (.option n i c) = true ∧ i.all p = true ∧
      ∀ l, c = some l → pointersAll p l = true := by
  cases c <;> simp only [Element.all, Bool.and_eq_true] at h <;>
    refine ⟨h.1.1, h.1.2, ?_⟩ <;> intro l hl <;> cases hl <;> exact h.2

theorem all_select (p : Element → Bool) (n : String) (i : Info)
    (c : Option (List (Option Element))) (h : (Element.select n i c).all p = true) :
    p (.select n i c) = true ∧ i.all p = true ∧
      ∀ l, c = some l → pointersAll p l = true := by
  cases c <;> simp only [Element.all, Bool.and_eq_true] at h <;>
    refine ⟨h.1.1, h.1.2, ?_⟩ <;> intro l hl <;> cases hl <;> exact h.2

theorem all_object (p : Element → Bool) (n : String) (i : Info)
    (c : Option (List (Option Element))) (h : (Element.object n i c).all p = true) :
    p (.object n i c) = true ∧ i.all p = true ∧
      ∀ l, c = some l → pointersAll p l = true := by
  cases c <;> simp only [Element.all, Bool.and_eq_true] at h <;>
    refine ⟨h.1.1, h.1.2, ?_⟩ <;> intro l hl <;> cases hl <;> exact h.2

theorem all_extend (p : Element → Bool) (n : String) (i : Info)
    (c : Option (List (Option Element))) (h : (Element.extend n i c).all p = true) :
    p (.extend n i c) = true ∧ i.all p = true := by
  cases c <;> simp only [Element.all, Bool.and_eq_true] at h <;> exact h.1

theorem all_info (p : Element → Bool) (m a : InfoElements) (h : (Info.mk m a).all p = true) :
    entriesAll p m = true ∧ entriesAll p a = true := by
  simpa only [Info.all, Bool.and_eq_true] using h

theorem entriesAll_cons (p : Element → Bool) (k : String) (c : Option Element)
    (m : InfoElements) (h : entriesAll p ((k, c) :: m) = true) :
    pointerAll p c = true ∧ entriesAll p m = true := by
  simpa only [entriesAll, Bool.and_eq_true] using h

theorem pointersAll_cons (p : Element → Bool) (c : Option Element)
    (l : List (Option Element)) (h : pointersAll p (c :: l) = true) :
    pointerAll p c = true ∧ pointersAll p l = true := by
  simpa only [pointersAll, Bool.and_eq_true] using h

theorem pointerAll_some (p : Element → Bool) (e : Element) :
    pointerAll p (some e) = e.all p := rfl

/-! ## The flag acts through the filter only -/

theorem survives_of_ne (sm : Bool) (k : String) (h : (k != "sourceMap") = true) :
    survives sm k = true := by
  have h2 : (k == "sourceMap") = false := by simpa using h
  simp [survives, h2]

theorem withoutKey_cons (k : String) (c : Option Element) (m : InfoElements)
    (h : List.all ((k, c) :: m) (fun kc => kc.1 != "sourceMap") = true) :
    (k != "sourceMap") = true ∧ List.all m (fun kc => kc.1 != "sourceMap") = true := by
  simpa only [List.all_cons, Bool.and_eq_true] using h

theorem withoutSourceMapKey_info (e : Element) (h : e.withoutSourceMapKey = true) :
    List.all e.info.meta (fun kc => kc.1 != "sourceMap") = true ∧
      List.all e.info.attributes (fun kc => kc.1 != "sourceMap") = true := by
  simpa only [Element.withoutSourceMapKey, Bool.and_eq_true] using h

theorem bind_congr_left {ε α β : Type} (x y : Except ε α) (f : α → Except ε β) (h : x = y) :
    (x >>= f) = (y >>= f) := by
  rw [h]

theorem bind_congr_right {ε α β : Type} (x : Except ε α) (f g : α → Except ε β)
    (h : ∀ a, x = .ok a → f a = g a) : (x >>= f) = (x >>= g) := by
  cases x with
  | error e => rfl
  | ok a => exact h a rfl

mutual
theorem flag_element (jp : String → Option Value) : ∀ (e : Element),
    e.all Element.withoutSourceMapKey = true → refract2v8 jp e true = refract2v8 jp e false
  | .null n i b, h => by
    have h2 := (all_leaf _ n i).1 b h
    have hk := withoutSourceMapKey_info _ h2.1
    rw [refract2v8_null, refract2v8_null, flag_info jp i n h2.2 hk.1 hk.2]
  | .string n i c, h => by
    have h2 := (all_leaf _ n i).2.1 c h
    have hk := withoutSourceMapKey_info _ h2.1
    rw [refract2v8_string, refract2v8_string, flag_info jp i n h2.2 hk.1 hk.2]
  | .number n i c, h => by
    have h2 := (all_leaf _ n i).2.2.1 c h
    have hk := withoutSourceMapKey_info _ h2.1
    rw [refract2v8_number, refract2v8_number, flag_info jp i n h2.2 hk.1 hk.2]
  | .boolean n i c, h => by
    have h2 := (all_leaf _ n i).2.2.2.1 c h
    have hk := withoutSourceMapKey_info _ h2.1
    rw [refract2v8_boolean, refract2v8_boolean, flag_info jp i n h2.2 hk.1 hk.2]
  | .member n i b k v, h => by
    have h2 := all_member _ n i b k v h
    have hk := withoutSourceMapKey_info _ h2.1
    rw [refract2v8_member, refract2v8_member, flag_info jp i n h2.2.1 hk.1 hk.2,
      flag_guarded jp k h2.2.2.1, flag_guarded jp v h2.2.2.2]
  | .array n i c res, h => by
    have h2 := all_array _ n i c res h
    have hk := withoutSourceMapKey_info _ h2.1
    rw [refract2v8_array, refract2v8_array, flag_info jp i n h2.2.1 hk.1 hk.2]
    cases res with
    | none => rfl
    | some l =>
      have hl := flag_items jp l 0 [] (h2.2.2.2 l rfl)
      simp only [hl]
  | .enum n i c, h => by
    have h2 := all_enum _ n i c h
    have hk := withoutSourceMapKey_info _ h2.1
    rw [refract2v8_enum, refract2v8_enum, flag_info jp i n h2.2.1 hk.1 hk.2]
    cases c with
    | none => rfl
    | some child =>
      have hp := flag_pointer jp child (h2.2.2 child rfl)
      simp only [hp]
  | .extend n i c, _ => rfl
  | .option n i c, h => by
    have h2 := all_option _ n i c h
    have hk := withoutSourceMapKey_info _ h2.1
    rw [refract2v8_option, refract2v8_option, flag_info jp i n h2.2.1 hk.1 hk.2]
    cases c with
    | none => rfl
    | some l =>
      have hv := flag_values jp l 0 [] (h2.2.2 l rfl)
      simp only [hv]
  | .select n i c, h => by
    have h2 := all_select _ n i c h
    have hk := withoutSourceMapKey_info _ h2.1
    rw [refract2v8_select, refract2v8_select, flag_info jp i n h2.2.1 hk.1 hk.2]
    cases c with
    | none => rfl
    | some l =>
      have hv := flag_values jp l 0 [] (h2.2.2 l rfl)
      simp only [hv]
  | .object n i c, h => by
    have h2 := all_object _ n i c h
    have hk := withoutSourceMapKey_info _ h2.1
    rw [refract2v8_object, refract2v8_object, flag_info jp i n h2.2.1 hk.1 hk.2]
    cases c with
    | none => rfl
    | some l =>
      have hv := flag_values jp l 0 [] (h2.2.2 l rfl)
      simp only [hv]
  | .other n i b, _ => rfl
  | .ref n i b s, h => by
    have h2 := (all_leaf _ n i).2.2.2.2.2 b s h
    have hk := withoutSourceMapKey_info _ h2.1
    rw [refract2v8_ref, refract2v8_ref, flag_info jp i n h2.2 hk.1 hk.2]
  | .holder n i c, h => by
    have h2 := all_holder _ n i c h
    have hk := withoutSourceMapKey_info _ h2.1
    rw [refract2v8_holder, refract2v8_holder, flag_info jp i n h2.2.1 hk.1 hk.2]
    cases c with
    | none => rfl
    | some child =>
      have hp := flag_pointer jp child (h2.2.2 child rfl)
      simp only [hp]
theorem flag_info (jp : String → Option Value) : ∀ (i : Info) (n : String),
    i.all Element.withoutSourceMapKey = true →
    List.all i.meta (fun kc => kc.1 != "sourceMap") = true →
    List.all i.attributes (fun kc => kc.1 != "sourceMap") = true →
    v8Element jp n i true = v8Element jp n i false
  | .mk m a, n, h, hm, ha => by
    have h2 := all_info _ m a h
    rw [v8Element_eq, v8Element_eq, flag_entries jp m [] h2.1 hm]
    have hattr : v8ElementCollection jp a (effectiveFlag n true) [] =
        v8ElementCollection jp a (effectiveFlag n false) [] := by
      by_cases hn : (n == "annotation") = true
      · simp only [effectiveFlag, hn, if_true]
      · simp only [effectiveFlag, hn, if_false]
        exact flag_entries jp a [] h2.2 ha
    rw [hattr]
theorem flag_entries (jp : String → Option Value) : ∀ (m : List (String × Option Element))
    (acc : Obj), entriesAll Element.withoutSourceMapKey m = true →
    List.all m (fun kc => kc.1 != "sourceMap") = true →
    v8ElementCollection jp m true acc = v8ElementCollection jp m false acc
  | [], _, _, _ => rfl
  | (k, none) :: m, acc, _, hk => by
    have hk2 := withoutKey_cons k none m hk
    rw [v8ElementCollection_cons_none jp k m true acc (survives_of_ne true k hk2.1),
      v8ElementCollection_cons_none jp k m false acc (survives_of_ne false k hk2.1)]
  | (k, some e) :: m, acc, h, hk => by
    have h2 := entriesAll_cons _ k (some e) m h
    have hk2 := withoutKey_cons k (some e) m hk
    rw [v8ElementCollection_cons_some jp k e m true acc (survives_of_ne true k hk2.1),
      v8ElementCollection_cons_some jp k e m false acc (survives_of_ne false k hk2.1),
      flag_element jp e h2.1]
    cases refract2v8 jp e false with
    | error f => rfl
    | ok r =>
      cases r with
      | none => rfl
      | some v => exact flag_entries jp m _ h2.2 hk2.2
theorem flag_pointer (jp : String → Option Value) : ∀ (c : Option Element),
    pointerAll Element.withoutSourceMapKey c = true →
    ElementToObject jp c true = ElementToObject jp c false
  | none, _ => rfl
  | some e, h => by
    rw [ElementToObject_some, ElementToObject_some]
    exact flag_element jp e h
theorem flag_guarded (jp : String → Option Value) : ∀ (c : Option Element),
    pointerAll Element.withoutSourceMapKey c = true →
    (match c with
      | some _ => ElementToObject jp c true
      | none => (pure none : Except Failure (Option Value))) =
    (match c with
      | some _ => ElementToObject jp c false
      | none => (pure none : Except Failure (Option Value)))
  | none, _ => rfl
  | some e, h => by
    show ElementToObject jp (some e) true = ElementToObject jp (some e) false
    rw [ElementToObject_some, ElementToObject_some]
    exact flag_element jp e h
theorem flag_values (jp : String → Option Value) : ∀ (l : List (Option Element)) (i : Nat)
    (acc : Arr), pointersAll Element.withoutSourceMapKey l = true →
    valueListLoop jp l true i acc = valueListLoop jp l false i acc
  | [], _, _, _ => rfl
  | el :: rest, i, acc, h => by
    have h2 := pointersAll_cons _ el rest h
    rw [valueListLoop_cons, valueListLoop_cons, flag_pointer jp el h2.1]
    exact bind_congr_right _ _ _ (fun a _ =>
      bind_congr_right _ _ _ (fun arr _ => flag_values jp rest (i + 1) arr h2.2))
theorem flag_items (jp : String → Option Value) : ∀ (l : List (Option Element)) (i : Nat)
    (acc : Arr), pointersAll Element.withoutSourceMapKey l = true →
    arrayLoop jp l true i acc = arrayLoop jp l false i acc
  | [], _, _, _ => rfl
  | none :: rest, i, acc, h => by
    rw [arrayLoop_cons_none, arrayLoop_cons_none]
    exact flag_items jp rest (i + 1) acc (pointersAll_cons _ none rest h).2
  | some e :: rest, i, acc, h => by
    have h2 := pointersAll_cons _ (some e) rest h
    rw [arrayLoop_cons_some, arrayLoop_cons_some, flag_element jp e h2.1]
    exact bind_congr_right _ _ _ (fun a _ =>
      bind_congr_right _ _ _ (fun arr _ => flag_items jp rest (i + 1) arr h2.2))
end

/-! ## No `"sourceMap"` key with the flag false -/

theorem fields_put (o : Obj) (k : String) (v : Value)
    (ho : fieldsWithoutSourceMap o = true) (hk : (k != "sourceMap") = true)
    (hv : handleWithoutSourceMap (some v) = true) :
    fieldsWithoutSourceMap (Obj.put o k v) = true := by
  have hv2 : v.withoutSourceMap = true := hv
  induction o with
  | nil => simp [Obj.put, fieldsWithoutSourceMap, hk, hv2]
  | cons p rest ih =>
    obtain ⟨k0, w⟩ := p
    simp only [fieldsWithoutSourceMap, Bool.and_eq_true] at ho
    by_cases h : k0 = k
    · simp only [Obj.put, h, if_true, fieldsWithoutSourceMap, Bool.and_eq_true]
      exact ⟨⟨hk, hv2⟩, ho.2⟩
    · simp only [Obj.put, h, if_false, fieldsWithoutSourceMap, Bool.and_eq_true]
      exact ⟨ho.1, ih ho.2⟩

theorem slots_iff (a : Arr) :
    slotsWithoutSourceMap a = true ↔ ∀ v, some v ∈ a → v.withoutSourceMap = true := by
  induction a with
  | nil => simp [slotsWithoutSourceMap]
  | cons x a ih =>
    cases x with
    | none =>
      simp only [slotsWithoutSourceMap, ih, List.mem_cons]
      constructor
      · intro h v hv
        rcases hv with hv | hv
        · cases hv
        · exact h v hv
      · intro h v hv
        exact h v (Or.inr hv)
    | some w =>
      simp only [slotsWithoutSourceMap, Bool.and_eq_true, ih, List.mem_cons]
      constructor
      · rintro ⟨h1, h2⟩ v hv
        rcases hv with hv | hv
        · cases hv; exact h1
        · exact h2 v hv
      · intro h
        exact ⟨h w (Or.inl rfl), fun v hv => h v (Or.inr hv)⟩

theorem slots_put (a : Arr) (i : Nat) (v : Value)
    (ha : slotsWithoutSourceMap a = true) (hv : handleWithoutSourceMap (some v) = true) :
    slotsWithoutSourceMap (Arr.put a i v) = true := by
  have hv2 : v.withoutSourceMap = true := hv
  rw [slots_iff] at ha ⊢
  intro w hw
  unfold Arr.put at hw
  by_cases h : i < a.length
  · simp only [h, if_true] at hw
    rcases List.mem_or_eq_of_mem_set hw with h1 | h1
    · exact ha w h1
    · cases h1; exact hv2
  · simp only [h, if_false, List.mem_append, List.mem_replicate, List.mem_singleton] at hw
    rcases hw with (h1 | ⟨-, h1⟩) | h1
    · exact ha w h1
    · cases h1
    · cases h1; exact hv2

theorem fields_layout (n : String) (mo ao : Option Obj) (c : Option Value)
    (hm : ∀ x, mo = some x → fieldsWithoutSourceMap x = true)
    (ha : ∀ x, ao = some x → fieldsWithoutSourceMap x = true)
    (hc : handleWithoutSourceMap c = true) :
    fieldsWithoutSourceMap (layout n mo ao c) = true := by
  cases mo with
  | none =>
    cases ao with
    | none =>
      cases c with
      | none => simp [layout, fieldsWithoutSourceMap, Value.withoutSourceMap]
      | some v =>
        have hv : v.withoutSourceMap = true := hc
        simp [layout, fieldsWithoutSourceMap, Value.withoutSourceMap, hv]
    | some y =>
      have hy := ha y rfl
      cases c with
      | none => simp [layout, fieldsWithoutSourceMap, Value.withoutSourceMap, hy]
      | some v =>
        have hv : v.withoutSourceMap = true := hc
        simp [layout, fieldsWithoutSourceMap, Value.withoutSourceMap, hy, hv]
  | some x =>
    have hx := hm x rfl
    cases ao with
    | none =>
      cases c with
      | none => simp [layout, fieldsWithoutSourceMap, Value.withoutSourceMap, hx]
      | some v =>
        have hv : v.withoutSourceMap = true := hc
        simp [layout, fieldsWithoutSourceMap, Value.withoutSourceMap, hx, hv]
    | some y =>
      have hy := ha y rfl
      cases c with
      | none => simp [layout, fieldsWithoutSourceMap, Value.withoutSourceMap, hx, hy]
      | some v =>
        have hv : v.withoutSourceMap = true := hc
        simp [layout, fieldsWithoutSourceMap, Value.withoutSourceMap, hx, hy, hv]

theorem handle_object (f : Obj) (h : fieldsWithoutSourceMap f = true) :
    handleWithoutSourceMap (some (Value.object f)) = true := by
  simpa [handleWithoutSourceMap, Value.withoutSourceMap] using h

theorem handle_array (a : Arr) (h : slotsWithoutSourceMap a = true) :
    handleWithoutSourceMap (some (Value.array a)) = true := by
  simpa [handleWithoutSourceMap, Value.withoutSourceMap] using h

theorem handle_scalar :
    handleWithoutSourceMap (some Value.null) = true ∧
    (∀ s, handleWithoutSourceMap (some (v8_string s)) = true) ∧
    (∀ b, handleWithoutSourceMap (some (Value.bool b)) = true) ∧
    handleWithoutSourceMap none = true ∧
    fieldsWithoutSourceMap [] = true ∧ slotsWithoutSourceMap [] = true := by
  simp [handleWithoutSourceMap, Value.withoutSourceMap, v8_string, fieldsWithoutSourceMap,
    slotsWithoutSourceMap]

theorem effectiveFlag_false (n : String) (h : (n != "annotation") = true) :
    effectiveFlag n false = false := by
  have h2 : (n == "annotation") = false := by simpa using h
  simp [effectiveFlag, h2]

theorem handle_content (base : Obj) (c : Value)
    (hb : fieldsWithoutSourceMap base = true) (hc : handleWithoutSourceMap (some c) = true) :
    handleWithoutSourceMap (some (Value.object (Obj.put base "content" c))) = true :=
  handle_object _ (fields_put base "content" c hb (by decide) hc)

theorem eq_of_ite_none_some {α : Type} (b : Bool) (x y : α)
    (h : (if b = true then none else some y) = some x) : x = y := by
  cases b
  · simpa using h.symm
  · simp at h

theorem ok_of_value {α : Type} (a b : α) (h : (pure a : Except Failure α) = .ok b) :
    b = a := ((pure_eq_ok a b).1 h).symm

mutual
theorem clean_element (jp : String → Option Value)
    (hjp : ∀ s v, jp s = some v → v.withoutSourceMap = true) : ∀ (e : Element),
    e.all Element.notAnnotated = true → ∀ r, refract2v8 jp e false = .ok r →
    handleWithoutSourceMap r = true
  | .null n i b, h, r, hr => by
    have h2 := (all_leaf _ n i).1 b h
    rw [refract2v8_null, bind_eq_ok] at hr
    obtain ⟨base, hb, h3⟩ := hr
    rw [ok_of_value _ _ h3]
    exact handle_content base _ (clean_info jp hjp i n h2.1 h2.2 base hb) handle_scalar.1
  | .string n i c, h, r, hr => by
    have h2 := (all_leaf _ n i).2.1 c h
    rw [refract2v8_string, bind_eq_ok] at hr
    obtain ⟨base, hb, h3⟩ := hr
    have hbase := clean_info jp hjp i n h2.1 h2.2 base hb
    cases c with
    | none => rw [ok_of_value _ _ h3]; exact handle_object base hbase
    | some s =>
      rw [ok_of_value _ _ h3]
      exact handle_content base _ hbase (handle_scalar.2.1 s)
  | .number n i c, h, r, hr => by
    have h2 := (all_leaf _ n i).2.2.1 c h
    rw [refract2v8_number, bind_eq_ok] at hr
    obtain ⟨base, hb, h3⟩ := hr
    have hbase := clean_info jp hjp i n h2.1 h2.2 base hb
    cases c with
    | none => rw [ok_of_value _ _ h3]; exact handle_object base hbase
    | some s =>
      simp only at h3
      cases hp : jp s with
      | none => rw [hp] at h3; cases h3
      | some x =>
        rw [hp] at h3
        rw [ok_of_value _ _ h3]
        exact handle_content base _ hbase (hjp s x hp)
  | .boolean n i c, h, r, hr => by
    have h2 := (all_leaf _ n i).2.2.2.1 c h
    rw [refract2v8_boolean, bind_eq_ok] at hr
    obtain ⟨base, hb, h3⟩ := hr
    have hbase := clean_info jp hjp i n h2.1 h2.2 base hb
    cases c with
    | none => rw [ok_of_value _ _ h3]; exact handle_object base hbase
    | some s =>
      rw [ok_of_value _ _ h3]
      exact handle_content base _ hbase (handle_scalar.2.2.1 s)
  | .member n i b k v, h, r, hr => by
    have h2 := all_member _ n i b k v h
    rw [refract2v8_member, bind_eq_ok] at hr
    obtain ⟨key, hkey, h3⟩ := hr
    rw [bind_eq_ok] at h3
    obtain ⟨value, hvalue, h4⟩ := h3
    rw [bind_eq_ok] at h4
    obtain ⟨base, hb, h5⟩ := h4
    have hbase := clean_info jp hjp i n h2.1 h2.2.1 base hb
    obtain ⟨kv, vv, hkv, hvv, hr⟩ := member_content_ok base key value r h5
    subst hkv
    subst hvv
    have hk := clean_guarded jp hjp k h2.2.2.1 (some kv) hkey
    have hv := clean_guarded jp hjp v h2.2.2.2 (some vv) hvalue
    rw [hr]
    exact handle_content base _ hbase (handle_object _
      (fields_put _ "value" vv
        (fields_put [] "key" kv handle_scalar.2.2.2.2.1 (by decide) hk) (by decide) hv))
  | .array n i c res, h, r, hr => by
    have h2 := all_array _ n i c res h
    rw [refract2v8_array, bind_eq_ok] at hr
    obtain ⟨arr, harr, h3⟩ := hr
    rw [bind_eq_ok] at h3
    obtain ⟨base, hb, h4⟩ := h3
    have hbase := clean_info jp hjp i n h2.1 h2.2.1 base hb
    have hslots : slotsWithoutSourceMap arr = true := by
      cases res with
      | none =>
        rw [ok_of_value _ _ harr]
        exact handle_scalar.2.2.2.2.2
      | some l =>
        exact clean_items jp hjp l 0 [] (h2.2.2.2 l rfl) handle_scalar.2.2.2.2.2 arr harr
    cases c with
    | none => rw [ok_of_value _ _ h4]; exact handle_object base hbase
    | some l0 =>
      rw [ok_of_value _ _ h4]
      exact handle_content base _ hbase (handle_array arr hslots)
  | .enum n i c, h, r, hr => by
    have h2 := all_enum _ n i c h
    rw [refract2v8_enum, bind_eq_ok] at hr
    obtain ⟨base, hb, h3⟩ := hr
    have hbase := clean_info jp hjp i n h2.1 h2.2.1 base hb
    cases c with
    | none => rw [ok_of_value _ _ h3]; exact handle_object base hbase
    | some child =>
      rw [bind_eq_ok] at h3
      obtain ⟨x, hx, h4⟩ := h3
      obtain ⟨y, hy, hr⟩ := set_content_ok base x r h4
      subst hy
      rw [hr]
      exact handle_content base _ hbase
        (clean_pointer jp hjp child (h2.2.2 child rfl) (some y) hx)
  | .extend n i c, _, r, hr => by
    rw [refract2v8_extend] at hr
    cases hr
  | .option n i c, h, r, hr => by
    have h2 := all_option _ n i c h
    rw [refract2v8_option, bind_eq_ok] at hr
    obtain ⟨base, hb, h3⟩ := hr
    have hbase := clean_info jp hjp i n h2.1 h2.2.1 base hb
    cases c with
    | none => rw [ok_of_value _ _ h3]; exact handle_object base hbase
    | some l =>
      simp only [bind_eq_ok] at h3
      obtain ⟨arr, harr, h4⟩ := h3
      rw [ok_of_value _ _ h4]
      exact handle_content base _ hbase (handle_array arr
        (clean_values jp hjp l 0 [] (h2.2.2 l rfl) handle_scalar.2.2.2.2.2 arr harr))
  | .select n i c, h, r, hr => by
    have h2 := all_select _ n i c h
    rw [refract2v8_select, bind_eq_ok] at hr
    obtain ⟨base, hb, h3⟩ := hr
    have hbase := clean_info jp hjp i n h2.1 h2.2.1 base hb
    cases c with
    | none => rw [ok_of_value _ _ h3]; exact handle_object base hbase
    | some l =>
      simp only [bind_eq_ok] at h3
      obtain ⟨arr, harr, h4⟩ := h3
      rw [ok_of_value _ _ h4]
      exact handle_content base _ hbase (handle_array arr
        (clean_values jp hjp l 0 [] (h2.2.2 l rfl) handle_scalar.2.2.2.2.2 arr harr))
  | .object n i c, h, r, hr => by
    have h2 := all_object _ n i c h
    rw [refract2v8_object, bind_eq_ok] at hr
    obtain ⟨base, hb, h3⟩ := hr
    have hbase := clean_info jp hjp i n h2.1 h2.2.1 base hb
    cases c with
    | none => rw [ok_of_value _ _ h3]; exact handle_object base hbase
    | some l =>
      have hl := h2.2.2 l rfl
      cases l with
      | nil => rw [ok_of_value _ _ h3]; exact handle_object base hbase
      | cons x l =>
        simp only [List.isEmpty_cons, Bool.not_false, if_true, bind_eq_ok] at h3
        obtain ⟨arr, harr, h4⟩ := h3
        rw [ok_of_value _ _ h4]
        exact handle_content base _ hbase (handle_array arr
          (clean_values jp hjp (x :: l) 0 [] hl handle_scalar.2.2.2.2.2 arr harr))
  | .other n i b, _, r, hr => by
    rw [refract2v8_other] at hr
    cases hr
    exact handle_scalar.2.2.2.1
  | .ref n i b s, h, r, hr => by
    have h2 := (all_leaf _ n i).2.2.2.2.2 b s h
    rw [refract2v8_ref, bind_eq_ok] at hr
    obtain ⟨base, hb, h3⟩ := hr
    rw [ok_of_value _ _ h3]
    exact handle_content base _ (clean_info jp hjp i n h2.1 h2.2 base hb)
      (handle_scalar.2.1 s)
  | .holder n i c, h, r, hr => by
    have h2 := all_holder _ n i c h
    rw [refract2v8_holder, bind_eq_ok] at hr
    obtain ⟨base, hb, h3⟩ := hr
    have hbase := clean_info jp hjp i n h2.1 h2.2.1 base hb
    cases c with
    | none => rw [ok_of_value _ _ h3]; exact handle_object base hbase
    | some child =>
      rw [bind_eq_ok] at h3
      obtain ⟨x, hx, h4⟩ := h3
      obtain ⟨y, hy, hr⟩ := set_content_ok base x r h4
      subst hy
      rw [hr]
      exact handle_content base _ hbase
        (clean_pointer jp hjp child (h2.2.2 child rfl) (some y) hx)
theorem clean_info (jp : String → Option Value)
    (hjp : ∀ s v, jp s = some v → v.withoutSourceMap = true) : ∀ (i : Info) (n : String),
    (n != "annotation") = true → i.all Element.notAnnotated = true →
    ∀ base, v8Element jp n i false = .ok base → fieldsWithoutSourceMap base = true
  | .mk m a, n, hn, h, base, hb => by
    have h2 := all_info _ m a h
    obtain ⟨mo, ao, hmo, hao, hbase⟩ := v8Element_ok jp n (.mk m a) false base hb
    rw [effectiveFlag_false n hn] at hao
    have hm := clean_entries jp hjp m [] h2.1 handle_scalar.2.2.2.2.1 mo hmo
    have ha := clean_entries jp hjp a [] h2.2 handle_scalar.2.2.2.2.1 ao hao
    rw [hbase]
    refine fields_layout n _ _ none ?_ ?_ handle_scalar.2.2.2.1
    · intro x hx
      rw [eq_of_ite_none_some _ x mo hx]
      exact hm
    · intro x hx
      rw [eq_of_ite_none_some _ x ao hx]
      exact ha
theorem clean_entries (jp : String → Option Value)
    (hjp : ∀ s v, jp s = some v → v.withoutSourceMap = true) :
    ∀ (m : List (String × Option Element)) (acc : Obj),
    entriesAll Element.notAnnotated m = true → fieldsWithoutSourceMap acc = true →
    ∀ o, v8ElementCollection jp m false acc = .ok o → fieldsWithoutSourceMap o = true
  | [], acc, _, hacc, o, ho => by
    rw [v8ElementCollection_nil] at ho
    cases ho
    exact hacc
  | (k, none) :: m, acc, h, hacc, o, ho => by
    by_cases hs : survives false k = true
    · rw [v8ElementCollection_cons_none jp k m false acc hs] at ho
      cases ho
    · rw [v8ElementCollection_cons_skip jp k _ m false acc (by simpa using hs)] at ho
      exact clean_entries jp hjp m acc (entriesAll_cons _ k none m h).2 hacc o ho
  | (k, some e) :: m, acc, h, hacc, o, ho => by
    have h2 := entriesAll_cons _ k (some e) m h
    by_cases hs : survives false k = true
    · obtain ⟨e0, v0, hc0, hv0, ho2⟩ := coll_cons_ok jp k (some e) m false acc o hs ho
      cases hc0
      have hk : (k != "sourceMap") = true := by
        simpa [survives] using hs
      exact clean_entries jp hjp m _ h2.2
        (fields_put acc k v0 hacc hk (clean_element jp hjp e h2.1 (some v0) hv0)) o ho2
    · rw [v8ElementCollection_cons_skip jp k _ m false acc (by simpa using hs)] at ho
      exact clean_entries jp hjp m acc h2.2 hacc o ho
theorem clean_pointer (jp : String → Option Value)
    (hjp : ∀ s v, jp s = some v → v.withoutSourceMap = true) : ∀ (c : Option Element),
    pointerAll Element.notAnnotated c = true → ∀ r, ElementToObject jp c false = .ok r →
    handleWithoutSourceMap r = true
  | none, _, r, hr => by
    rw [ElementToObject_none] at hr
    cases hr
  | some e, h, r, hr => by
    rw [ElementToObject_some] at hr
    exact clean_element jp hjp e h r hr
theorem clean_guarded (jp : String → Option Value)
    (hjp : ∀ s v, jp s = some v → v.withoutSourceMap = true) : ∀ (c : Option Element),
    pointerAll Element.notAnnotated c = true →
    ∀ r : Option Value, (match c with
      | some _ => ElementToObject jp c false
      | none => pure none) = .ok r →
    handleWithoutSourceMap r = true
  | none, _, r, hr => by
    rw [ok_of_value _ _ hr]
    exact handle_scalar.2.2.2.1
  | some e, h, r, hr => by
    have hr2 : ElementToObject jp (some e) false = .ok r := hr
    rw [ElementToObject_some] at hr2
    exact clean_element jp hjp e h r hr2
theorem clean_values (jp : String → Option Value)
    (hjp : ∀ s v, jp s = some v → v.withoutSourceMap = true) :
    ∀ (l : List (Option Element)) (i : Nat) (acc : Arr),
    pointersAll Element.notAnnotated l = true → slotsWithoutSourceMap acc = true →
    ∀ a, valueListLoop jp l false i acc = .ok a → slotsWithoutSourceMap a = true
  | [], _, acc, _, hacc, a, ha => by
    rw [valueListLoop_nil] at ha
    cases ha
    exact hacc
  | el :: rest, i, acc, h, hacc, a, ha => by
    have h2 := pointersAll_cons _ el rest h
    obtain ⟨v, hv, h3⟩ := valueListLoop_cons_ok jp el rest false i acc a ha
    exact clean_values jp hjp rest (i + 1) _ h2.2
      (slots_put acc i v hacc (clean_pointer jp hjp el h2.1 (some v) hv)) a h3
theorem clean_items (jp : String → Option Value)
    (hjp : ∀ s v, jp s = some v → v.withoutSourceMap = true) :
    ∀ (l : List (Option Element)) (i : Nat) (acc : Arr),
    pointersAll Element.notAnnotated l = true → slotsWithoutSourceMap acc = true →
    ∀ a, arrayLoop jp l false i acc = .ok a → slotsWithoutSourceMap a = true
  | [], _, acc, _, hacc, a, ha => by
    rw [arrayLoop_nil] at ha
    cases ha
    exact hacc
  | none :: rest, i, acc, h, hacc, a, ha => by
    rw [arrayLoop_cons_none] at ha
    exact clean_items jp hjp rest (i + 1) acc (pointersAll_cons _ none rest h).2 hacc a ha
  | some e :: rest, i, acc, h, hacc, a, ha => by
    have h2 := pointersAll_cons _ (some e) rest h
    obtain ⟨v, hv, h3⟩ := arrayLoop_cons_ok jp e rest false i acc a ha
    exact clean_items jp hjp rest (i + 1) _ h2.2
      (slots_put acc i v hacc (clean_element jp hjp e h2.1 (some v) hv)) a h3
end

/-! ## The failure of an `ExtendElement` and its propagation -/

theorem extend_not_ok (jp : String → Option Value) (e : Element) (sm : Bool)
    (h : e.isExtend = true) (r : Option Value) : refract2v8 jp e sm ≠ .ok r := by
  cases e <;> first | (intro hr; rw [refract2v8_extend] at hr; cases hr) | cases h

theorem pointsToExtend_not_ok (jp : String → Option Value) (c : Option Element) (sm : Bool)
    (h : pointsToExtend c = true) (r : Option Value) : ElementToObject jp c sm ≠ .ok r := by
  cases c with
  | none => cases h
  | some e =>
    rw [ElementToObject_some]
    exact extend_not_ok jp e sm h r

theorem valueListLoop_children_ok (jp : String → Option Value) (sm : Bool)
    (l : List (Option Element)) (i : Nat) (acc a : Arr)
    (h : valueListLoop jp l sm i acc = .ok a) (el : Option Element) (hel : el ∈ l) :
    ∃ r, ElementToObject jp el sm = .ok r := by
  induction l generalizing i acc with
  | nil => cases hel
  | cons x l ih =>
    obtain ⟨v, hv, h2⟩ := valueListLoop_cons_ok jp x l sm i acc a h
    rcases List.mem_cons.1 hel with heq | hm
    · subst heq; exact ⟨some v, hv⟩
    · exact ih _ _ h2 hm

theorem arrayLoop_children_ok (jp : String → Option Value) (sm : Bool)
    (l : List (Option Element)) (i : Nat) (acc a : Arr)
    (h : arrayLoop jp l sm i acc = .ok a) (el : Option Element) (hel : el ∈ l)
    (hs : el.isSome = true) : ∃ r, ElementToObject jp el sm = .ok r := by
  induction l generalizing i acc with
  | nil => cases hel
  | cons x l ih =>
    cases x with
    | none =>
      rw [arrayLoop_cons_none] at h
      rcases List.mem_cons.1 hel with heq | hm
      · subst heq; cases hs
      · exact ih _ _ h hm
    | some e =>
      obtain ⟨v, hv, h2⟩ := arrayLoop_cons_ok jp e l sm i acc a h
      rcases List.mem_cons.1 hel with heq | hm
      · subst heq; exact ⟨some v, by rw [ElementToObject_some]; exact hv⟩
      · exact ih _ _ h2 hm

theorem extendAmong_not_ok (jp : String → Option Value) (sm : Bool) (m : InfoElements)
    (acc o : Obj) (h : extendAmong sm m = true) :
    v8ElementCollection jp m sm acc ≠ .ok o := by
  intro ho
  simp only [extendAmong, List.any_eq_true, Bool.and_eq_true] at h
  obtain ⟨⟨k, c⟩, hm, hs, hp⟩ := h
  cases c with
  | none => cases hp
  | some e =>
    obtain ⟨v, hv⟩ := coll_children_ok jp sm m acc o ho k e hm hs
    exact extend_not_ok jp e sm hp _ hv

theorem pointsToExtend_isSome (c : Option Element) (h : pointsToExtend c = true) :
    c.isSome = true := by
  cases c with
  | none => cases h
  | some e => rfl

theorem projectsExtend_not_ok (jp : String → Option Value) (e : Element) (sm : Bool)
    (h : e.projectsExtend sm = true) (r : Option Value) : refract2v8 jp e sm ≠ .ok r := by
  intro hr
  simp only [Element.projectsExtend, Bool.and_eq_true, Bool.or_eq_true] at h
  obtain ⟨hk, hcases⟩ := h
  obtain ⟨base, hb, -⟩ := refract2v8_shape jp e sm r hr hk
  obtain ⟨mo, ao, hmo, hao, -⟩ := v8Element_ok jp _ _ sm base hb
  rcases hcases with (h1 | h1) | h1
  · exact extendAmong_not_ok jp sm _ [] mo h1 hmo
  · exact extendAmong_not_ok jp _ _ [] ao h1 hao
  · cases e with
    | null n i b => cases h1
    | string n i c => cases h1
    | number n i c => cases h1
    | boolean n i c => cases h1
    | extend n i c => cases h1
    | other n i b => cases h1
    | ref n i b s => cases h1
    | member n i b k v =>
      rw [refract2v8_member, bind_eq_ok] at hr
      obtain ⟨key, hkey, h2⟩ := hr
      rw [bind_eq_ok] at h2
      obtain ⟨value, hvalue, -⟩ := h2
      simp only [Element.contentHoldsExtend, Bool.or_eq_true] at h1
      rcases h1 with h1 | h1
      · cases k with
        | none => cases h1
        | some x => exact pointsToExtend_not_ok jp (some x) sm h1 key hkey
      · cases v with
        | none => cases h1
        | some x => exact pointsToExtend_not_ok jp (some x) sm h1 value hvalue
    | array n i c res =>
      cases res with
      | none => cases h1
      | some l =>
        rw [refract2v8_array, bind_eq_ok] at hr
        obtain ⟨arr, harr, -⟩ := hr
        simp only [Element.contentHoldsExtend, List.any_eq_true] at h1
        obtain ⟨el, hel, hp⟩ := h1
        obtain ⟨x, hx⟩ := arrayLoop_children_ok jp sm l 0 [] arr harr el hel
          (pointsToExtend_isSome el hp)
        exact pointsToExtend_not_ok jp el sm hp x hx
    | enum n i c =>
      cases c with
      | none => cases h1
      | some child =>
        rw [refract2v8_enum, bind_eq_ok] at hr
        obtain ⟨b0, -, h2⟩ := hr
        simp only [bind_eq_ok] at h2
        obtain ⟨x, hx, -⟩ := h2
        exact pointsToExtend_not_ok jp child sm h1 x hx
    | holder n i c =>
      cases c with
      | none => cases h1
      | some child =>
        rw [refract2v8_holder, bind_eq_ok] at hr
        obtain ⟨b0, -, h2⟩ := hr
        simp only [bind_eq_ok] at h2
        obtain ⟨x, hx, -⟩ := h2
        exact pointsToExtend_not_ok jp child sm h1 x hx
    | option n i c =>
      cases c with
      | none => cases h1
      | some l =>
        rw [refract2v8_option, bind_eq_ok] at hr
        obtain ⟨b0, -, h2⟩ := hr
        simp only [bind_eq_ok] at h2
        obtain ⟨arr, harr, -⟩ := h2
        simp only [Element.contentHoldsExtend, List.any_eq_true] at h1
        obtain ⟨el, hel, hp⟩ := h1
        obtain ⟨x, hx⟩ := valueListLoop_children_ok jp sm l 0 [] arr harr el hel
        exact pointsToExtend_not_ok jp el sm hp x hx
    | select n i c =>
      cases c with
      | none => cases h1
      | some l =>
        rw [refract2v8_select, bind_eq_ok] at hr
        obtain ⟨b0, -, h2⟩ := hr
        simp only [bind_eq_ok] at h2
        obtain ⟨arr, harr, -⟩ := h2
        simp only [Element.contentHoldsExtend, List.any_eq_true] at h1
        obtain ⟨el, hel, hp⟩ := h1
        obtain ⟨x, hx⟩ := valueListLoop_children_ok jp sm l 0 [] arr harr el hel
        exact pointsToExtend_not_ok jp el sm hp x hx
    | object n i c =>
      cases c with
      | none => cases h1
      | some l =>
        simp only [Element.contentHoldsExtend, List.any_eq_true] at h1
        obtain ⟨el, hel, hp⟩ := h1
        rw [refract2v8_object, bind_eq_ok] at hr
        obtain ⟨b0, -, h2⟩ := hr
        cases l with
        | nil => cases hel
        | cons y l =>
          simp only [List.isEmpty_cons, Bool.not_false, if_true, bind_eq_ok] at h2
          obtain ⟨arr, harr, -⟩ := h2
          obtain ⟨x, hx⟩ := valueListLoop_children_ok jp sm (y :: l) 0 [] arr harr el hel
          exact pointsToExtend_not_ok jp el sm hp x hx

theorem error_of_not_ok {ε α : Type} (x : Except ε α) (h : ∀ r, x ≠ .ok r) :
    ∃ f, x = .error f := by
  cases x with
  | error f => exact ⟨f, rfl⟩
  | ok r => exact absurd rfl (h r)

theorem bind_eq_error {ε α β : Type} (x : Except ε α) (g : α → Except ε β) (f : ε) :
    (x >>= g) = .error f ↔ x = .error f ∨ ∃ a, x = .ok a ∧ g a = .error f := by
  cases x with
  | error e => simp [bind, Except.bind]
  | ok a => simp [bind, Except.bind]

theorem pure_ne_error {ε α : Type} (a : α) (f : ε) : (pure a : Except ε α) ≠ .error f := by
  intro h
  cases h

theorem v8Element_error (jp : String → Option Value) (n : String) (m a : InfoElements)
    (sm : Bool) (f : Failure) (h : v8Element jp n (.mk m a) sm = .error f) :
    v8ElementCollection jp m sm [] = .error f ∨
      v8ElementCollection jp a (effectiveFlag n sm) [] = .error f := by
  rw [v8Element_eq] at h
  cases hm : v8ElementCollection jp m sm [] with
  | error g => rw [hm] at h; exact Or.inl h
  | ok mo =>
    rw [hm] at h
    cases ha : v8ElementCollection jp a (effectiveFlag n sm) [] with
    | error g => rw [ha] at h; exact Or.inr h
    | ok ao => rw [ha] at h; cases h

theorem all_self (p : Element → Bool) (e : Element) (h : e.all p = true) : p e = true := by
  cases e with
  | null n i b => exact ((all_leaf p n i).1 b h).1
  | string n i c => exact ((all_leaf p n i).2.1 c h).1
  | number n i c => exact ((all_leaf p n i).2.2.1 c h).1
  | boolean n i c => exact ((all_leaf p n i).2.2.2.1 c h).1
  | member n i b k v => exact (all_member p n i b k v h).1
  | array n i c res => exact (all_array p n i c res h).1
  | enum n i c => exact (all_enum p n i c h).1
  | extend n i c => exact (all_extend p n i c h).1
  | option n i c => exact (all_option p n i c h).1
  | select n i c => exact (all_select p n i c h).1
  | object n i c => exact (all_object p n i c h).1
  | other n i b => exact ((all_leaf p n i).2.2.2.2.1 b h).1
  | ref n i b s => exact ((all_leaf p n i).2.2.2.2.2 b s h).1
  | holder n i c => exact (all_holder p n i c h).1

theorem safeHere_parts (jp : String → Option Value) (e : Element)
    (h : e.safeHere jp = true) :
    e.handled = true ∧ List.all e.info.meta (fun kc => kc.2.isSome) = true ∧
      List.all e.info.attributes (fun kc => kc.2.isSome) = true ∧
      e.safeContent jp = true := by
  simp only [Element.safeHere, Bool.and_eq_true] at h
  exact ⟨h.1.1.1, h.1.1.2, h.1.2, h.2⟩

theorem safeHere_number (jp : String → Option Value) (n : String) (i : Info) (s : String)
    (h : Element.safeHere jp (.number n i (some s)) = true) : ∃ x, jp s = some x :=
  Option.isSome_iff_exists.1 (safeHere_parts jp _ h).2.2.2

theorem safeHere_member (jp : String → Option Value) (n : String) (i : Info) (b : Bool)
    (k v : Option Element) (h : Element.safeHere jp (.member n i b k v) = true) :
    k.isSome = true ∧ v.isSome = true := by
  have h2 : (k.isSome && v.isSome) = true := (safeHere_parts jp _ h).2.2.2
  simpa only [Bool.and_eq_true] using h2

theorem safeHere_single (jp : String → Option Value) (n : String) (i : Info)
    (child : Option Element) :
    (Element.safeHere jp (.enum n i (some child)) = true → child.isSome = true) ∧
    (Element.safeHere jp (.holder n i (some child)) = true → child.isSome = true) :=
  ⟨fun h => (safeHere_parts jp _ h).2.2.2, fun h => (safeHere_parts jp _ h).2.2.2⟩

theorem safeHere_list (jp : String → Option Value) (n : String) (i : Info)
    (l : List (Option Element)) :
    (Element.safeHere jp (.option n i (some l)) = true → l.all Option.isSome = true) ∧
    (Element.safeHere jp (.select n i (some l)) = true → l.all Option.isSome = true) ∧
    (Element.safeHere jp (.object n i (some l)) = true → l.all Option.isSome = true) :=
  ⟨fun h => (safeHere_parts jp _ h).2.2.2, fun h => (safeHere_parts jp _ h).2.2.2,
    fun h => (safeHere_parts jp _ h).2.2.2⟩

theorem all_isSome_cons (c : Option Element) (l : List (Option Element))
    (h : (c :: l).all Option.isSome = true) : c.isSome = true ∧ l.all Option.isSome = true := by
  simpa only [List.all_cons, Bool.and_eq_true] using h

theorem present_cons (k : String) (c : Option Element) (m : InfoElements)
    (h : List.all ((k, c) :: m) (fun kc => kc.2.isSome) = true) :
    c.isSome = true ∧ List.all m (fun kc => kc.2.isSome) = true := by
  simpa only [List.all_cons, Bool.and_eq_true] using h

/-- An element of a tree of safe elements yields a value when its projection ends. -/
theorem ok_some_of_safe (jp : String → Option Value) (e : Element) (sm : Bool)
    (h : e.all (Element.safeHere jp) = true) (r : Option Value)
    (hr : refract2v8 jp e sm = .ok r) : ∃ v, r = some v := by
  have hk := (safeHere_parts jp e (all_self _ e h)).1
  obtain ⟨base, -, h2 | ⟨c, h2⟩⟩ := refract2v8_shape jp e sm r hr hk
  · exact ⟨_, h2⟩
  · exact ⟨_, h2⟩

theorem pointer_ok_some (jp : String → Option Value) (c : Option Element) (sm : Bool)
    (h : pointerAll (Element.safeHere jp) c = true) (r : Option Value)
    (hr : ElementToObject jp c sm = .ok r) : ∃ v, r = some v := by
  cases c with
  | none => rw [ElementToObject_none] at hr; cases hr
  | some e =>
    rw [ElementToObject_some] at hr
    exact ok_some_of_safe jp e sm h r hr

theorem guarded_ok_some (jp : String → Option Value) (c : Option Element) (sm : Bool)
    (hs : c.isSome = true) (h : pointerAll (Element.safeHere jp) c = true) (r : Option Value)
    (hr : (match c with
      | some _ => ElementToObject jp c sm
      | none => (pure none : Except Failure (Option Value))) = .ok r) : ∃ v, r = some v := by
  cases c with
  | none => cases hs
  | some e => exact pointer_ok_some jp (some e) sm h r hr

mutual
theorem ni_element (jp : String → Option Value) : ∀ (e : Element) (sm : Bool),
    e.all (Element.safeHere jp) = true → ∀ f, refract2v8 jp e sm = .error f →
    f = extendFailure
  | .null n i b, sm, h, f, hf => by
    have h2 := (all_leaf _ n i).1 b h
    have hp := safeHere_parts jp _ h2.1
    rw [refract2v8_null, bind_eq_error] at hf
    rcases hf with hf | ⟨a, -, hf⟩
    · exact ni_info jp i n sm h2.2 hp.2.1 hp.2.2.1 f hf
    · exact absurd hf (pure_ne_error _ _)
  | .string n i c, sm, h, f, hf => by
    have h2 := (all_leaf _ n i).2.1 c h
    have hp := safeHere_parts jp _ h2.1
    rw [refract2v8_string, bind_eq_error] at hf
    rcases hf with hf | ⟨a, -, hf⟩
    · exact ni_info jp i n sm h2.2 hp.2.1 hp.2.2.1 f hf
    · cases c <;> exact absurd hf (pure_ne_error _ _)
  | .number n i c, sm, h, f, hf => by
    have h2 := (all_leaf _ n i).2.2.1 c h
    have hp := safeHere_parts jp _ h2.1
    rw [refract2v8_number, bind_eq_error] at hf
    rcases hf with hf | ⟨a, -, hf⟩
    · exact ni_info jp i n sm h2.2 hp.2.1 hp.2.2.1 f hf
    · cases c with
      | none => exact absurd hf (pure_ne_error _ _)
      | some s =>
        obtain ⟨x, hx⟩ := safeHere_number jp n i s h2.1
        simp only [hx] at hf
        exact absurd hf (pure_ne_error _ _)
  | .boolean n i c, sm, h, f, hf => by
    have h2 := (all_leaf _ n i).2.2.2.1 c h
    have hp := safeHere_parts jp _ h2.1
    rw [refract2v8_boolean, bind_eq_error] at hf
    rcases hf with hf | ⟨a, -, hf⟩
    · exact ni_info jp i n sm h2.2 hp.2.1 hp.2.2.1 f hf
    · cases c <;> exact absurd hf (pure_ne_error _ _)
  | .member n i b k v, sm, h, f, hf => by
    have h2 := all_member _ n i b k v h
    have hp := safeHere_parts jp _ h2.1
    have hkv := safeHere_member jp n i b k v h2.1
    rw [refract2v8_member, bind_eq_error] at hf
    rcases hf with hf | ⟨key, hkey, hf⟩
    · exact ni_guarded jp k sm h2.2.2.1 f hf
    · rw [bind_eq_error] at hf
      rcases hf with hf | ⟨value, hvalue, hf⟩
      · exact ni_guarded jp v sm h2.2.2.2 f hf
      · rw [bind_eq_error] at hf
        rcases hf with hf | ⟨a, -, hf⟩
        · exact ni_info jp i n sm h2.2.1 hp.2.1 hp.2.2.1 f hf
        · obtain ⟨x, hx⟩ := guarded_ok_some jp k sm hkv.1 h2.2.2.1 key hkey
          obtain ⟨y, hy⟩ := guarded_ok_some jp v sm hkv.2 h2.2.2.2 value hvalue
          subst hx
          subst hy
          cases hf
  | .array n i c res, sm, h, f, hf => by
    have h2 := all_array _ n i c res h
    have hp := safeHere_parts jp _ h2.1
    rw [refract2v8_array, bind_eq_error] at hf
    rcases hf with hf | ⟨arr, -, hf⟩
    · cases res with
      | none => exact absurd hf (pure_ne_error _ _)
      | some l => exact ni_items jp l sm 0 [] (h2.2.2.2 l rfl) f hf
    · rw [bind_eq_error] at hf
      rcases hf with hf | ⟨a, -, hf⟩
      · exact ni_info jp i n sm h2.2.1 hp.2.1 hp.2.2.1 f hf
      · cases c <;> exact absurd hf (pure_ne_error _ _)
  | .enum n i c, sm, h, f, hf => by
    have h2 := all_enum _ n i c h
    have hp := safeHere_parts jp _ h2.1
    rw [refract2v8_enum, bind_eq_error] at hf
    rcases hf with hf | ⟨a, -, hf⟩
    · exact ni_info jp i n sm h2.2.1 hp.2.1 hp.2.2.1 f hf
    · cases c with
      | none => exact absurd hf (pure_ne_error _ _)
      | some child =>
        rw [bind_eq_error] at hf
        rcases hf with hf | ⟨x, hx, hf⟩
        · exact ni_required jp child sm ((safeHere_single jp n i child).1 h2.1)
            (h2.2.2 child rfl) f hf
        · obtain ⟨y, hy⟩ := pointer_ok_some jp child sm (h2.2.2 child rfl) x hx
          subst hy
          cases hf
  | .extend n i c, sm, _, f, hf => by
    rw [refract2v8_extend] at hf
    cases hf
    rfl
  | .option n i c, sm, h, f, hf => by
    have h2 := all_option _ n i c h
    have hp := safeHere_parts jp _ h2.1
    rw [refract2v8_option, bind_eq_error] at hf
    rcases hf with hf | ⟨a, -, hf⟩
    · exact ni_info jp i n sm h2.2.1 hp.2.1 hp.2.2.1 f hf
    · cases c with
      | none => exact absurd hf (pure_ne_error _ _)
      | some l =>
        simp only [bind_eq_error] at hf
        rcases hf with hf | ⟨x, -, hf⟩
        · exact ni_values jp l sm 0 [] ((safeHere_list jp n i l).1 h2.1) (h2.2.2 l rfl) f hf
        · exact absurd hf (pure_ne_error _ _)
  | .select n i c, sm, h, f, hf => by
    have h2 := all_select _ n i c h
    have hp := safeHere_parts jp _ h2.1
    rw [refract2v8_select, bind_eq_error] at hf
    rcases hf with hf | ⟨a, -, hf⟩
    · exact ni_info jp i n sm h2.2.1 hp.2.1 hp.2.2.1 f hf
    · cases c with
      | none => exact absurd hf (pure_ne_error _ _)
      | some l =>
        simp only [bind_eq_error] at hf
        rcases hf with hf | ⟨x, -, hf⟩
        · exact ni_values jp l sm 0 [] ((safeHere_list jp n i l).2.1 h2.1) (h2.2.2 l rfl)
            f hf
        · exact absurd hf (pure_ne_error _ _)
  | .object n i c, sm, h, f, hf => by
    have h2 := all_object _ n i c h
    have hp := safeHere_parts jp _ h2.1
    rw [refract2v8_object, bind_eq_error] at hf
    rcases hf with hf | ⟨a, -, hf⟩
    · exact ni_info jp i n sm h2.2.1 hp.2.1 hp.2.2.1 f hf
    · cases c with
      | none => exact absurd hf (pure_ne_error _ _)
      | some l =>
        have hsome := (safeHere_list jp n i l).2.2 h2.1
        have hall := h2.2.2 l rfl
        cases l with
        | nil => exact absurd hf (pure_ne_error _ _)
        | cons y l =>
          simp only [List.isEmpty_cons, Bool.not_false, if_true, bind_eq_error] at hf
          rcases hf with hf | ⟨x, -, hf⟩
          · exact ni_values jp (y :: l) sm 0 [] hsome hall f hf
          · exact absurd hf (pure_ne_error _ _)
  | .other n i b, sm, _, f, hf => by
    rw [refract2v8_other] at hf
    cases hf
  | .ref n i b s, sm, h, f, hf => by
    have h2 := (all_leaf _ n i).2.2.2.2.2 b s h
    have hp := safeHere_parts jp _ h2.1
    rw [refract2v8_ref, bind_eq_error] at hf
    rcases hf with hf | ⟨a, -, hf⟩
    · exact ni_info jp i n sm h2.2 hp.2.1 hp.2.2.1 f hf
    · exact absurd hf (pure_ne_error _ _)
  | .holder n i c, sm, h, f, hf => by
    have h2 := all_holder _ n i c h
    have hp := safeHere_parts jp _ h2.1
    rw [refract2v8_holder, bind_eq_error] at hf
    rcases hf with hf | ⟨a, -, hf⟩
    · exact ni_info jp i n sm h2.2.1 hp.2.1 hp.2.2.1 f hf
    · cases c with
      | none => exact absurd hf (pure_ne_error _ _)
      | some child =>
        rw [bind_eq_error] at hf
        rcases hf with hf | ⟨x, hx, hf⟩
        · exact ni_required jp child sm ((safeHere_single jp n i child).2 h2.1)
            (h2.2.2 child rfl) f hf
        · obtain ⟨y, hy⟩ := pointer_ok_some jp child sm (h2.2.2 child rfl) x hx
          subst hy
          cases hf
theorem ni_info (jp : String → Option Value) : ∀ (i : Info) (n : String) (sm : Bool),
    i.all (Element.safeHere jp) = true →
    List.all i.meta (fun kc => kc.2.isSome) = true →
    List.all i.attributes (fun kc => kc.2.isSome) = true →
    ∀ f, v8Element jp n i sm = .error f → f = extendFailure
  | .mk m a, n, sm, h, hm, ha, f, hf => by
    have h2 := all_info _ m a h
    rcases v8Element_error jp n m a sm f hf with h3 | h3
    · exact ni_entries jp m sm [] h2.1 hm f h3
    · exact ni_entries jp a _ [] h2.2 ha f h3
theorem ni_entries (jp : String → Option Value) : ∀ (m : List (String × Option Element))
    (sm : Bool) (acc : Obj), entriesAll (Element.safeHere jp) m = true →
    List.all m (fun kc => kc.2.isSome) = true →
    ∀ f, v8ElementCollection jp m sm acc = .error f → f = extendFailure
  | [], sm, acc, _, _, f, hf => by
    rw [v8ElementCollection_nil] at hf
    cases hf
  | (k, none) :: m, sm, acc, _, hp, f, hf => by
    have hp2 := (present_cons k none m hp).1
    cases hp2
  | (k, some e) :: m, sm, acc, h, hp, f, hf => by
    have h2 := entriesAll_cons _ k (some e) m h
    have hp2 := (present_cons k (some e) m hp).2
    by_cases hs : survives sm k = true
    · rw [v8ElementCollection_cons_some jp k e m sm acc hs] at hf
      cases hr : refract2v8 jp e sm with
      | error g =>
        rw [hr] at hf
        cases hf
        exact ni_element jp e sm h2.1 _ hr
      | ok r =>
        obtain ⟨v, hv⟩ := ok_some_of_safe jp e sm h2.1 r hr
        subst hv
        rw [hr] at hf
        exact ni_entries jp m sm _ h2.2 hp2 f hf
    · rw [v8ElementCollection_cons_skip jp k _ m sm acc (by simpa using hs)] at hf
      exact ni_entries jp m sm acc h2.2 hp2 f hf
theorem ni_guarded (jp : String → Option Value) : ∀ (c : Option Element) (sm : Bool),
    pointerAll (Element.safeHere jp) c = true →
    ∀ f, (match c with
      | some _ => ElementToObject jp c sm
      | none => (pure none : Except Failure (Option Value))) = .error f →
    f = extendFailure
  | none, _, _, f, hf => absurd hf (pure_ne_error _ _)
  | some e, sm, h, f, hf => by
    have hf2 : ElementToObject jp (some e) sm = .error f := hf
    rw [ElementToObject_some] at hf2
    exact ni_element jp e sm h f hf2
theorem ni_required (jp : String → Option Value) : ∀ (c : Option Element) (sm : Bool),
    c.isSome = true → pointerAll (Element.safeHere jp) c = true →
    ∀ f, ElementToObject jp c sm = .error f → f = extendFailure
  | none, _, hs, _, _, _ => by cases hs
  | some e, sm, _, h, f, hf => by
    rw [ElementToObject_some] at hf
    exact ni_element jp e sm h f hf
theorem ni_values (jp : String → Option Value) : ∀ (l : List (Option Element)) (sm : Bool)
    (i : Nat) (acc : Arr), l.all Option.isSome = true →
    pointersAll (Element.safeHere jp) l = true →
    ∀ f, valueListLoop jp l sm i acc = .error f → f = extendFailure
  | [], sm, i, acc, _, _, f, hf => by
    rw [valueListLoop_nil] at hf
    cases hf
  | el :: rest, sm, i, acc, hs, h, f, hf => by
    have h2 := pointersAll_cons _ el rest h
    have hs2 := all_isSome_cons el rest hs
    rw [valueListLoop_cons, bind_eq_error] at hf
    rcases hf with hf | ⟨x, hx, hf⟩
    · exact ni_required jp el sm hs2.1 h2.1 f hf
    · obtain ⟨v, hv⟩ := pointer_ok_some jp el sm h2.1 x hx
      subst hv
      exact ni_values jp rest sm (i + 1) _ hs2.2 h2.2 f hf
theorem ni_items (jp : String → Option Value) : ∀ (l : List (Option Element)) (sm : Bool)
    (i : Nat) (acc : Arr), pointersAll (Element.safeHere jp) l = true →
    ∀ f, arrayLoop jp l sm i acc = .error f → f = extendFailure
  | [], sm, i, acc, _, f, hf => by
    rw [arrayLoop_nil] at hf
    cases hf
  | none :: rest, sm, i, acc, h, f, hf => by
    rw [arrayLoop_cons_none] at hf
    exact ni_items jp rest sm (i + 1) acc (pointersAll_cons _ none rest h).2 f hf
  | some e :: rest, sm, i, acc, h, f, hf => by
    have h2 := pointersAll_cons _ (some e) rest h
    rw [arrayLoop_cons_some, bind_eq_error] at hf
    rcases hf with hf | ⟨x, hx, hf⟩
    · exact ni_element jp e sm h2.1 f hf
    · obtain ⟨v, hv⟩ := ok_some_of_safe jp e sm h2.1 x hx
      subst hv
      exact ni_items jp rest sm (i + 1) _ h2.2 f hf
end

/-! ## The projection as meta, attributes and content -/

/-- C13, as stated, fails: this member has an `ExtendElement` as its value, and its key is a
number whose text does not parse; the key is projected first, `ToLocalChecked()` meets an
empty handle, and the conversion ends there and not with the NotImplemented failure. -/
theorem C13_counterexample :
    (∀ sm, memberWithBadNumberKey.projectsExtend sm = true) ∧
    (∀ sm, refract2v8 (fun _ => none) memberWithBadNumberKey sm =
      .error Failure.emptyMaybeLocal) ∧
    Failure.emptyMaybeLocal ≠ extendFailure := by
  refine ⟨?_, ?_, ?_⟩
  · intro sm; cases sm <;> rfl
  · intro sm; cases sm <;> rfl
  · intro h; cases h

/-- C13, as amended: for every Extend element and either flag, the projection fails with the
NotImplemented failure and produces no value; and for every element of a handled kind that
has an Extend element as a projected child (a list item, a member key or value, an enum
value, holder data, or a present meta or attributes child that the filter keeps), the
projection of the parent fails as well and returns no partial or fallback value; the failure
is the NotImplemented failure on every tree in which every element is of a handled kind,
every child pointer is present (the children of meta and attributes, the key and the value of
a member, the value of a non-empty enum, the data of a non-empty holder, the items of an
option, select or object list) and every number text parses. -/
theorem C13_extend_failure_propagates (jp : String → Option Value) (sm : Bool) :
    (∀ n i c, refract2v8 jp (.extend n i c) sm = .error extendFailure) ∧
    (∀ e : Element, e.projectsExtend sm = true →
      (∃ f, refract2v8 jp e sm = .error f) ∧
      (e.all (Element.safeHere jp) = true → refract2v8 jp e sm = .error extendFailure)) := by
  refine ⟨fun n i c => rfl, ?_⟩
  intro e he
  obtain ⟨f, hf⟩ := error_of_not_ok _ (projectsExtend_not_ok jp e sm he)
  refine ⟨⟨f, hf⟩, ?_⟩
  intro hsafe
  rw [hf, ni_element jp e sm hsafe f hf]

/-- C13, witness: an object element whose list holds an Extend element. -/
theorem C13_extend_failure_propagates_witness :
    (∃ f, refract2v8 (fun _ => none) objectOfExtend false = .error f) ∧
      refract2v8 (fun _ => none) objectOfExtend false = .error extendFailure :=
  ⟨(((C13_extend_failure_propagates (fun _ => none) false).2 objectOfExtend rfl).1),
   (((C13_extend_failure_propagates (fun _ => none) false).2 objectOfExtend rfl).2 rfl)⟩

/-- C20: for every element tree in which no meta or attributes mapping has a `"sourceMap"`
key, at any depth, the projections of the root with flag true and with flag false are equal,
also when the tree holds elements with the kind name `"annotation"`; on a well formed tree
both end with the same result. -/
theorem C20_flag_acts_through_filter_only (jp : String → Option Value) (e : Element)
    (h : e.all Element.withoutSourceMapKey = true) :
    refract2v8 jp e true = refract2v8 jp e false ∧
    (e.wellFormed jp = true →
      ∃ r, refract2v8 jp e true = .ok r ∧ refract2v8 jp e false = .ok r) := by
  have heq := flag_element jp e h
  refine ⟨heq, ?_⟩
  intro hw
  obtain ⟨v, hv⟩ := wf_element jp e true hw
  exact ⟨some v, hv, heq ▸ hv⟩

/-- C20, witness: an annotation without `"sourceMap"` keys projects alike with both flags. -/
theorem C20_flag_acts_through_filter_only_witness :
    refract2v8 (fun s => some (Value.number s)) annotationWithoutSourceMap true =
        refract2v8 (fun s => some (Value.number s)) annotationWithoutSourceMap false ∧
      ∃ r, refract2v8 (fun s => some (Value.number s)) annotationWithoutSourceMap true =
          .ok r ∧
        refract2v8 (fun s => some (Value.number s)) annotationWithoutSourceMap false = .ok r :=
  ⟨(C20_flag_acts_through_filter_only (fun s => some (Value.number s))
      annotationWithoutSourceMap rfl).1,
   (C20_flag_acts_through_filter_only (fun s => some (Value.number s))
      annotationWithoutSourceMap rfl).2 rfl⟩

end RefractToV8
